import Mathlib

/-!
# VieCut multiterminal cut: driver, reductions and per-thread problem queue

A shallow embedding of
* `lib/algorithms/multicut/multicut_problem.h`
* `lib/algorithms/multicut/multiterminal_cut.h`
* `lib/algorithms/multicut/problem_queues/per_thread_problem_queue.h`
* `lib/algorithms/misc/graph_algorithms.h`

Vectors are lists, `shared_ptr` handles are values, mutable members are threaded
through explicitly.  Unsigned machine integers are naturals reduced modulo
`2 ^ 64`; `FlowType` is a signed integer of `w` bits, reduced by `wrapFlow w`.
-/

set_option autoImplicit false

namespace VieCut

/-! ## Machine integers -/

/-! The unsigned types (node and edge identifiers, edge weights, `size_t`) are
`Nat`, the signed `FlowType` is `Int`. -/

/-- Number of values of `size_t`: `2 ^ 64`. -/
def size_t_mod : Nat := 18446744073709551616

/-- Reduction of an integer to the range of a signed `w`-bit `FlowType`. -/
def wrapFlow (w : Nat) (x : Int) : Int :=
  (x + 2 ^ (w - 1)) % 2 ^ w - 2 ^ (w - 1)

/-- Largest `FlowType` value, `std::numeric_limits<FlowType>::max()`. -/
def flowMax (w : Nat) : Int := 2 ^ (w - 1) - 1

/-- Conversion of a `FlowType` value to `size_t`. -/
def toSizeT (x : Int) : Nat := (x % (size_t_mod : Int)).toNat

/-! ## Data model -/

/-- Modelled from the spec: `data_structure/mutable_graph.h` is not among the
sources.  A half-edge carries its target vertex, its weight and the index of its
reverse half-edge at the target. -/
structure HalfEdge where
  target : Nat
  weight : Nat
  reverse : Nat
deriving DecidableEq, Repr, Inhabited

/-- Modelled from the spec: `data_structure/mutable_graph.h` is not among the
sources.  The mutable graph stores, per vertex, the incident half-edges, the
weighted degree, the contained original vertices and a partition index; per
original vertex its current position; and the number of edge slots `m()`.
The default value (no vertices) also stands for a null handle. -/
structure mutable_graph where
  adjacency : List (List HalfEdge)
  weighted_degree : List Nat
  contained : List (List Nat)
  current_position : List Nat
  partition_index : List Nat
  edge_slots : Nat
deriving DecidableEq, Repr, Inhabited

namespace mutable_graph

/-! Modelled from the spec: the accessors of the absent `mutable_graph.h` that the
sources call, reading the fields above; an index out of range reads a default. -/

def n (G : mutable_graph) : Nat := G.adjacency.length

def number_of_nodes (G : mutable_graph) : Nat := G.adjacency.length

def nodes (G : mutable_graph) : List Nat := List.range G.n

def halfEdges (G : mutable_graph) (v : Nat) : List HalfEdge := G.adjacency.getD v []

def get_first_invalid_edge (G : mutable_graph) (v : Nat) : Nat := (G.halfEdges v).length

def edges_of (G : mutable_graph) (v : Nat) : List Nat :=
  List.range (G.get_first_invalid_edge v)

def getEdgeTarget (G : mutable_graph) (v : Nat) (e : Nat) : Nat :=
  ((G.halfEdges v).getD e default).target

def getEdgeWeight (G : mutable_graph) (v : Nat) (e : Nat) : Nat :=
  ((G.halfEdges v).getD e default).weight

def getReverseEdge (G : mutable_graph) (v : Nat) (e : Nat) : Nat :=
  ((G.halfEdges v).getD e default).reverse

def getWeightedNodeDegree (G : mutable_graph) (v : Nat) : Nat :=
  G.weighted_degree.getD v 0

def containedVertices (G : mutable_graph) (v : Nat) : List Nat :=
  G.contained.getD v []

def getCurrentPosition (G : mutable_graph) (v : Nat) : Nat :=
  G.current_position.getD v 0

def getPartitionIndex (G : mutable_graph) (v : Nat) : Nat :=
  G.partition_index.getD v 0

def setPartitionIndex (G : mutable_graph) (v : Nat) (p : Nat) : mutable_graph :=
  { G with partition_index := G.partition_index.set v p }

def m (G : mutable_graph) : Nat := G.edge_slots

end mutable_graph

/-- The struct `terminal` of `multicut_problem.h`. -/
structure terminal where
  position : Nat
  original_id : Nat
  invalid_flow : Bool
deriving DecidableEq, Repr, Inhabited

/-- The constructor `terminal(position, original_id)`. -/
def terminal.mk2 (position original_id : Nat) : terminal :=
  { position := position, original_id := original_id, invalid_flow := true }

/-- The struct `multicut_problem` of `multicut_problem.h`. -/
structure multicut_problem where
  graph : mutable_graph
  terminals : List terminal
  mappings : List (List Nat)
  lower_bound : Int
  upper_bound : Int
  deleted_weight : Nat
  path : String
deriving DecidableEq, Repr, Inhabited

/-- The constructor `multicut_problem(G, term)`: no mappings, lower bound `-1`,
upper bound the largest `FlowType`, nothing deleted, empty path. -/
def multicut_problem.mk2 (w : Nat) (G : mutable_graph) (term : List terminal) :
    multicut_problem :=
  { graph := G, terminals := term, mappings := [], lower_bound := -1,
    upper_bound := flowMax w, deleted_weight := 0, path := "" }

/-- The member `multicut_problem::mapped`. -/
def multicut_problem.mapped (p : multicut_problem) (n : Nat) : Nat :=
  p.mappings.foldl (fun n_coarse map => map.getD n_coarse 0) n

/-! ## The driver `multiterminal_cut` -/

/-- What the driver uses but the sources do not contain, taken as parameters:
`strong_components` (labels per vertex and their number), `extract_block` (the
extracted graph and the vector the source calls `reverse_mapping`, indexed by
original identifier), `contractIsolatingBlocks`, the branch-and-bound engine
`find_multiterminal_cut` (given the arguments of the `branch_multicut` constructor
and the subproblem), the configured `bfs_size` and the width of `FlowType`. -/
structure Collaborators where
  strong_components : mutable_graph → List Nat × Nat
  extract_block : mutable_graph → Nat → List Nat → mutable_graph × List Nat
  contractIsolatingBlocks : multicut_problem → List (List Nat) → multicut_problem
  find_multiterminal_cut : mutable_graph → List Nat → multicut_problem → Int
  bfs_size : Nat
  flow_bits : Nat

/-- The vectors `splitConnectedComponents` fills while it walks the terminals. -/
structure SplitState where
  t_comp : List Nat
  terminals : List (List terminal)
  ctr : List Nat
  component_subgraph : List mutable_graph
deriving Repr

/-- The first loop of `splitConnectedComponents`: `num_terminals[components[t]]++`. -/
def countTerminals (components : List Nat) (num_comp : Nat) (all_terminals : List Nat) :
    List Nat :=
  all_terminals.foldl
    (fun num_terminals t =>
      num_terminals.set (components.getD t 0) (num_terminals.getD (components.getD t 0) 0 + 1))
    (List.replicate num_comp 0)

/-- The innermost loop of `splitConnectedComponents`: every terminal of the component
is appended with the next counter value as its `original_id`. -/
def collectTerminals (components : List Nat) (reverse_mapping : List Nat)
    (terminal_component : Nat) (all_terminals : List Nat) (st : SplitState) : SplitState :=
  all_terminals.foldl
    (fun st i =>
      if components.getD i 0 = terminal_component then
        { st with
          terminals := st.terminals.set terminal_component
            (st.terminals.getD terminal_component []
              ++ [terminal.mk2 (reverse_mapping.getD i 0) (st.ctr.getD terminal_component 0)])
          ctr := st.ctr.set terminal_component (st.ctr.getD terminal_component 0 + 1) }
      else st)
    st

/-- One round of the second loop of `splitConnectedComponents`, for terminal `t`. -/
def splitStep (env : Collaborators) (G : mutable_graph) (components : List Nat)
    (num_terminals : List Nat) (all_terminals : List Nat)
    (st : SplitState) (t : Nat) : SplitState :=
  let terminal_component := components.getD t 0
  if num_terminals.getD terminal_component 0 = 1 then st
  else
    let st1 :=
      if ¬ st.t_comp.contains terminal_component then
        let ex := env.extract_block G terminal_component components
        collectTerminals components ex.2 terminal_component all_terminals
          { st with
            component_subgraph := st.component_subgraph.set terminal_component ex.1 }
      else st
    { st1 with t_comp := st1.t_comp ++ [terminal_component] }

/-- The member `splitConnectedComponents(G, all_terminals)`. -/
def splitConnectedComponents (env : Collaborators) (G : mutable_graph)
    (all_terminals : List Nat) : List multicut_problem :=
  let components := (env.strong_components G).1
  let num_comp := (env.strong_components G).2
  let num_terminals := countTerminals components num_comp all_terminals
  let st := all_terminals.foldl (splitStep env G components num_terminals all_terminals)
    { t_comp := [], terminals := List.replicate num_comp [],
      ctr := List.replicate num_comp 0,
      component_subgraph := List.replicate num_comp default }
  (List.range num_comp).foldl
    (fun problems i =>
      if (st.terminals.getD i []).length > 1 then
        problems ++ [multicut_problem.mk2 env.flow_bits (st.component_subgraph.getD i default)
          (st.terminals.getD i [])]
      else problems)
    []

/-- The terminals of `all_terminals` that lie in component `c`, in input order. -/
def terminalsIn (components : List Nat) (all_terminals : List Nat) (c : Nat) :
    List Nat :=
  all_terminals.filter (fun t => components.getD t 0 = c)

/-- The terminal records expected for component `c`: its terminals in input order,
the `j`-th at the position `reverse_mapping` gives it and with `original_id = j`. -/
def blockTerminals (components : List Nat) (reverse_mapping : List Nat)
    (all_terminals : List Nat) (c : Nat) : List terminal :=
  (terminalsIn components all_terminals c).enum.map
    (fun jt => terminal.mk2 (reverse_mapping.getD jt.2 0) jt.1)

/-- What the second loop of `splitConnectedComponents` keeps true after the
terminals `done` have been handled: a component is recorded in `t_comp` exactly when
one of the handled terminals lies in it and it does not have exactly one terminal;
recorded components hold their extracted graph and all their terminals, the others
hold nothing yet. -/
def SplitState.Invariant (env : Collaborators) (G : mutable_graph)
    (all_terminals : List Nat) (done : List Nat) (st : SplitState) : Prop :=
  st.terminals.length = (env.strong_components G).2 ∧
  st.ctr.length = (env.strong_components G).2 ∧
  st.component_subgraph.length = (env.strong_components G).2 ∧
  (∀ c, c ∈ st.t_comp ↔
    ∃ t, t ∈ done ∧ (env.strong_components G).1.getD t 0 = c ∧
      (terminalsIn (env.strong_components G).1 all_terminals c).length ≠ 1) ∧
  (∀ c, c < (env.strong_components G).2 → c ∈ st.t_comp →
    st.terminals.getD c [] =
      blockTerminals (env.strong_components G).1
        (env.extract_block G c (env.strong_components G).1).2 all_terminals c ∧
    st.component_subgraph.getD c default
      = (env.extract_block G c (env.strong_components G).1).1) ∧
  (∀ c, c < (env.strong_components G).2 → c ∉ st.t_comp →
    st.terminals.getD c [] = [] ∧ st.ctr.getD c 0 = 0)

/-- The variables of one breadth-first search of `addSurroundingAreaToTerminals`,
and with them the record `reached` of the vertices the search has looked at so far
(its start vertex and the targets of the edges it has read), which is not a
variable of the source. -/
structure BfsState where
  already_in_block : List Bool
  bfs_q : List Nat
  block : List Nat
  current_block_size : Nat
  reached : List Nat
deriving Repr, DecidableEq, Inhabited

/-- The `for` loop over the edges of `n`, with its `break`. -/
def bfsVisitEdges (bfs_size : Nat) (G : mutable_graph) (n : Nat) :
    List Nat → BfsState → BfsState
  | [], st => st
  | e :: es, st =>
    let tgt := G.getEdgeTarget n e
    if st.already_in_block.getD tgt false = false then
      let st1 : BfsState :=
        { already_in_block := st.already_in_block.set tgt true
          bfs_q := st.bfs_q ++ [tgt]
          block := st.block ++ [tgt]
          current_block_size := st.current_block_size + 1
          reached := st.reached ++ [tgt] }
      if st1.current_block_size ≥ bfs_size then st1
      else bfsVisitEdges bfs_size G n es st1
    else bfsVisitEdges bfs_size G n es { st with reached := st.reached ++ [tgt] }

/-- The `while` loop of one search; `fuel` bounds the number of rounds. -/
def bfsWhile (bfs_size : Nat) (G : mutable_graph) : Nat → BfsState → BfsState
  | 0, st => st
  | fuel + 1, st =>
    match st.bfs_q with
    | [] => st
    | n :: q =>
      if st.current_block_size < bfs_size then
        bfsWhile bfs_size G fuel
          (bfsVisitEdges bfs_size G n (G.edges_of n) { st with bfs_q := q })
      else st

/-- The search from terminal `t`.  Every round of the `while` loop removes one
queue entry and at most `bfs_size` entries are ever queued, so `bfs_size` rounds
are enough. -/
def bfsFrom (bfs_size : Nat) (G : mutable_graph) (already_in_block : List Bool) (t : Nat) :
    BfsState :=
  bfsWhile bfs_size G bfs_size
    { already_in_block := already_in_block, bfs_q := [t], block := [t],
      current_block_size := 1, reached := [t] }

/-- The flags after the first loop over the terminals: every terminal is marked. -/
def markTerminals (G : mutable_graph) (terminals : List Nat) : List Bool :=
  terminals.foldl (fun a t => a.set t true) (List.replicate G.number_of_nodes false)

/-- The second loop over the terminals: the flags after it and, per terminal, the
variables of its search when it ended. -/
def searchAll (bfs_size : Nat) (G : mutable_graph) (terminals : List Nat) :
    List Bool × List BfsState :=
  terminals.foldl
    (fun (acc : List Bool × List BfsState) t =>
      ((bfsFrom bfs_size G acc.1 t).already_in_block, acc.2 ++ [bfsFrom bfs_size G acc.1 t]))
    (markTerminals G terminals, [])

/-- The blocks built by the two loops over the terminals. -/
def buildBlocks (bfs_size : Nat) (G : mutable_graph) (terminals : List Nat) :
    List (List Nat) :=
  (searchAll bfs_size G terminals).2.map (fun st => st.block)

/-- The member `addSurroundingAreaToTerminals(mcp, terminals)`. -/
def addSurroundingAreaToTerminals (env : Collaborators) (mcp : multicut_problem)
    (terminals : List Nat) : multicut_problem :=
  if env.bfs_size ≠ 0 then
    let blocks := buildBlocks env.bfs_size mcp.graph terminals
    let mcp1 := env.contractIsolatingBlocks mcp blocks
    let g1 := mcp1.graph.nodes.foldl (fun g n => g.setPartitionIndex n 0) mcp1.graph
    let g2 := (List.range terminals.length).foldl
      (fun g l => g.setPartitionIndex (g.getCurrentPosition (terminals.getD l 0)) l) g1
    { mcp1 with graph := g2 }
  else mcp

/-- The value the engine returns for a subproblem of the driver, after
`addSurroundingAreaToTerminals` has been applied to it. -/
def engineValue (env : Collaborators) (problem : multicut_problem) : Int :=
  env.find_multiterminal_cut problem.graph (problem.terminals.map (fun t => t.position))
    (addSurroundingAreaToTerminals env problem (problem.terminals.map (fun t => t.position)))

/-- One call of the engine made by the driver: the arguments of the
`branch_multicut` constructor and the subproblem handed to `find_multiterminal_cut`. -/
structure EngineCall where
  graph : mutable_graph
  terminals : List Nat
  problem : multicut_problem
deriving Repr

/-- The loop of `multicut` over the subproblems: the running `flow_sum` and the
engine calls made so far. -/
def multicutLoop (env : Collaborators) (problems : List multicut_problem) :
    Int × List EngineCall :=
  problems.foldl
    (fun (acc : Int × List EngineCall) problem =>
      let terminals := problem.terminals.map (fun t => t.position)
      let problem_pointer := addSurroundingAreaToTerminals env problem terminals
      (wrapFlow env.flow_bits
          (acc.1 + env.find_multiterminal_cut problem.graph terminals problem_pointer),
        acc.2 ++ [{ graph := problem.graph, terminals := terminals,
                    problem := problem_pointer }]))
    (0, [])

/-- The member `multicut(G, terminals)`; `flow_sum` is returned as a `size_t`. -/
def multicut (env : Collaborators) (G : mutable_graph) (terminals : List Nat) : Nat :=
  toSizeT (multicutLoop env (splitConnectedComponents env G terminals)).1

/-- The engine calls `multicut(G, terminals)` makes, in order. -/
def multicutCalls (env : Collaborators) (G : mutable_graph) (terminals : List Nat) :
    List EngineCall :=
  (multicutLoop env (splitConnectedComponents env G terminals)).2

/-! ## The collaborators, modelled from the specification -/

/-- Modelled from the spec: a labelling of the vertices by terminal indices (the
engine `branch_multicut` is not among the sources).  The label a list gives a
vertex; vertices outside the list have label 0. -/
def labelOf (label : List Nat) (v : Nat) : Nat := label.getD v 0

/-- Modelled from the spec: the weight of the multiway cut a labelling describes
(the engine `branch_multicut` that evaluates cuts is not among the sources).  The
label of a vertex names the terminal on whose side it lies; an undirected edge is
stored as two half-edges and is cut when its end points have different labels, and
it is counted once, at the half-edge leading from the smaller to the larger label. -/
def cutWeight (G : mutable_graph) (label : List Nat) : Nat :=
  (G.nodes.map (fun v =>
    ((G.halfEdges v).map (fun he =>
      if labelOf label v < labelOf label he.target then he.weight else 0)).sum)).sum

/-- Modelled from the spec: every terminal lies on a side of its own (the engine
`branch_multicut` is not among the sources).  A labelling separates the terminals
when terminal `i` has label `i`. -/
def separates (terminals : List Nat) (label : List Nat) : Bool :=
  (List.range terminals.length).all (fun i => labelOf label (terminals.getD i 0) == i)

/-- A labelling of `G` that can describe a multiway cut for `terminals`: one label
per vertex, labels below the number of terminals, terminal `i` labelled `i`. -/
def feasible (G : mutable_graph) (terminals : List Nat) (label : List Nat) : Prop :=
  label.length = G.n ∧ (∀ x, x ∈ label → x < max terminals.length 1) ∧
  separates terminals label = true

/-- All lists of length `n` with entries below `k`. -/
def allLabellings (k : Nat) : Nat → List (List Nat)
  | 0 => [[]]
  | n + 1 => (allLabellings k n).flatMap (fun l => (List.range k).map (fun x => x :: l))

/-- The smallest element of a list, if any. -/
def listMin : List Nat → Option Nat
  | [] => none
  | x :: xs => some (xs.foldl min x)

/-- Modelled from the spec: the optimum multiway cut of `G` with respect to
`terminals`, the least weight of a cut that leaves every terminal on a side of its
own, found by trying every labelling (`branch_multicut` is not among the sources).
There is no value when no labelling separates the terminals. -/
def optimum (G : mutable_graph) (terminals : List Nat) : Option Nat :=
  listMin (((allLabellings (max terminals.length 1) G.n).filter
    (fun l => separates terminals l)).map (cutWeight G))

/-- Modelled from the spec: `find_multiterminal_cut` of the absent
`branch_multicut.h` returns the optimum multiway cut of the subproblem it is given,
as a `FlowType`. -/
def find_multiterminal_cut_spec (w : Nat) (_graph : mutable_graph) (_terminals : List Nat)
    (problem : multicut_problem) : Int :=
  wrapFlow w (((optimum problem.graph (problem.terminals.map (fun t => t.position))).getD 0 :
    Nat) : Int)

/-- Modelled from the spec: one step of the component search of the absent
`strongly_connected_components.h`: the end points of a half-edge get the same
label, every vertex labelled like the target taking the label of the source. -/
def mergeLabels (label : List Nat) (v u : Nat) : List Nat :=
  label.map (fun x => if x = labelOf label u then labelOf label v else x)

/-- Modelled from the spec: the half-edges of the graph as pairs of source and
target, for the component search of the absent `strongly_connected_components.h`. -/
def allEdges (G : mutable_graph) : List (Nat × Nat) :=
  G.nodes.flatMap (fun v => (G.halfEdges v).map (fun he => (v, he.target)))

/-- Modelled from the spec: the labels of the absent `strongly_connected_components.h`
after all half-edges have been merged, starting from `label`. -/
def mergeAll (G : mutable_graph) (label : List Nat) : List Nat :=
  (allEdges G).foldl (fun lab e => mergeLabels lab e.1 e.2) label

/-- Modelled from the spec: `strong_components` of the absent
`strongly_connected_components.h` computes the connected components of the
undirected graph, as a dense label per vertex and the number of labels. -/
def strong_components_spec (G : mutable_graph) : List Nat × Nat :=
  let raw := mergeAll G (List.range G.n)
  (raw.map (fun x => raw.dedup.indexOf x), raw.dedup.length)

/-- Modelled from the spec: `extract_block` of the absent `graph_extractor`
extracts the subgraph induced by component `c` with a fresh dense identifier space
(the vertices of the component in increasing order) and returns with it the vector
that maps an original identifier to the new one. -/
def extract_block_spec (G : mutable_graph) (c : Nat) (components : List Nat) :
    mutable_graph × List Nat :=
  let inBlock : Nat → Bool := fun v => components.getD v 0 == c
  let members := G.nodes.filter inBlock
  let reverse_mapping := G.nodes.map (fun v => ((List.range v).filter inBlock).length)
  let adjacency := members.map (fun v =>
    ((G.halfEdges v).filter (fun he => inBlock he.target)).map (fun he =>
      ({ target := reverse_mapping.getD he.target 0
         weight := he.weight
         reverse := (((G.halfEdges he.target).take he.reverse).filter
            (fun r => inBlock r.target)).length } : HalfEdge)))
  ({ adjacency := adjacency
     weighted_degree := adjacency.map (fun es => (es.map (fun he => he.weight)).sum)
     contained := (List.range members.length).map (fun a => [a])
     current_position := List.range members.length
     partition_index := List.replicate members.length 0
     edge_slots := (adjacency.map List.length).sum },
   reverse_mapping)

/-- Modelled from the spec: the vertex the absent `contractIsolatingBlocks` merges
`v` into: the first element of the first block that contains `v`, and `v` itself
when no block contains it. -/
def blockHead (blocks : List (List Nat)) (v : Nat) : Nat :=
  match blocks.find? (fun b => b.contains v) with
  | some b => b.headD v
  | none => v

/-- Modelled from the spec: the identifier of vertex `v` after the absent
`contractIsolatingBlocks` has contracted the blocks (a dense renumbering of the
merged vertices). -/
def contractedId (G : mutable_graph) (blocks : List (List Nat)) (v : Nat) : Nat :=
  ((G.nodes.map (blockHead blocks)).dedup).indexOf (blockHead blocks v)

/-- Modelled from the spec: the half-edges leaving the vertices that the absent
`contractIsolatingBlocks` contracts into `a`. -/
def contractedOut (G : mutable_graph) (blocks : List (List Nat)) (a : Nat) : List HalfEdge :=
  (G.nodes.filter (fun v => contractedId G blocks v == a)).flatMap G.halfEdges

/-- Modelled from the spec: the neighbours of the contracted vertex `a` after the
absent `contractIsolatingBlocks`, in increasing order. -/
def contractedNeighbours (G : mutable_graph) (blocks : List (List Nat)) (a : Nat) : List Nat :=
  (List.range ((G.nodes.map (blockHead blocks)).dedup).length).filter (fun b =>
    b != a && (contractedOut G blocks a).any (fun he => contractedId G blocks he.target == b))

/-- The labelling of `G` that gives every vertex the label its contracted vertex
has in `label`. -/
def liftedLabelling (G : mutable_graph) (blocks : List (List Nat)) (label : List Nat) :
    List Nat :=
  G.nodes.map (fun v => labelOf label (contractedId G blocks v))

/-- Modelled from the spec: `contractIsolatingBlocks` of the absent
`graph_contraction` contracts each block into its first vertex, the terminal:
the vertices of a block become one vertex, parallel edges are merged with their
weights added, edges inside a block are dropped, the contained vertices are united
and every current position follows its vertex; the terminals move with their
vertices. -/
def contractIsolatingBlocks_spec (mcp : multicut_problem) (blocks : List (List Nat)) :
    multicut_problem :=
  let G := mcp.graph
  let n1 := ((G.nodes.map (blockHead blocks)).dedup).length
  let adjacency := (List.range n1).map (fun a =>
    (contractedNeighbours G blocks a).map (fun b =>
      ({ target := b
         weight := (((contractedOut G blocks a).filter
            (fun he => contractedId G blocks he.target == b)).map (fun he => he.weight)).sum
         reverse := ((contractedNeighbours G blocks b).indexOf a) } : HalfEdge)))
  { mcp with
    graph :=
      { adjacency := adjacency
        weighted_degree := adjacency.map (fun es => (es.map (fun he => he.weight)).sum)
        contained := (List.range n1).map (fun a =>
          (G.nodes.filter (fun v => contractedId G blocks v == a)).flatMap G.containedVertices)
        current_position := G.current_position.map (contractedId G blocks)
        partition_index := List.replicate n1 0
        edge_slots := (adjacency.map List.length).sum }
    terminals := mcp.terminals.map (fun t =>
      { t with position := contractedId G blocks t.position }) }

/-- The driver with every absent collaborator modelled from the specification. -/
def specEnv (bfs_size w : Nat) : Collaborators :=
  { strong_components := strong_components_spec
    extract_block := extract_block_spec
    contractIsolatingBlocks := contractIsolatingBlocks_spec
    find_multiterminal_cut := find_multiterminal_cut_spec w
    bfs_size := bfs_size
    flow_bits := w }

/-- A graph given by its undirected weighted edges `(u, v, weight)`, stored as two
half-edges each, with identity positions and all partition indices 0. -/
def graphOfEdges (n : Nat) (edges : List (Nat × Nat × Nat)) : mutable_graph :=
  let adjacency := edges.foldl
    (fun (adj : List (List HalfEdge)) e =>
      let du := (adj.getD e.1 []).length
      let dv := (adj.getD e.2.1 []).length
      (adj.set e.1 (adj.getD e.1 [] ++ [{ target := e.2.1, weight := e.2.2, reverse := dv }])).set
        e.2.1 (adj.getD e.2.1 [] ++ [{ target := e.1, weight := e.2.2, reverse := du }]))
    (List.replicate n [])
  { adjacency := adjacency
    weighted_degree := adjacency.map (fun es => (es.map (fun he => he.weight)).sum)
    contained := (List.range n).map (fun a => [a])
    current_position := List.range n
    partition_index := List.replicate n 0
    edge_slots := (adjacency.map List.length).sum }

/-- The path `0 - 1 - 2` with weight 1 on the first edge and 5 on the second. -/
def pathOneFive : mutable_graph := graphOfEdges 3 [(0, 1, 1), (1, 2, 5)]

/-- The root subproblem on `pathOneFive` with the two end vertices as terminals. -/
def pathProblem : multicut_problem :=
  multicut_problem.mk2 64 pathOneFive [terminal.mk2 0 0, terminal.mk2 2 1]

/-- Two disjoint cliques on `0..3` and `4..7`, unit weights. -/
def twoCliques : mutable_graph :=
  graphOfEdges 8
    [(0, 1, 1), (0, 2, 1), (0, 3, 1), (1, 2, 1), (1, 3, 1), (2, 3, 1),
     (4, 5, 1), (4, 6, 1), (4, 7, 1), (5, 6, 1), (5, 7, 1), (6, 7, 1)]

/-! ## The per-thread problem queue -/

/-- The standard library's `std::min_element`, as an index: the scan keeps the
first element no later element is smaller than. `smallest` is the index kept so
far, `sv` its element, `i` the index of the head of the rest. -/
def min_element_scan {α : Type} (comp : α → α → Bool) :
    Nat → α → Nat → List α → Nat
  | smallest, _, _, [] => smallest
  | smallest, sv, i, x :: xs =>
    if comp x sv then min_element_scan comp i x (i + 1) xs
    else min_element_scan comp smallest sv (i + 1) xs

/-- The call `std::min_element(v.begin(), v.end(), comp) - v.begin()`. -/
def min_element {α : Type} (comp : α → α → Bool) : List α → Nat
  | [] => 0
  | x :: xs => min_element_scan comp 0 x 1 xs

/-- The standard library's `std::priority_queue` with a comparator held as a
function: the stored elements are kept as a list in insertion order. -/
structure priority_queue where
  comp : multicut_problem → multicut_problem → Bool
  c : List multicut_problem

namespace priority_queue

instance : Inhabited priority_queue := ⟨⟨fun _ _ => false, []⟩⟩

/-- Index of the element returned by `top()`: the first element that no other
element is bigger than under `comp`. -/
def topIndex (q : priority_queue) : Nat :=
  min_element (fun a b => q.comp b a) q.c

def top (q : priority_queue) : multicut_problem := q.c.getD q.topIndex default

def pop (q : priority_queue) : priority_queue := { q with c := q.c.eraseIdx q.topIndex }

def push (q : priority_queue) (p : multicut_problem) : priority_queue :=
  { q with c := q.c ++ [p] }

end priority_queue

/-- The class `per_thread_problem_queue`: one heap per worker and one pair
`sizes[i] = (len, running)` per worker.  The mutexes have no sequential effect. -/
structure per_thread_problem_queue where
  num_threads : Nat
  pq : List priority_queue
  sizes : List (Nat × Bool)

namespace per_thread_problem_queue

/-! The eight orderings; `w` is the width of `FlowType`. -/

def small_graph (p1 p2 : multicut_problem) : Bool :=
  decide (p1.graph.n > p2.graph.n)

def bound_sum (w : Nat) (p1 p2 : multicut_problem) : Bool :=
  decide (wrapFlow w (p1.upper_bound + p1.lower_bound)
    > wrapFlow w (p2.upper_bound + p2.lower_bound))

def lower_bound (p1 p2 : multicut_problem) : Bool :=
  if p1.lower_bound = p2.lower_bound then decide (p1.upper_bound > p2.upper_bound)
  else decide (p1.lower_bound > p2.lower_bound)

def few_terminals (p1 p2 : multicut_problem) : Bool :=
  if p1.terminals.length = p2.terminals.length then lower_bound p1 p2
  else decide (p1.terminals.length > p2.terminals.length)

def upper_bound (p1 p2 : multicut_problem) : Bool :=
  if p1.upper_bound = p2.upper_bound then decide (p1.lower_bound > p2.lower_bound)
  else decide (p1.upper_bound > p2.upper_bound)

def bigger_distance (w : Nat) (p1 p2 : multicut_problem) : Bool :=
  decide (wrapFlow w (p1.upper_bound - p1.lower_bound)
    < wrapFlow w (p2.upper_bound - p2.lower_bound))

def lower_distance (w : Nat) (p1 p2 : multicut_problem) : Bool :=
  decide (wrapFlow w (p1.upper_bound - p1.lower_bound)
    > wrapFlow w (p2.upper_bound - p2.lower_bound))

def most_deleted (p1 p2 : multicut_problem) : Bool :=
  decide (p1.deleted_weight < p2.deleted_weight)

/-- The comparator the constructor's chain of string tests installs. -/
def comparatorFor (w : Nat) (pq_type : String) :
    multicut_problem → multicut_problem → Bool :=
  if pq_type = "small_graph" then small_graph
  else if pq_type = "bound_sum" then bound_sum w
  else if pq_type = "few_terminals" then few_terminals
  else if pq_type = "upper_bound" then upper_bound
  else if pq_type = "lower_bound" then lower_bound
  else if pq_type = "bigger_distance" then bigger_distance w
  else if pq_type = "lower_distance" then lower_distance w
  else if pq_type = "most_deleted" then most_deleted
  else lower_bound

/-- The constructor `per_thread_problem_queue(threads, pq_type)`: `sizes` is
value-initialised, then the loop clears each flag and appends one empty heap. -/
def new (w : Nat) (threads : Nat) (pq_type : String) : per_thread_problem_queue :=
  (List.range threads).foldl
    (fun s i =>
      { s with
        sizes := s.sizes.set i ((s.sizes.getD i (0, false)).1, false)
        pq := s.pq ++ [{ comp := comparatorFor w pq_type, c := [] }] })
    { num_threads := threads, pq := [], sizes := List.replicate threads (0, false) }

/-- The value `e.first + e.second` the placement scan compares (in `size_t`). -/
def load (e : Nat × Bool) : Nat := (e.1 + (if e.2 then 1 else 0)) % size_t_mod

/-- The member `pullProblem(local_id)`. -/
def pullProblem (s : per_thread_problem_queue) (local_id : Nat) :
    multicut_problem × per_thread_problem_queue :=
  let q := s.pq.getD local_id default
  let current_problem := q.top
  let pq1 := s.pq.set local_id q.pop
  let first := (s.sizes.getD local_id (0, false)).1
  let sizes1 := s.sizes.set local_id ((first + size_t_mod - 1) % size_t_mod, true)
  (current_problem, { s with pq := pq1, sizes := sizes1 })

/-- The first statement of `addProblem`: a set flag of the caller is cleared. -/
def clearRunning (sizes : List (Nat × Bool)) (local_id : Nat) : List (Nat × Bool) :=
  if (sizes.getD local_id (0, false)).2 then
    sizes.set local_id ((sizes.getD local_id (0, false)).1, false)
  else sizes

/-- The member `addProblem(p, local_id)`. -/
def addProblem (s : per_thread_problem_queue) (p : multicut_problem) (local_id : Nat) :
    Nat × per_thread_problem_queue :=
  let sizes1 := clearRunning s.sizes local_id
  let min := min_element (fun e1 e2 => decide (load e1 < load e2)) sizes1
  let min_elem := (sizes1.getD min (0, false)).1
  let min_index := if min_elem = (sizes1.getD local_id (0, false)).1 then local_id else min
  let e := sizes1.getD min_index (0, false)
  let sizes2 := sizes1.set min_index ((e.1 + 1) % size_t_mod, e.2)
  let pq1 := s.pq.set min_index ((s.pq.getD min_index default).push p)
  (min_index, { s with pq := pq1, sizes := sizes2 })

def empty (s : per_thread_problem_queue) (i : Nat) : Bool :=
  decide ((s.sizes.getD i (0, false)).1 = 0)

/-- The member `size()`.  `std::accumulate` starts from `std::make_pair(0, true)`, so
its running value is a `std::pair<int, bool>`: every round adds the counter in
`size_t`, stores the sum as an `int` (32 bits), and the last `int` is returned as a
`size_t`. -/
def size (s : per_thread_problem_queue) : Nat :=
  toSizeT (s.sizes.foldl
    (fun (e1 : Int × Bool) e2 =>
      (wrapFlow 32 (((toSizeT e1.1 + e2.1) % size_t_mod : Nat) : Int), true))
    (0, true)).1

def all_empty (s : per_thread_problem_queue) : Bool := decide (s.size = 0)

/-- The counter `len[i]`. -/
def len (s : per_thread_problem_queue) (i : Nat) : Nat := (s.sizes.getD i (0, false)).1

/-- The flag `running[i]`. -/
def running (s : per_thread_problem_queue) (i : Nat) : Bool := (s.sizes.getD i (0, false)).2

/-- The subproblems stored in heap `i`. -/
def heap (s : per_thread_problem_queue) (i : Nat) : List multicut_problem :=
  (s.pq.getD i default).c

/-- The number `len[i] + running[i]` as a mathematical integer. -/
def pending (s : per_thread_problem_queue) (i : Nat) : Nat :=
  s.len i + (if s.running i then 1 else 0)

/-- The number `len[i] + running[i]` with the flag of worker `local_id` taken as 0. -/
def pendingCleared (s : per_thread_problem_queue) (local_id i : Nat) : Nat :=
  s.len i + (if i ≠ local_id ∧ s.running i = true then 1 else 0)

/-- The vectors `pq` and `sizes` have one entry per worker, as the constructor
makes them; no member changes their size. -/
def Consistent (s : per_thread_problem_queue) : Prop :=
  s.sizes.length = s.num_threads ∧ s.pq.length = s.num_threads

/-- A state-changing call of the public interface by a worker. -/
inductive Op where
  | push (p : multicut_problem) (local_id : Nat)
  | pull (local_id : Nat)

/-- The scheduler after a call. -/
def step (s : per_thread_problem_queue) : Op → per_thread_problem_queue
  | Op.push p local_id => (s.addProblem p local_id).2
  | Op.pull local_id => (s.pullProblem local_id).2

/-- A call is admissible when the worker exists and, for a pull, its heap is not empty. -/
def Op.admissible (s : per_thread_problem_queue) : Op → Bool
  | Op.push _ local_id => decide (local_id < s.num_threads)
  | Op.pull local_id => decide (local_id < s.num_threads) && !(s.heap local_id).isEmpty

/-- A scheduler together with the record of what was pushed and popped so far. -/
structure Trace where
  state : per_thread_problem_queue
  pushed : List multicut_problem
  popped : List multicut_problem

def Trace.step (t : Trace) : Op → Trace
  | Op.push p local_id =>
    { state := t.state.step (Op.push p local_id), pushed := p :: t.pushed, popped := t.popped }
  | Op.pull local_id =>
    { state := t.state.step (Op.pull local_id), pushed := t.pushed,
      popped := (t.state.pullProblem local_id).1 :: t.popped }

def Trace.run (t : Trace) (ops : List Op) : Trace := ops.foldl Trace.step t

/-- Every call of the run is admissible in the state it is made in. -/
def Trace.admissible : Trace → List Op → Bool
  | _, [] => true
  | t, op :: ops => op.admissible t.state && Trace.admissible (t.step op) ops

/-- A freshly constructed scheduler, nothing pushed or popped yet. -/
def Trace.fresh (w threads : Nat) (pq_type : String) : Trace :=
  { state := new w threads pq_type, pushed := [], popped := [] }

/-- Two workers; worker 0 has pushed one subproblem and popped it again. -/
def afterOnePop : per_thread_problem_queue :=
  ((Trace.fresh 64 2 "lower_bound").run [Op.push default 0, Op.pull 0]).state

/-- Two workers; worker 0 has pushed two subproblems, of which the second went to
worker 1, and has popped its own. -/
def afterTwoPushesOnePop : per_thread_problem_queue :=
  ((Trace.fresh 64 2 "lower_bound").run
    [Op.push default 0, Op.push default 0, Op.pull 0]).state

/-- All subproblems stored in the heaps. -/
def stored (s : per_thread_problem_queue) : Multiset multicut_problem :=
  (s.pq.map (fun q => (q.c : Multiset multicut_problem))).sum

/-- The bookkeeping a trace keeps true: the vectors have one entry per worker,
nothing pushed is missing or doubled, and each counter counts its heap. -/
def Trace.Invariant (t : Trace) (threads : Nat) : Prop :=
  t.state.Consistent ∧ t.state.num_threads = threads ∧
  (t.pushed : Multiset multicut_problem)
    = (t.popped : Multiset multicut_problem) + stored t.state ∧
  ∀ i, i < threads →
    t.state.len i = (t.state.heap i).length ∧ (t.state.heap i).length ≤ t.pushed.length

end per_thread_problem_queue

/-- A comparator is a strict weak ordering: it is irreflexive and transitive, and
being ordered neither way round is transitive. -/
def StrictWeakOrdering {α : Type} (comp : α → α → Bool) : Prop :=
  (∀ a, comp a a = false) ∧
  (∀ a b c, comp a b = true → comp b c = true → comp a c = true) ∧
  (∀ a b c, comp a b = false → comp b a = false → comp b c = false → comp c b = false →
    comp a c = false ∧ comp c a = false)

/-- A root subproblem as the constructor `multicut_problem(G, term)` makes it for a
64-bit `FlowType`: lower bound `-1`, upper bound the largest value. -/
def rootProblem : multicut_problem := multicut_problem.mk2 64 default []

/-- A subproblem whose bounds have been tightened to 0 and 5. -/
def tightProblem : multicut_problem :=
  { rootProblem with lower_bound := 0, upper_bound := 5 }

/-- What holds of the variables of the search from terminal `t` that started with
the flags `f0` on a graph of `n` vertices: the flag vector keeps its size; the block
is `t` followed by pairwise distinct vertices that were not flagged in `f0`; a flag
is set exactly when it was set in `f0` or the vertex was added to the block; every
vertex the search looked at is `t` or flagged; every vertex of the block was looked
at. -/
def SearchInv (n : Nat) (f0 : List Bool) (t : Nat) (st : BfsState) : Prop :=
  st.already_in_block.length = n ∧
  (∃ tl, st.block = t :: tl ∧ tl.Nodup ∧ (∀ v, v ∈ tl → f0.getD v false = false) ∧
    (∀ v, st.already_in_block.getD v false = true ↔ f0.getD v false = true ∨ v ∈ tl)) ∧
  (∀ v, v ∈ st.reached → v = t ∨ st.already_in_block.getD v false = true) ∧
  (∀ v, v ∈ st.block → v ∈ st.reached)

/-- The flags with which the search of terminal number `i` starts. -/
def flagsBefore (bfs_size : Nat) (G : mutable_graph) (terminals : List Nat) (i : Nat) :
    List Bool :=
  ((terminals.take i).foldl
    (fun (acc : List Bool × List BfsState) t =>
      ((bfsFrom bfs_size G acc.1 t).already_in_block, acc.2 ++ [bfsFrom bfs_size G acc.1 t]))
    (markTerminals G terminals, [])).1

/-! ## The validator `checkGraphValidity` of `graph_algorithms.h` -/

/-- How a run of the validator fails to reach its end: `exit(1)` after a
diagnostic. -/
inductive Failure where
  | abort
deriving DecidableEq, Repr

namespace mutable_graph

/-- The edge slot `(v, e)`, when node `v` has one with index `e`. -/
def slot? (G : mutable_graph) (v e : Nat) : Option HalfEdge := (G.halfEdges v)[e]?

/-- The stored current position of the original vertex `v`, when it has one. -/
def position? (G : mutable_graph) (v : Nat) : Option Nat := G.current_position[v]?

end mutable_graph

namespace graph_algorithms

/-- The loop over `G->containedVertices(n)`. -/
def checkContained (G : mutable_graph) (n : Nat) : List Nat → Except Failure Unit
  | [] => .ok ()
  | v :: vs =>
    if G.getCurrentPosition v ≠ n then .error .abort else checkContained G n vs

/-- The loop over `G->edges_of(n)`, with the variables `weight` (an `EdgeWeight` of
`ew` bits) and `targets`, and with them the record `accessed` of the slots
`(tgt, rev)` on which the accessors of the target node have been called, which is
not a variable of the source.  The source calls these accessors without comparing
`rev` with the number of half-edges of `tgt` and goes on with what they return;
where the slot does not exist the accessors of this development return zeros. -/
def checkEdges (ew : Nat) (G : mutable_graph) (n : Nat) :
    List Nat → Nat → List Nat → List (Nat × Nat) → Except Failure Nat × List (Nat × Nat)
  | [], weight, _, accessed => (.ok weight, accessed)
  | e :: es, weight, targets, accessed =>
    let tgt := G.getEdgeTarget n e
    let rev := G.getReverseEdge n e
    let weight1 := (weight + G.getEdgeWeight n e) % 2 ^ ew
    if tgt ∈ targets then (.error .abort, accessed)
    else if tgt = n then (.error .abort, accessed)
    else if tgt ≥ G.n then (.error .abort, accessed)
    else if G.getEdgeTarget tgt rev ≠ n then (.error .abort, accessed ++ [(tgt, rev)])
    else if G.getEdgeWeight tgt rev ≠ G.getEdgeWeight n e then
      (.error .abort, accessed ++ [(tgt, rev)])
    else if G.getReverseEdge tgt rev ≠ e then (.error .abort, accessed ++ [(tgt, rev)])
    else checkEdges ew G n es weight1 (tgt :: targets) (accessed ++ [(tgt, rev)])

/-- The body of the loop over the nodes, with the variable `edges` (a `size_t`). -/
def checkNode (ew : Nat) (G : mutable_graph) (n : Nat) (edges : Nat)
    (accessed : List (Nat × Nat)) : Except Failure Nat × List (Nat × Nat) :=
  match checkContained G n (G.containedVertices n) with
  | .error f => (.error f, accessed)
  | .ok _ =>
    let edges1 := (edges + G.get_first_invalid_edge n) % size_t_mod
    match (checkEdges ew G n (G.edges_of n) 0 [] accessed).1 with
    | .error f => (.error f, (checkEdges ew G n (G.edges_of n) 0 [] accessed).2)
    | .ok weight =>
      if weight ≠ G.getWeightedNodeDegree n then
        (.error .abort, (checkEdges ew G n (G.edges_of n) 0 [] accessed).2)
      else (.ok edges1, (checkEdges ew G n (G.edges_of n) 0 [] accessed).2)

/-- The loop over `G->nodes()`. -/
def checkNodes (ew : Nat) (G : mutable_graph) :
    List Nat → Nat → List (Nat × Nat) → Except Failure Nat × List (Nat × Nat)
  | [], edges, accessed => (.ok edges, accessed)
  | n :: ns, edges, accessed =>
    match (checkNode ew G n edges accessed).1 with
    | .error f => (.error f, (checkNode ew G n edges accessed).2)
    | .ok edges1 => checkNodes ew G ns edges1 (checkNode ew G n edges accessed).2

/-- The validator `checkGraphValidity(G)`, for `EdgeWeight` of `ew` bits: how the run
ends (`ok` where the source logs "Graph is valid!") and the record of the slots
`(tgt, rev)` it has accessed. -/
def checkGraphValidity (ew : Nat) (G : mutable_graph) :
    Except Failure Unit × List (Nat × Nat) :=
  match (checkNodes ew G G.nodes 0 []).1 with
  | .error f => (.error f, (checkNodes ew G G.nodes 0 []).2)
  | .ok edges =>
    if edges ≠ G.m then (.error .abort, (checkNodes ew G G.nodes 0 []).2)
    else (.ok (), (checkNodes ew G G.nodes 0 []).2)

end graph_algorithms

/-- The conditions on a graph as the specification lists them: positions of the
contained vertices, no double edge, no self-loop, targets in range, the reverse
slot of every half-edge exists and points back with the same weight, the stored
weighted degrees, and the number of edge slots. -/
def ValidGraph (G : mutable_graph) : Prop :=
  (∀ n, n < G.n → ∀ v, v ∈ G.containedVertices n → G.position? v = some n) ∧
  (∀ n, n < G.n → ((G.halfEdges n).map (fun h => h.target)).Nodup) ∧
  (∀ n, n < G.n → ∀ h, h ∈ G.halfEdges n → h.target ≠ n) ∧
  (∀ n, n < G.n → ∀ h, h ∈ G.halfEdges n → h.target < G.n) ∧
  (∀ u, u < G.n → ∀ e, e < (G.halfEdges u).length →
    G.slot? (G.getEdgeTarget u e) (G.getReverseEdge u e)
      = some { target := u, weight := G.getEdgeWeight u e, reverse := e }) ∧
  (∀ n, n < G.n →
    G.getWeightedNodeDegree n = ((G.halfEdges n).map (fun h => h.weight)).sum) ∧
  G.m = (G.nodes.map (fun n => G.get_first_invalid_edge n)).sum

/-- The edge `0 - 1` of weight 1 whose half-edge at node 0 carries the reverse index
1, while node 1 has the single slot 0. -/
def offByOneReverse : mutable_graph :=
  { adjacency := [[{ target := 1, weight := 1, reverse := 1 }],
                  [{ target := 0, weight := 1, reverse := 0 }]]
    weighted_degree := [1, 1]
    contained := [[0], [1]]
    current_position := [0, 1]
    partition_index := [0, 0]
    edge_slots := 2 }

/-- What the validator checks at node `n`, for `EdgeWeight` of `ew` bits. -/
def NodeChecks (ew : Nat) (G : mutable_graph) (n : Nat) : Prop :=
  (∀ v, v ∈ G.containedVertices n → G.getCurrentPosition v = n) ∧
  ((G.halfEdges n).map (fun h => h.target)).Nodup ∧
  (∀ e, e < (G.halfEdges n).length → G.getEdgeTarget n e ≠ n ∧
    G.getEdgeTarget n e < G.n ∧
    G.getEdgeTarget (G.getEdgeTarget n e) (G.getReverseEdge n e) = n ∧
    G.getEdgeWeight (G.getEdgeTarget n e) (G.getReverseEdge n e) = G.getEdgeWeight n e ∧
    G.getReverseEdge (G.getEdgeTarget n e) (G.getReverseEdge n e) = e) ∧
  ((G.halfEdges n).map (fun h => h.weight)).sum % 2 ^ ew = G.getWeightedNodeDegree n

/-- Every slot `(tgt, rev)` the validator can access exists: the reverse index of a
half-edge whose target is a node is an index of a half-edge of that node. -/
def ReverseInRange (G : mutable_graph) : Prop :=
  ∀ n, n < G.n → ∀ e, e < G.get_first_invalid_edge n → G.getEdgeTarget n e < G.n →
    G.getReverseEdge n e < G.get_first_invalid_edge (G.getEdgeTarget n e)

/-- Every contained vertex has a stored current position. -/
def PositionsStored (G : mutable_graph) : Prop :=
  ∀ n, n < G.n → ∀ v, v ∈ G.containedVertices n → v < G.current_position.length

/-- The half-edges of node `n` are paired: no double edge, no self-loop, targets in
range, the reverse slot of each exists and points back with the same weight, and the
stored weighted degree is their weight as an `EdgeWeight`. -/
def EdgesPaired (ew : Nat) (G : mutable_graph) (n : Nat) : Prop :=
  ((G.halfEdges n).map (fun h => h.target)).Nodup ∧
  (∀ e, e < (G.halfEdges n).length → G.getEdgeTarget n e ≠ n ∧
    G.getEdgeTarget n e < G.n ∧
    G.slot? (G.getEdgeTarget n e) (G.getReverseEdge n e)
      = some { target := n, weight := G.getEdgeWeight n e, reverse := e }) ∧
  ((G.halfEdges n).map (fun h => h.weight)).sum % 2 ^ ew = G.getWeightedNodeDegree n

/-- Vertex `b` is the target of a half-edge of vertex `a`. -/
def mutable_graph.adjacent (G : mutable_graph) (a b : Nat) : Prop :=
  ∃ e, e < G.get_first_invalid_edge a ∧ G.getEdgeTarget a e = b

/-- Every entry of the list but the first is the target of a half-edge of an earlier
entry. -/
def LinkedBlock (G : mutable_graph) (block : List Nat) : Prop :=
  ∀ i, 0 < i → i < block.length →
    ∃ j, j < i ∧ G.adjacent (block.getD j 0) (block.getD i 0)

/-- Two nodes; the single half-edge of node 0 points to node 1 with weight 0 and
reverse index 5, and node 1 has no half-edge at all. -/
def danglingReverse : mutable_graph :=
  { adjacency := [[{ target := 1, weight := 0, reverse := 5 }], []]
    weighted_degree := [0, 0]
    contained := [[0], [1]]
    current_position := [0, 1]
    partition_index := [0, 0]
    edge_slots := 1 }

namespace mutable_graph

/-- The half-edges of the graph, as pairs of a node and an edge index of it. -/
def halfEdgeList (G : mutable_graph) : List (Nat × Nat) :=
  G.nodes.flatMap (fun u => (G.edges_of u).map (fun e => (u, e)))

/-- The map sending the half-edge `(u, e)` to `(target(u, e), reverse(u, e))`. -/
def mate (G : mutable_graph) (x : Nat × Nat) : Nat × Nat :=
  (G.getEdgeTarget x.1 x.2, G.getReverseEdge x.1 x.2)

/-- The total weight of the undirected edges: every edge is counted at the half-edge
that leaves its smaller end. -/
def undirectedWeight (G : mutable_graph) : Nat :=
  (G.halfEdgeList.map (fun x =>
    if x.1 < G.getEdgeTarget x.1 x.2 then G.getEdgeWeight x.1 x.2 else 0)).sum

/-- The number of undirected edges, counted in the same way. -/
def undirectedCount (G : mutable_graph) : Nat :=
  (G.halfEdgeList.map (fun x => if x.1 < G.getEdgeTarget x.1 x.2 then 1 else 0)).sum

end mutable_graph

/-! ## `top_k_degrees` of `graph_algorithms.h` -/

/-- What the C++ standard promises of `std::nth_element(first, first + nth, last,
comp)`, with `input` the range before the call and `out` the same range after it:
the elements are rearranged, and no element from position `nth` on is smaller than an
element before position `nth`. -/
def NthElementPost {α : Type} [Inhabited α] (comp : α → α → Bool) (input : List α)
    (nth : Nat) (out : List α) : Prop :=
  out.Perm input ∧
  ∀ i, i < nth → ∀ j, j < out.length → nth ≤ j →
    comp (out.getD j default) (out.getD i default) = false

namespace graph_algorithms

/-- The member `find_top_k(in, k)`.  `std::nth_element` is taken as a parameter (the
rearranged range, given comparison, range and position); for `k > in.size()` the
iterator `in.end() - k` does not exist and the model returns `none`. -/
def find_top_k
    (nth_element : (Nat × Nat → Nat × Nat → Bool) → List (Nat × Nat) → Nat → List (Nat × Nat))
    (input : List (Nat × Nat)) (k : Nat) : Option (List Nat) :=
  if k ≤ input.length then
    let arranged := nth_element (fun a1 a2 => decide (a1.2 < a2.2)) input (input.length - k)
    some ((List.range' (arranged.length - k) (arranged.length - (arranged.length - k))).map
      (fun i => (arranged.getD i default).1))
  else none

/-- The member `top_k_degrees(G, k)` for a `mutable_graph`. -/
def top_k_degrees
    (nth_element : (Nat × Nat → Nat × Nat → Bool) → List (Nat × Nat) → Nat → List (Nat × Nat))
    (G : mutable_graph) (k : Nat) : Option (List Nat) :=
  find_top_k nth_element (G.nodes.map (fun n => (n, G.getWeightedNodeDegree n))) k

/-- One function that meets the promise of `std::nth_element`: it sorts the range. -/
def nth_element_by_sorting (comp : Nat × Nat → Nat × Nat → Bool) (input : List (Nat × Nat))
    (_nth : Nat) : List (Nat × Nat) :=
  input.foldr (fun x sorted => List.orderedInsert (fun a b => comp b a = false) x sorted) []

end graph_algorithms

/-! ## The path of `TEST(CactusCutTest, SimplePath)` -/

/-- The path that `TEST(CactusCutTest, SimplePath)` builds: vertices `0 .. length - 1`,
an edge of weight `wgt` between `i` and `i + 1`; node `i` holds the half-edge to
`i - 1` before the one to `i + 1`, as the calls `new_edge(i, i + 1)`,
`new_edge(i + 1, i)` leave them. -/
def pathGraph (length wgt : Nat) : mutable_graph :=
  let adjacency : List (List HalfEdge) := (List.range length).map (fun i =>
    (if 0 < i then [{ target := i - 1, weight := wgt, reverse := if i = 1 then 0 else 1 }]
      else [])
    ++ (if i + 1 < length then [{ target := i + 1, weight := wgt, reverse := 0 }] else []))
  { adjacency := adjacency
    weighted_degree := adjacency.map (fun es => (es.map (fun he => he.weight)).sum)
    contained := (List.range length).map (fun a => [a])
    current_position := List.range length
    partition_index := List.replicate length 0
    edge_slots := (adjacency.map List.length).sum }

/-- The labelling that puts the vertices `0 .. j` on side 0 and the others on side 1. -/
def prefixLabel (length j : Nat) : List Nat :=
  (List.range length).map (fun v => if v ≤ j then 0 else 1)

/-- What holds of the variables of the search from vertex 0 on a path of `length`
vertices: the block is `0, 1, …` up to its last entry, its entries are flagged and
the queue holds entries of the block. -/
def PathSearchInv (length : Nat) (st : BfsState) : Prop :=
  st.block = List.range st.block.length ∧ 0 < st.block.length ∧
  (∀ v, v ∈ st.block → st.already_in_block.getD v false = true) ∧
  (∀ q, q ∈ st.bfs_q → q ∈ st.block) ∧ st.already_in_block.length = length

/-! # Theorems

All definitions stand above this line; lemmas and theorems follow. -/

/-! ## Lemmas on lists -/

theorem getD_set_self {α : Type} (l : List α) (i : Nat) (a d : α) (h : i < l.length) :
    (l.set i a).getD i d = a := by
  simp [List.getD_eq_getElem?_getD, List.getElem?_set, h]

theorem getD_set_other {α : Type} (l : List α) (i j : Nat) (a d : α) (h : i ≠ j) :
    (l.set i a).getD j d = l.getD j d := by
  simp [List.getD_eq_getElem?_getD, List.getElem?_set, h]

theorem eraseIdx_perm {α : Type} (l : List α) (k : Nat) (a : α) (h : l[k]? = some a) :
    (a :: l.eraseIdx k).Perm l := by
  induction l generalizing k with
  | nil => simp at h
  | cons x xs ih =>
    cases k with
    | zero =>
      simp only [List.getElem?_cons_zero, Option.some.injEq] at h
      subst h
      simp
    | succ k =>
      simp only [List.getElem?_cons_succ] at h
      simp only [List.eraseIdx_cons_succ]
      exact (List.Perm.swap x a _).trans ((ih k h).cons x)

theorem sum_map_set {α M : Type} [AddCommMonoid M] (f : α → M) (l : List α) (i : Nat)
    (a d : α) (h : i < l.length) :
    ((l.set i a).map f).sum + f (l.getD i d) = (l.map f).sum + f a := by
  induction l generalizing i with
  | nil => simp at h
  | cons x xs ih =>
    cases i with
    | zero =>
      simp only [List.set_cons_zero, List.map_cons, List.sum_cons, List.getD_cons_zero]
      abel
    | succ i =>
      simp only [List.set_cons_succ, List.map_cons, List.sum_cons, List.getD_cons_succ]
      rw [add_assoc, ih i (by simpa using h), add_assoc]

theorem set_replicate_self {α : Type} (n i : Nat) (a : α) :
    (List.replicate n a).set i a = List.replicate n a := by
  apply List.ext_getElem?
  intro k
  rw [List.getElem?_set]
  split
  · rename_i h
    subst h
    split
    · rename_i h2
      rw [List.getElem?_eq_getElem h2]
      simp
    · rename_i h2
      rw [List.getElem?_eq_none (not_lt.mp h2)]
  · rfl

theorem set_getD_self {α : Type} (l : List α) (i : Nat) (d : α) (h : i < l.length) :
    l.set i (l.getD i d) = l := by
  apply List.ext_getElem?
  intro k
  rw [List.getElem?_set, List.getD_eq_getElem?_getD]
  split
  · rename_i hk
    subst hk
    rw [List.getElem?_eq_getElem h]
    rfl
  · rfl


/-! ## Lemmas on the placement scan -/

theorem min_element_scan_spec {α : Type} (f : α → Nat) (d : α) (full : List α) :
    ∀ (xs : List α) (si : Nat) (sv : α) (i : Nat),
      full.drop i = xs → si < full.length → full.getD si d = sv →
      (∀ j, j < i → f sv ≤ f (full.getD j d)) →
      (∀ j, j < si → f sv < f (full.getD j d)) →
      min_element_scan (fun e1 e2 => decide (f e1 < f e2)) si sv i xs < full.length ∧
      (∀ j, j < full.length →
        f (full.getD (min_element_scan (fun e1 e2 => decide (f e1 < f e2)) si sv i xs) d)
          ≤ f (full.getD j d)) ∧
      (∀ j, j < min_element_scan (fun e1 e2 => decide (f e1 < f e2)) si sv i xs →
        f (full.getD (min_element_scan (fun e1 e2 => decide (f e1 < f e2)) si sv i xs) d)
          < f (full.getD j d)) := by
  intro xs
  induction xs with
  | nil =>
    intro si sv i hdrop hsi hsv hle hlt
    have hlen : full.length ≤ i := List.drop_eq_nil_iff.mp hdrop
    simp only [min_element_scan]
    refine ⟨hsi, ?_, ?_⟩
    · intro j hj
      rw [hsv]
      exact hle j (by omega)
    · intro j hj
      rw [hsv]
      exact hlt j hj
  | cons x xs ih =>
    intro si sv i hdrop hsi hsv hle hlt
    have hi : i < full.length := by
      by_contra hcon
      have : full.drop i = [] := List.drop_eq_nil_iff.mpr (by omega)
      rw [this] at hdrop
      cases hdrop
    have hx : full.getD i d = x := by
      have h1 : (full.drop i)[0]? = some x := by rw [hdrop]; simp
      rw [List.getElem?_drop] at h1
      simp only [Nat.add_zero] at h1
      rw [List.getD_eq_getElem?_getD, h1]
      rfl
    have hdrop2 : full.drop (i + 1) = xs := by
      have := congrArg (List.drop 1) hdrop
      simpa [List.drop_drop, Nat.add_comm] using this
    simp only [min_element_scan]
    by_cases hc : f x < f sv
    · simp only [hc, decide_True, if_true]
      apply ih i x (i + 1) hdrop2 hi hx
      · intro j hj
        rcases Nat.lt_succ_iff_lt_or_eq.mp hj with h | h
        · exact le_trans (le_of_lt hc) (hle j h)
        · subst h
          rw [hx]
      · intro j hj
        exact lt_of_lt_of_le hc (hle j hj)
    · simp only [hc, decide_False]
      apply ih si sv (i + 1) hdrop2 hsi hsv
      · intro j hj
        rcases Nat.lt_succ_iff_lt_or_eq.mp hj with h | h
        · exact hle j h
        · subst h
          rw [hx]
          omega
      · exact hlt

/-- The index `std::min_element` returns on a non-empty vector is in range, attains
the minimum, and is the first index that does. -/
theorem min_element_spec {α : Type} (f : α → Nat) (d : α) (l : List α) (hl : l ≠ []) :
    min_element (fun e1 e2 => decide (f e1 < f e2)) l < l.length ∧
    (∀ j, j < l.length →
      f (l.getD (min_element (fun e1 e2 => decide (f e1 < f e2)) l) d) ≤ f (l.getD j d)) ∧
    (∀ j, j < min_element (fun e1 e2 => decide (f e1 < f e2)) l →
      f (l.getD (min_element (fun e1 e2 => decide (f e1 < f e2)) l) d) < f (l.getD j d)) := by
  cases l with
  | nil => exact absurd rfl hl
  | cons x xs =>
    simp only [min_element]
    apply min_element_scan_spec f d (x :: xs) xs 0 x 1 (by simp) (by simp) (by simp)
    · intro j hj
      have : j = 0 := by omega
      subst this
      simp
    · intro j hj
      omega
namespace per_thread_problem_queue

theorem clearRunning_length (sizes : List (Nat × Bool)) (local_id : Nat) :
    (clearRunning sizes local_id).length = sizes.length := by
  unfold clearRunning
  split <;> simp

theorem clearRunning_getD (sizes : List (Nat × Bool)) (local_id i : Nat) :
    (clearRunning sizes local_id).getD i (0, false)
      = ((sizes.getD i (0, false)).1,
          if i = local_id then false else (sizes.getD i (0, false)).2) := by
  unfold clearRunning
  simp only [List.getD_eq_getElem?_getD]
  by_cases hi : i = local_id
  · subst hi
    by_cases hlt : i < sizes.length
    · split
      · simp [List.getElem?_set, hlt]
      · rename_i h
        simp only [Bool.not_eq_true] at h
        simp [Prod.ext_iff, h]
    · have h0 : sizes[i]? = none := List.getElem?_eq_none (not_lt.mp hlt)
      simp [h0]
  · split
    · simp [List.getElem?_set, hi, Ne.symm hi]
    · simp [hi]

theorem load_eq (e : Nat × Bool) (h : e.1 + 1 < size_t_mod) :
    load e = e.1 + (if e.2 then 1 else 0) := by
  unfold load
  apply Nat.mod_eq_of_lt
  split <;> omega

/-- The scan of `addProblem` reads, for worker `i`, the load `pendingCleared`. -/
theorem load_clearRunning (s : per_thread_problem_queue) (local_id i : Nat)
    (h : s.len i + 1 < size_t_mod) :
    load ((clearRunning s.sizes local_id).getD i (0, false)) = s.pendingCleared local_id i := by
  rw [load_eq]
  · rw [clearRunning_getD]
    unfold pendingCleared len running
    by_cases hi : i = local_id <;> simp [hi]
  · rw [clearRunning_getD]
    exact h

/-- The index `addProblem` returns, in terms of the scan. -/
theorem addProblem_fst (s : per_thread_problem_queue) (p : multicut_problem) (local_id : Nat) :
    (s.addProblem p local_id).1 =
      if s.len (min_element (fun e1 e2 => decide (load e1 < load e2))
          (clearRunning s.sizes local_id)) = s.len local_id
      then local_id
      else min_element (fun e1 e2 => decide (load e1 < load e2))
          (clearRunning s.sizes local_id) := by
  simp only [addProblem, clearRunning_getD, len]

/-- The worker `addProblem` chooses has the least load the scan sees, the caller's
flag counting as cleared. -/
theorem addProblem_least (s : per_thread_problem_queue) (p : multicut_problem)
    (local_id : Nat) (hid : local_id < s.sizes.length)
    (hlen : ∀ i, i < s.sizes.length → s.len i + 1 < size_t_mod) :
    (s.addProblem p local_id).1 < s.sizes.length ∧
    ∀ i, i < s.sizes.length →
      s.pendingCleared local_id (s.addProblem p local_id).1 ≤ s.pendingCleared local_id i := by
  have hne : clearRunning s.sizes local_id ≠ [] := by
    intro h
    have := clearRunning_length s.sizes local_id
    rw [h] at this
    simp at this
    omega
  obtain ⟨hm, hmin, -⟩ := min_element_spec load (0, false) _ hne
  rw [clearRunning_length] at hm hmin
  rw [addProblem_fst]
  set m := min_element (fun e1 e2 => decide (load e1 < load e2))
    (clearRunning s.sizes local_id) with hmdef
  by_cases hc : s.len m = s.len local_id
  · rw [if_pos hc]
    refine ⟨hid, fun i hi => ?_⟩
    have h1 := hmin i hi
    rw [load_clearRunning s local_id m (hlen m hm),
      load_clearRunning s local_id i (hlen i hi)] at h1
    refine le_trans ?_ h1
    unfold pendingCleared
    rw [hc]
    simp
  · rw [if_neg hc]
    refine ⟨hm, fun i hi => ?_⟩
    have h1 := hmin i hi
    rwa [load_clearRunning s local_id m (hlen m hm),
      load_clearRunning s local_id i (hlen i hi)] at h1

end per_thread_problem_queue
namespace per_thread_problem_queue

theorem addProblem_fst_lt (s : per_thread_problem_queue) (p : multicut_problem)
    (local_id : Nat) (hid : local_id < s.sizes.length) :
    (s.addProblem p local_id).1 < s.sizes.length := by
  have hne : clearRunning s.sizes local_id ≠ [] := by
    intro h
    have := clearRunning_length s.sizes local_id
    rw [h] at this
    simp at this
    omega
  obtain ⟨hm, -, -⟩ := min_element_spec load (0, false) _ hne
  rw [clearRunning_length] at hm
  rw [addProblem_fst]
  split
  · exact hid
  · exact hm

theorem addProblem_snd (s : per_thread_problem_queue) (p : multicut_problem) (local_id : Nat) :
    (s.addProblem p local_id).2 =
      { s with
        pq := s.pq.set (s.addProblem p local_id).1
          ((s.pq.getD (s.addProblem p local_id).1 default).push p)
        sizes := (clearRunning s.sizes local_id).set (s.addProblem p local_id).1
          ((((clearRunning s.sizes local_id).getD (s.addProblem p local_id).1 (0, false)).1 + 1)
              % size_t_mod,
            ((clearRunning s.sizes local_id).getD (s.addProblem p local_id).1 (0, false)).2) } :=
  rfl

theorem addProblem_heap_self (s : per_thread_problem_queue) (p : multicut_problem)
    (local_id : Nat) (hid : local_id < s.sizes.length) (hc : s.Consistent) :
    (s.addProblem p local_id).2.heap (s.addProblem p local_id).1
      = s.heap (s.addProblem p local_id).1 ++ [p] := by
  have hj := addProblem_fst_lt s p local_id hid
  rw [addProblem_snd]
  unfold heap
  simp only
  rw [getD_set_self _ _ _ _ (by rw [hc.2, ← hc.1]; exact hj)]
  rfl

theorem addProblem_heap_other (s : per_thread_problem_queue) (p : multicut_problem)
    (local_id i : Nat) (hi : i ≠ (s.addProblem p local_id).1) :
    (s.addProblem p local_id).2.heap i = s.heap i := by
  rw [addProblem_snd]
  unfold heap
  simp only
  rw [getD_set_other _ _ _ _ _ (Ne.symm hi)]

theorem addProblem_len_self (s : per_thread_problem_queue) (p : multicut_problem)
    (local_id : Nat) (hid : local_id < s.sizes.length) :
    (s.addProblem p local_id).2.len (s.addProblem p local_id).1
      = (s.len (s.addProblem p local_id).1 + 1) % size_t_mod := by
  have hj := addProblem_fst_lt s p local_id hid
  rw [addProblem_snd]
  unfold len
  simp only
  rw [getD_set_self _ _ _ _ (by rw [clearRunning_length]; exact hj), clearRunning_getD]

theorem addProblem_len_other (s : per_thread_problem_queue) (p : multicut_problem)
    (local_id i : Nat) (hi : i ≠ (s.addProblem p local_id).1) :
    (s.addProblem p local_id).2.len i = s.len i := by
  rw [addProblem_snd]
  unfold len
  simp only
  rw [getD_set_other _ _ _ _ _ (Ne.symm hi), clearRunning_getD]

theorem addProblem_running (s : per_thread_problem_queue) (p : multicut_problem)
    (local_id i : Nat) :
    (s.addProblem p local_id).2.running i
      = if i = local_id then false else s.running i := by
  rw [addProblem_snd]
  unfold running
  simp only
  by_cases hi : i = (s.addProblem p local_id).1
  · by_cases hlt : i < s.sizes.length
    · rw [← hi, getD_set_self _ _ _ _ (by rw [clearRunning_length]; exact hlt), clearRunning_getD]
    · rw [← hi]
      have h1 : ∀ (l : List (Nat × Bool)) (a : Nat × Bool), l.length = s.sizes.length →
          (l.set i a).getD i (0, false) = (0, false) := by
        intro l a hl
        have hn : ¬ i < l.length := by omega
        simp [List.getD_eq_getElem?_getD, List.getElem?_set, hn]
      rw [h1 _ _ (clearRunning_length _ _)]
      have h2 : s.sizes.getD i (0, false) = (0, false) := by
        rw [List.getD_eq_getElem?_getD, List.getElem?_eq_none (not_lt.mp hlt)]
        rfl
      rw [h2]
      simp
  · rw [getD_set_other _ _ _ _ _ (Ne.symm hi), clearRunning_getD]

theorem addProblem_consistent (s : per_thread_problem_queue) (p : multicut_problem)
    (local_id : Nat) (hc : s.Consistent) :
    (s.addProblem p local_id).2.Consistent ∧
      (s.addProblem p local_id).2.num_threads = s.num_threads := by
  rw [addProblem_snd]
  unfold Consistent
  simp only [List.length_set, clearRunning_length]
  exact ⟨hc, trivial⟩

end per_thread_problem_queue
theorem min_element_scan_range {α : Type} (comp : α → α → Bool) :
    ∀ (xs : List α) (si : Nat) (sv : α) (i : Nat),
      min_element_scan comp si sv i xs = si ∨
      (i ≤ min_element_scan comp si sv i xs ∧ min_element_scan comp si sv i xs < i + xs.length) := by
  intro xs
  induction xs with
  | nil => intro si sv i; left; rfl
  | cons x xs ih =>
    intro si sv i
    simp only [min_element_scan, List.length_cons]
    split
    · rcases ih i x (i + 1) with h | h
      · right; omega
      · right; omega
    · rcases ih si sv (i + 1) with h | h
      · left; exact h
      · right; omega

theorem min_element_lt {α : Type} (comp : α → α → Bool) (l : List α) (hl : l ≠ []) :
    min_element comp l < l.length := by
  cases l with
  | nil => exact absurd rfl hl
  | cons x xs =>
    simp only [min_element, List.length_cons]
    rcases min_element_scan_range comp xs 0 x 1 with h | h <;> omega

namespace per_thread_problem_queue

theorem topIndex_lt (q : priority_queue) (h : q.c ≠ []) : q.topIndex < q.c.length :=
  min_element_lt _ _ h

theorem pullProblem_fst (s : per_thread_problem_queue) (local_id : Nat) :
    (s.pullProblem local_id).1 = (s.pq.getD local_id default).top := rfl

theorem pullProblem_snd (s : per_thread_problem_queue) (local_id : Nat) :
    (s.pullProblem local_id).2 =
      { s with
        pq := s.pq.set local_id (s.pq.getD local_id default).pop
        sizes := s.sizes.set local_id
          ((s.len local_id + size_t_mod - 1) % size_t_mod, true) } := rfl

theorem pullProblem_heap_self (s : per_thread_problem_queue) (local_id : Nat)
    (hpq : local_id < s.pq.length) :
    (s.pullProblem local_id).2.heap local_id
      = (s.heap local_id).eraseIdx (s.pq.getD local_id default).topIndex := by
  rw [pullProblem_snd]
  unfold heap
  simp only
  rw [getD_set_self _ _ _ _ hpq]
  rfl

theorem pullProblem_heap_other (s : per_thread_problem_queue) (local_id i : Nat)
    (hi : i ≠ local_id) :
    (s.pullProblem local_id).2.heap i = s.heap i := by
  rw [pullProblem_snd]
  unfold heap
  simp only
  rw [getD_set_other _ _ _ _ _ (Ne.symm hi)]

theorem pullProblem_len_self (s : per_thread_problem_queue) (local_id : Nat)
    (hid : local_id < s.sizes.length) :
    (s.pullProblem local_id).2.len local_id
      = (s.len local_id + size_t_mod - 1) % size_t_mod := by
  rw [pullProblem_snd]
  unfold len
  simp only
  rw [getD_set_self _ _ _ _ hid]

theorem pullProblem_len_other (s : per_thread_problem_queue) (local_id i : Nat)
    (hi : i ≠ local_id) :
    (s.pullProblem local_id).2.len i = s.len i := by
  rw [pullProblem_snd]
  unfold len
  simp only
  rw [getD_set_other _ _ _ _ _ (Ne.symm hi)]

theorem pullProblem_running_self (s : per_thread_problem_queue) (local_id : Nat)
    (hid : local_id < s.sizes.length) :
    (s.pullProblem local_id).2.running local_id = true := by
  rw [pullProblem_snd]
  unfold running
  simp only
  rw [getD_set_self _ _ _ _ hid]

theorem pullProblem_running_other (s : per_thread_problem_queue) (local_id i : Nat)
    (hi : i ≠ local_id) :
    (s.pullProblem local_id).2.running i = s.running i := by
  rw [pullProblem_snd]
  unfold running
  simp only
  rw [getD_set_other _ _ _ _ _ (Ne.symm hi)]

theorem pullProblem_consistent (s : per_thread_problem_queue) (local_id : Nat)
    (hc : s.Consistent) :
    (s.pullProblem local_id).2.Consistent ∧
      (s.pullProblem local_id).2.num_threads = s.num_threads := by
  rw [pullProblem_snd]
  unfold Consistent
  simp only [List.length_set]
  exact ⟨hc, trivial⟩

/-- What `pullProblem` returns is the element of the heap at the index of `top()`. -/
theorem pullProblem_fst_getElem (s : per_thread_problem_queue) (local_id : Nat)
    (hne : s.heap local_id ≠ []) :
    (s.heap local_id)[(s.pq.getD local_id default).topIndex]? = some (s.pullProblem local_id).1 := by
  have hlt := topIndex_lt (s.pq.getD local_id default) hne
  rw [pullProblem_fst]
  unfold priority_queue.top heap
  generalize s.pq.getD local_id default = q at hlt ⊢
  rw [List.getD_eq_getElem?_getD, List.getElem?_eq_getElem hlt]
  rfl

end per_thread_problem_queue
namespace per_thread_problem_queue

/-- C6, as stated, fails: in the state where worker 0 has pushed one subproblem and
popped it again, worker 0 holds a popped subproblem (`running[0]` is set, `len` is 0
everywhere), yet `addProblem(p, 0)` returns worker 0, whose `len + running` is 1,
while worker 1 has `len + running` equal to 0. -/
theorem addProblem_not_least_pending :
    ¬ (∀ i, i < afterOnePop.num_threads →
        afterOnePop.pending (afterOnePop.addProblem default 0).1 ≤ afterOnePop.pending i) := by
  intro h
  exact absurd (h 1 (by decide)) (by decide)

/-- C6, amended: `addProblem(p, local_id)` returns a worker index `j` such that
`len[j] + running[j] ≤ len[i] + running[i]` for every worker `i`, where `len` and
`running` are the values held when the call is made except that `running[local_id]`
counts as 0, the call clearing the caller's flag before it scans. -/
theorem addProblem_least_pending_cleared (s : per_thread_problem_queue)
    (p : multicut_problem) (local_id : Nat) (hc : s.Consistent)
    (hid : local_id < s.num_threads)
    (hlen : ∀ i, i < s.num_threads → s.len i + 1 < size_t_mod) :
    (s.addProblem p local_id).1 < s.num_threads ∧
    ∀ i, i < s.num_threads →
      s.pendingCleared local_id (s.addProblem p local_id).1
        ≤ s.pendingCleared local_id i := by
  have h := addProblem_least s p local_id (by rw [hc.1]; exact hid)
    (by rw [hc.1]; exact hlen)
  rw [hc.1] at h
  exact h

theorem addProblem_least_pending_cleared_witness :
    afterOnePop.Consistent ∧ 0 < afterOnePop.num_threads ∧
    (∀ i, i < afterOnePop.num_threads → afterOnePop.len i + 1 < size_t_mod) ∧
    ((afterOnePop.addProblem default 0).1 < afterOnePop.num_threads ∧
      ∀ i, i < afterOnePop.num_threads →
        afterOnePop.pendingCleared 0 (afterOnePop.addProblem default 0).1
          ≤ afterOnePop.pendingCleared 0 i) :=
  ⟨⟨by decide, by decide⟩, by decide, by decide,
    addProblem_least_pending_cleared afterOnePop default 0 ⟨by decide, by decide⟩
      (by decide) (by decide)⟩

/-- C7, as stated, fails: with worker 0 running on an empty heap and worker 1 idle
with one stored subproblem, both have `len + running = 1`, so the caller 1 attains
the minimum, yet `addProblem(p, 1)` returns worker 0. -/
theorem addProblem_tie_not_to_caller :
    ¬ ((∀ i, i < afterTwoPushesOnePop.num_threads →
          afterTwoPushesOnePop.pendingCleared 1 1 ≤ afterTwoPushesOnePop.pendingCleared 1 i) →
        (afterTwoPushesOnePop.addProblem default 1).1 = 1) := by
  intro h
  exact absurd (h (by decide)) (by decide)

/-- C7, amended: if the caller's own worker attains the minimum of
`len[i] + running[i]` over all workers (flags as the scan reads them) and `m` is the
lowest-indexed worker attaining that minimum, then `addProblem(p, local_id)` returns
`local_id` when `m` is the caller or `running[m]` is clear, and returns `m` otherwise. -/
theorem addProblem_tie_to_caller (s : per_thread_problem_queue)
    (p : multicut_problem) (local_id : Nat) (hc : s.Consistent)
    (hid : local_id < s.num_threads)
    (hlen : ∀ i, i < s.num_threads → s.len i + 1 < size_t_mod)
    (hmin : ∀ i, i < s.num_threads →
      s.pendingCleared local_id local_id ≤ s.pendingCleared local_id i)
    (m : Nat) (hm : m < s.num_threads)
    (hmmin : ∀ i, i < s.num_threads →
      s.pendingCleared local_id m ≤ s.pendingCleared local_id i)
    (hfirst : ∀ i, i < m → s.pendingCleared local_id m < s.pendingCleared local_id i) :
    (s.addProblem p local_id).1 =
      if m = local_id ∨ s.running m = false then local_id else m := by
  have hne : clearRunning s.sizes local_id ≠ [] := by
    intro h
    have := clearRunning_length s.sizes local_id
    rw [h, hc.1] at this
    simp at this
    omega
  obtain ⟨hm0, hmin0, hfirst0⟩ := min_element_spec load (0, false) _ hne
  rw [clearRunning_length, hc.1] at hm0 hmin0
  rw [addProblem_fst]
  set m0 := min_element (fun e1 e2 => decide (load e1 < load e2))
    (clearRunning s.sizes local_id) with hm0def
  have hmeq : m0 = m := by
    rcases Nat.lt_trichotomy m0 m with h | h | h
    · have h1 := hfirst m0 h
      have h2 := hmin0 m hm
      rw [load_clearRunning s local_id m0 (hlen m0 hm0),
        load_clearRunning s local_id m (hlen m hm)] at h2
      omega
    · exact h
    · have h1 := hfirst0 m h
      rw [load_clearRunning s local_id m0 (hlen m0 hm0),
        load_clearRunning s local_id m (hlen m hm)] at h1
      have h2 := hmmin m0 hm0
      omega
  rw [hmeq]
  have heq : s.pendingCleared local_id m = s.pendingCleared local_id local_id :=
    le_antisymm (hmmin local_id hid) (hmin m hm)
  unfold pendingCleared at heq
  by_cases h1 : m = local_id
  · subst h1
    simp
  · by_cases h2 : s.running m = true
    · rw [if_pos ⟨h1, h2⟩, if_neg (by simp)] at heq
      have h3 : ¬ (s.len m = s.len local_id) := by omega
      rw [if_neg h3, if_neg (by simp [h1, h2])]
    · rw [if_neg (by simp [h2]), if_neg (by simp)] at heq
      have h3 : s.len m = s.len local_id := by omega
      rw [if_pos h3, if_pos (Or.inr (by simpa using h2))]

theorem addProblem_tie_to_caller_witness :
    (new 64 2 "lower_bound").Consistent ∧ 1 < (new 64 2 "lower_bound").num_threads ∧
    (∀ i, i < (new 64 2 "lower_bound").num_threads →
      (new 64 2 "lower_bound").len i + 1 < size_t_mod) ∧
    (∀ i, i < (new 64 2 "lower_bound").num_threads →
      (new 64 2 "lower_bound").pendingCleared 1 1 ≤ (new 64 2 "lower_bound").pendingCleared 1 i) ∧
    (∀ i, i < 0 →
      (new 64 2 "lower_bound").pendingCleared 1 0 < (new 64 2 "lower_bound").pendingCleared 1 i) ∧
    ((new 64 2 "lower_bound").addProblem default 1).1 =
      if 0 = 1 ∨ (new 64 2 "lower_bound").running 0 = false then 1 else 0 :=
  ⟨⟨by decide, by decide⟩, by decide, by decide, by decide, by decide,
    addProblem_tie_to_caller (new 64 2 "lower_bound") default 1 ⟨by decide, by decide⟩
      (by decide) (by decide) (by decide) 0 (by decide) (by decide) (by decide)⟩

end per_thread_problem_queue
namespace per_thread_problem_queue

/-- C9: for a worker `local_id` whose heap is not empty (and whose counter is
positive, as it is whenever it counts the heap), `pullProblem(local_id)` returns a
subproblem stored in heap `local_id` and removes exactly that occurrence; afterwards
`running[local_id]` is set and `len[local_id]` is one less, while `len`, `running`
and the heap of every other worker are unchanged. -/
theorem pullProblem_frame (s : per_thread_problem_queue) (local_id : Nat)
    (hc : s.Consistent) (hid : local_id < s.num_threads)
    (hne : s.heap local_id ≠ [])
    (hlen : 0 < s.len local_id) (hrep : s.len local_id < size_t_mod) :
    (s.pullProblem local_id).1 ∈ s.heap local_id ∧
    (∃ k, k < (s.heap local_id).length ∧
      (s.heap local_id)[k]? = some (s.pullProblem local_id).1 ∧
      (s.pullProblem local_id).2.heap local_id = (s.heap local_id).eraseIdx k) ∧
    ((s.pullProblem local_id).2.heap local_id : Multiset multicut_problem)
        + {(s.pullProblem local_id).1} = (s.heap local_id : Multiset multicut_problem) ∧
    (s.pullProblem local_id).2.running local_id = true ∧
    (s.pullProblem local_id).2.len local_id + 1 = s.len local_id ∧
    (∀ i, i ≠ local_id →
      (s.pullProblem local_id).2.len i = s.len i ∧
      (s.pullProblem local_id).2.running i = s.running i ∧
      (s.pullProblem local_id).2.heap i = s.heap i) := by
  have hget := pullProblem_fst_getElem s local_id hne
  have hk := topIndex_lt (s.pq.getD local_id default) hne
  have hheap := pullProblem_heap_self s local_id (by rw [hc.2]; exact hid)
  refine ⟨List.getElem?_mem hget, ⟨_, hk, hget, hheap⟩, ?_, ?_, ?_, ?_⟩
  · rw [hheap]
    have hperm := eraseIdx_perm (s.heap local_id) _ _ hget
    rw [add_comm, Multiset.singleton_add, Multiset.cons_coe]
    exact Multiset.coe_eq_coe.mpr hperm
  · exact pullProblem_running_self s local_id (by rw [hc.1]; exact hid)
  · rw [pullProblem_len_self s local_id (by rw [hc.1]; exact hid)]
    have h1 : s.len local_id + size_t_mod - 1 = s.len local_id - 1 + size_t_mod := by omega
    rw [h1, Nat.add_mod_right, Nat.mod_eq_of_lt (by omega)]
    omega
  · intro i hi
    exact ⟨pullProblem_len_other s local_id i hi, pullProblem_running_other s local_id i hi,
      pullProblem_heap_other s local_id i hi⟩

theorem pullProblem_frame_witness :
    afterTwoPushesOnePop.Consistent ∧ 1 < afterTwoPushesOnePop.num_threads ∧
    afterTwoPushesOnePop.heap 1 ≠ [] ∧ 0 < afterTwoPushesOnePop.len 1 ∧
    afterTwoPushesOnePop.len 1 < size_t_mod ∧
    (afterTwoPushesOnePop.pullProblem 1).2.len 1 + 1 = afterTwoPushesOnePop.len 1 :=
  ⟨⟨by decide, by decide⟩, by decide, by decide, by decide, by decide,
    (pullProblem_frame afterTwoPushesOnePop 1 ⟨by decide, by decide⟩ (by decide) (by decide)
      (by decide) (by decide)).2.2.2.2.1⟩

end per_thread_problem_queue
namespace per_thread_problem_queue

theorem stored_addProblem (s : per_thread_problem_queue) (p : multicut_problem)
    (local_id : Nat) (hc : s.Consistent) (hid : local_id < s.num_threads) :
    stored (s.addProblem p local_id).2 = stored s + {p} := by
  have hj : (s.addProblem p local_id).1 < s.pq.length := by
    rw [hc.2, ← hc.1]
    exact addProblem_fst_lt s p local_id (by rw [hc.1]; exact hid)
  have h := sum_map_set (fun q : priority_queue => (q.c : Multiset multicut_problem)) s.pq
    (s.addProblem p local_id).1 ((s.pq.getD (s.addProblem p local_id).1 default).push p)
    default hj
  have h2 : stored (s.addProblem p local_id).2
      = ((s.pq.set (s.addProblem p local_id).1
          ((s.pq.getD (s.addProblem p local_id).1 default).push p)).map
            (fun q : priority_queue => (q.c : Multiset multicut_problem))).sum := by
    rw [addProblem_snd]
    rfl
  rw [h2]
  apply add_right_cancel (b := ((s.pq.getD (s.addProblem p local_id).1 default).c :
    Multiset multicut_problem))
  rw [h]
  unfold stored priority_queue.push
  simp only
  rw [add_assoc, ← Multiset.coe_add]
  congr 1
  rw [add_comm, Multiset.singleton_add, Multiset.cons_coe]
  exact Multiset.coe_eq_coe.mpr (by simp)

theorem stored_pullProblem (s : per_thread_problem_queue) (local_id : Nat)
    (hc : s.Consistent) (hid : local_id < s.num_threads) (hne : s.heap local_id ≠ []) :
    stored s = stored (s.pullProblem local_id).2 + {(s.pullProblem local_id).1} := by
  have hj : local_id < s.pq.length := by rw [hc.2]; exact hid
  have h := sum_map_set (fun q : priority_queue => (q.c : Multiset multicut_problem)) s.pq
    local_id (s.pq.getD local_id default).pop default hj
  have h2 : stored (s.pullProblem local_id).2
      = ((s.pq.set local_id (s.pq.getD local_id default).pop).map
            (fun q : priority_queue => (q.c : Multiset multicut_problem))).sum := by
    rw [pullProblem_snd]
    rfl
  have hget := pullProblem_fst_getElem s local_id hne
  have hperm := eraseIdx_perm (s.heap local_id) _ _ hget
  have h3 : ((s.pq.getD local_id default).c : Multiset multicut_problem)
      = {(s.pullProblem local_id).1} + ((s.pq.getD local_id default).pop.c :
          Multiset multicut_problem) := by
    rw [Multiset.singleton_add, Multiset.cons_coe]
    exact (Multiset.coe_eq_coe.mpr hperm).symm
  simp only at h
  apply add_right_cancel (b := ((s.pq.getD local_id default).pop.c :
    Multiset multicut_problem))
  calc stored s + ((s.pq.getD local_id default).pop.c : Multiset multicut_problem)
      = ((s.pq.set local_id (s.pq.getD local_id default).pop).map
            (fun q : priority_queue => (q.c : Multiset multicut_problem))).sum
          + ((s.pq.getD local_id default).c : Multiset multicut_problem) := h.symm
    _ = stored (s.pullProblem local_id).2 + {(s.pullProblem local_id).1}
          + ((s.pq.getD local_id default).pop.c : Multiset multicut_problem) := by
        rw [h3, h2, add_assoc]

end per_thread_problem_queue
namespace per_thread_problem_queue

theorem new_loop (w threads : Nat) (pq_type : String) (k : Nat) :
    (List.range k).foldl
      (fun (s : per_thread_problem_queue) i =>
        { s with
          sizes := s.sizes.set i ((s.sizes.getD i (0, false)).1, false)
          pq := s.pq ++ [{ comp := comparatorFor w pq_type, c := [] }] })
      { num_threads := threads, pq := [], sizes := List.replicate threads (0, false) }
    = { num_threads := threads
        pq := List.replicate k { comp := comparatorFor w pq_type, c := [] }
        sizes := List.replicate threads (0, false) } := by
  induction k with
  | zero => rfl
  | succ k ih =>
    rw [List.range_succ, List.foldl_append, ih]
    simp only [List.foldl_cons, List.foldl_nil]
    have h1 : ((List.replicate threads ((0 : Nat), false)).getD k (0, false)) = (0, false) := by
      rw [List.getD_eq_getElem?_getD, List.getElem?_replicate]
      split <;> rfl
    rw [h1, set_replicate_self, List.replicate_succ']

/-- The freshly constructed scheduler: `threads` empty heaps, all counters 0, all
flags clear. -/
theorem new_eq (w threads : Nat) (pq_type : String) :
    new w threads pq_type
    = { num_threads := threads
        pq := List.replicate threads { comp := comparatorFor w pq_type, c := [] }
        sizes := List.replicate threads (0, false) } :=
  new_loop w threads pq_type threads

theorem fresh_invariant (w threads : Nat) (pq_type : String) :
    (Trace.fresh w threads pq_type).Invariant threads := by
  unfold Trace.Invariant Trace.fresh
  simp only [new_eq]
  refine ⟨⟨by simp, by simp⟩, trivial, ?_, ?_⟩
  · unfold stored
    simp
  · intro i hi
    unfold len heap
    simp [List.getD_eq_getElem?_getD, List.getElem?_replicate, hi]

theorem invariant_step (t : Trace) (threads : Nat) (op : Op)
    (hinv : t.Invariant threads) (hadm : op.admissible t.state = true)
    (hb : t.pushed.length + 1 < size_t_mod) :
    (t.step op).Invariant threads ∧ (t.step op).pushed.length ≤ t.pushed.length + 1 := by
  obtain ⟨hc, hn, hms, hcount⟩ := hinv
  cases op with
  | push p local_id =>
    have hid : local_id < t.state.num_threads := by simpa [Op.admissible] using hadm
    have hids : local_id < t.state.sizes.length := by rw [hc.1]; exact hid
    have hj := addProblem_fst_lt t.state p local_id hids
    rw [hc.1, hn] at hj
    refine ⟨⟨(addProblem_consistent t.state p local_id hc).1,
      ((addProblem_consistent t.state p local_id hc).2).trans hn, ?_, ?_⟩, ?_⟩
    · show ((p :: t.pushed : List multicut_problem) : Multiset multicut_problem)
        = (t.popped : Multiset multicut_problem) + stored (t.state.addProblem p local_id).2
      rw [stored_addProblem t.state p local_id hc hid, ← add_assoc, ← hms,
        ← Multiset.cons_coe, add_comm, Multiset.singleton_add]
    · intro i hi
      show (t.state.addProblem p local_id).2.len i
          = ((t.state.addProblem p local_id).2.heap i).length ∧
        ((t.state.addProblem p local_id).2.heap i).length ≤ (p :: t.pushed).length
      by_cases hij : i = (t.state.addProblem p local_id).1
      · rw [hij, addProblem_len_self t.state p local_id hids,
          addProblem_heap_self t.state p local_id hids hc]
        have h1 := hcount _ hj
        rw [h1.1, Nat.mod_eq_of_lt (show (t.state.heap (t.state.addProblem p local_id).1).length
          + 1 < size_t_mod by omega)]
        simp only [List.length_append, List.length_cons, List.length_nil]
        exact ⟨trivial, by omega⟩
      · rw [addProblem_len_other t.state p local_id i hij,
          addProblem_heap_other t.state p local_id i hij]
        have h1 := hcount i hi
        simp only [List.length_cons]
        omega
    · show (p :: t.pushed).length ≤ t.pushed.length + 1
      simp
  | pull local_id =>
    have hadm2 : local_id < t.state.num_threads ∧ t.state.heap local_id ≠ [] := by
      simpa [Op.admissible, List.isEmpty_iff] using hadm
    obtain ⟨hid, hne⟩ := hadm2
    have hids : local_id < t.state.sizes.length := by rw [hc.1]; exact hid
    have hidp : local_id < t.state.pq.length := by rw [hc.2]; exact hid
    refine ⟨⟨(pullProblem_consistent t.state local_id hc).1,
      ((pullProblem_consistent t.state local_id hc).2).trans hn, ?_, ?_⟩, ?_⟩
    · show (t.pushed : Multiset multicut_problem)
        = (((t.state.pullProblem local_id).1 :: t.popped : List multicut_problem) :
            Multiset multicut_problem) + stored (t.state.pullProblem local_id).2
      rw [hms, stored_pullProblem t.state local_id hc hid hne, ← Multiset.cons_coe,
        ← Multiset.singleton_add]
      abel
    · intro i hi
      show (t.state.pullProblem local_id).2.len i
          = ((t.state.pullProblem local_id).2.heap i).length ∧
        ((t.state.pullProblem local_id).2.heap i).length ≤ t.pushed.length
      by_cases hij : i = local_id
      · subst hij
        have hk : (t.state.pq.getD i default).topIndex < (t.state.heap i).length :=
          topIndex_lt (t.state.pq.getD i default) hne
        have h1 := hcount i hi
        have hpos : 0 < (t.state.heap i).length := List.length_pos.mpr hne
        rw [pullProblem_len_self t.state i hids, pullProblem_heap_self t.state i hidp,
          List.length_eraseIdx, if_pos hk, h1.1]
        have h2 : (t.state.heap i).length + size_t_mod - 1
            = (t.state.heap i).length - 1 + size_t_mod := by omega
        rw [h2, Nat.add_mod_right, Nat.mod_eq_of_lt (show (t.state.heap i).length - 1
          < size_t_mod by omega)]
        exact ⟨rfl, by omega⟩
      · rw [pullProblem_len_other t.state local_id i hij,
          pullProblem_heap_other t.state local_id i hij]
        exact hcount i hi
    · show t.pushed.length ≤ t.pushed.length + 1
      omega

theorem invariant_run (threads : Nat) (ops : List Op) :
    ∀ (t : Trace), t.Invariant threads → Trace.admissible t ops = true →
      t.pushed.length + ops.length < size_t_mod → (t.run ops).Invariant threads := by
  induction ops with
  | nil => intro t hinv _ _; exact hinv
  | cons op ops ih =>
    intro t hinv hadm hb
    simp only [Trace.admissible, Bool.and_eq_true] at hadm
    simp only [List.length_cons] at hb
    have hs := invariant_step t threads op hinv hadm.1 (by omega)
    exact ih (t.step op) hs.1 hadm.2 (by omega)

theorem admissible_take (ops : List Op) :
    ∀ (t : Trace) (k : Nat), Trace.admissible t ops = true →
      Trace.admissible t (ops.take k) = true := by
  induction ops with
  | nil => intro t k h; simpa using h
  | cons op ops ih =>
    intro t k h
    cases k with
    | zero => rfl
    | succ k =>
      simp only [Trace.admissible, Bool.and_eq_true, List.take_succ_cons] at h ⊢
      exact ⟨h.1, ih _ k h.2⟩

end per_thread_problem_queue
namespace per_thread_problem_queue

/-- C8: in a sequential run of `addProblem` and `pullProblem` from a freshly
constructed scheduler that pulls only from non-empty heaps (of fewer than `2 ^ 64`
calls), after each step `k` the multiset of pushed subproblems equals the popped
ones plus those stored in the heaps, every counter `len[i]` equals the number of
subproblems in heap `i`, and a push adds `p` to the heap whose index it returns and
leaves every other heap as it is. -/
theorem no_subproblem_lost_or_duplicated (w threads : Nat) (pq_type : String)
    (ops : List Op) (hlen : ops.length < size_t_mod)
    (hadm : Trace.admissible (Trace.fresh w threads pq_type) ops = true) (k : Nat) :
    (((Trace.fresh w threads pq_type).run (ops.take k)).pushed : Multiset multicut_problem)
      = (((Trace.fresh w threads pq_type).run (ops.take k)).popped :
          Multiset multicut_problem)
        + stored ((Trace.fresh w threads pq_type).run (ops.take k)).state ∧
    (∀ i, i < threads →
      ((Trace.fresh w threads pq_type).run (ops.take k)).state.len i
        = (((Trace.fresh w threads pq_type).run (ops.take k)).state.heap i).length) ∧
    (∀ (p : multicut_problem) (local_id : Nat), local_id < threads →
      (((Trace.fresh w threads pq_type).run (ops.take k)).state.addProblem p local_id).1
        < threads ∧
      (((Trace.fresh w threads pq_type).run (ops.take k)).state.addProblem p local_id).2.heap
          (((Trace.fresh w threads pq_type).run (ops.take k)).state.addProblem p local_id).1
        = ((Trace.fresh w threads pq_type).run (ops.take k)).state.heap
            (((Trace.fresh w threads pq_type).run (ops.take k)).state.addProblem p local_id).1
          ++ [p] ∧
      ∀ i, i ≠ (((Trace.fresh w threads pq_type).run (ops.take k)).state.addProblem
            p local_id).1 →
        (((Trace.fresh w threads pq_type).run (ops.take k)).state.addProblem p local_id).2.heap i
          = ((Trace.fresh w threads pq_type).run (ops.take k)).state.heap i) := by
  have hinv := invariant_run threads (ops.take k) (Trace.fresh w threads pq_type)
    (fresh_invariant w threads pq_type) (admissible_take ops _ k hadm)
    (by
      have h1 : (ops.take k).length ≤ ops.length := by
        rw [List.length_take]
        exact Nat.min_le_right _ _
      have h2 : (Trace.fresh w threads pq_type).pushed.length = 0 := rfl
      omega)
  obtain ⟨hc, hn, hms, hcount⟩ := hinv
  refine ⟨hms, fun i hi => (hcount i hi).1, ?_⟩
  intro p local_id hid
  have hids : local_id < ((Trace.fresh w threads pq_type).run (ops.take k)).state.sizes.length := by
    rw [hc.1, hn]
    exact hid
  refine ⟨?_, addProblem_heap_self _ p local_id hids hc,
    fun i hi => addProblem_heap_other _ p local_id i hi⟩
  have := addProblem_fst_lt _ p local_id hids
  rwa [hc.1, hn] at this

theorem no_subproblem_lost_or_duplicated_witness :
    [Op.push default 0, Op.push default 0, Op.pull 0].length < size_t_mod ∧
    Trace.admissible (Trace.fresh 64 2 "lower_bound")
      [Op.push default 0, Op.push default 0, Op.pull 0] = true ∧
    (∀ i, i < 2 →
      ((Trace.fresh 64 2 "lower_bound").run
          ([Op.push default 0, Op.push default 0, Op.pull 0].take 3)).state.len i
        = (((Trace.fresh 64 2 "lower_bound").run
          ([Op.push default 0, Op.push default 0, Op.pull 0].take 3)).state.heap i).length) :=
  ⟨by decide, by decide,
    (no_subproblem_lost_or_duplicated 64 2 "lower_bound"
      [Op.push default 0, Op.push default 0, Op.pull 0] (by decide) (by decide) 3).2.1⟩

/-- C10, as stated, fails: after worker 0 has popped a subproblem, no admissible
call of the scheduler (by any worker) clears `running[0]` while leaving every
counter and every heap unchanged. -/
theorem no_retire_step :
    ¬ ∃ op : Op, op.admissible afterOnePop = true ∧
      (afterOnePop.step op).running 0 = false ∧
      (∀ i, (afterOnePop.step op).len i = afterOnePop.len i) ∧
      (∀ i, (afterOnePop.step op).heap i = afterOnePop.heap i) := by
  rintro ⟨op, hadm, -, -, hheap⟩
  have hc : afterOnePop.Consistent := ⟨by decide, by decide⟩
  cases op with
  | push p local_id =>
    have hid : local_id < afterOnePop.num_threads := by simpa [Op.admissible] using hadm
    have h1 := addProblem_heap_self afterOnePop p local_id (by rw [hc.1]; exact hid) hc
    have h2 := hheap (afterOnePop.addProblem p local_id).1
    have h3 := congrArg List.length (h2.symm.trans h1)
    simp at h3
  | pull local_id =>
    have hadm2 : local_id < afterOnePop.num_threads ∧ afterOnePop.heap local_id ≠ [] := by
      simpa [Op.admissible, List.isEmpty_iff] using hadm
    have hlt : local_id < 2 := hadm2.1
    have hall : ∀ i, i < 2 → afterOnePop.heap i = [] := by decide
    exact hadm2.2 (hall local_id hlt)

/-- C10, amended: once `running[local_id]` is set, the only call that clears it is
the worker's own `addProblem(p, local_id)`, which also stores `p` in the heap whose
index it returns; `pullProblem`, and `addProblem` by another worker, leave it set.
The scheduler has no separate retire step. -/
theorem running_cleared_only_by_own_push (s : per_thread_problem_queue) (local_id : Nat)
    (hc : s.Consistent) (hid : local_id < s.num_threads) (hrun : s.running local_id = true)
    (op : Op) (hadm : op.admissible s = true) :
    ((s.step op).running local_id = false ↔ ∃ p, op = Op.push p local_id) ∧
    (∀ p, op = Op.push p local_id →
      (s.step op).heap (s.addProblem p local_id).1
        = s.heap (s.addProblem p local_id).1 ++ [p]) := by
  have hids : local_id < s.sizes.length := by rw [hc.1]; exact hid
  constructor
  · cases op with
    | push p caller =>
      show (s.addProblem p caller).2.running local_id = false ↔ _
      rw [addProblem_running]
      by_cases h : local_id = caller
      · subst h
        simp
      · rw [if_neg h, hrun]
        constructor
        · intro h2
          cases h2
        · rintro ⟨q, hq⟩
          cases hq
          exact absurd rfl h
    | pull caller =>
      show (s.pullProblem caller).2.running local_id = false ↔ _
      have h1 : (s.pullProblem caller).2.running local_id = true := by
        by_cases h : local_id = caller
        · subst h
          exact pullProblem_running_self s local_id hids
        · rw [pullProblem_running_other s caller local_id h, hrun]
      rw [h1]
      constructor
      · intro h2
        cases h2
      · rintro ⟨q, hq⟩
        cases hq
  · intro p hp
    subst hp
    exact addProblem_heap_self s p local_id hids hc

theorem running_cleared_only_by_own_push_witness :
    afterOnePop.Consistent ∧ 0 < afterOnePop.num_threads ∧ afterOnePop.running 0 = true ∧
    (Op.push default 1).admissible afterOnePop = true ∧
    ¬ ((afterOnePop.step (Op.push default 1)).running 0 = false) :=
  ⟨⟨by decide, by decide⟩, by decide, by decide, by decide,
    fun h =>
      Exists.elim
        ((running_cleared_only_by_own_push afterOnePop 0 ⟨by decide, by decide⟩ (by decide)
          (by decide) (Op.push default 1) (by decide)).1.mp h)
        (fun _ hq => by cases hq)⟩

end per_thread_problem_queue

/-! ## Lemmas on `splitConnectedComponents` -/

theorem countTerminals_loop (components : List Nat) (c : Nat) (all_terminals : List Nat) :
    ∀ (nt : List Nat), c < nt.length →
      (all_terminals.foldl
        (fun num_terminals t =>
          num_terminals.set (components.getD t 0)
            (num_terminals.getD (components.getD t 0) 0 + 1)) nt).getD c 0
      = nt.getD c 0 + (terminalsIn components all_terminals c).length := by
  induction all_terminals with
  | nil => intro nt _; simp [terminalsIn]
  | cons t ts ih =>
    intro nt hc
    rw [List.foldl_cons, ih _ (by simpa using hc)]
    unfold terminalsIn
    by_cases h : components.getD t 0 = c
    · subst h
      rw [getD_set_self _ _ _ _ hc, List.filter_cons_of_pos (by simp)]
      simp only [List.length_cons]
      omega
    · rw [getD_set_other _ _ _ _ _ h,
        List.filter_cons_of_neg (by simpa using h)]

theorem countTerminals_getD (components : List Nat) (num_comp c : Nat)
    (all_terminals : List Nat) (hc : c < num_comp) :
    (countTerminals components num_comp all_terminals).getD c 0
      = (terminalsIn components all_terminals c).length := by
  unfold countTerminals
  rw [countTerminals_loop components c all_terminals _ (by simpa using hc)]
  simp [List.getD_eq_getElem?_getD, List.getElem?_replicate, hc]

theorem collectTerminals_eq (components : List Nat) (reverse_mapping : List Nat)
    (tc : Nat) (all_terminals : List Nat) :
    ∀ (st : SplitState), tc < st.terminals.length → tc < st.ctr.length →
      collectTerminals components reverse_mapping tc all_terminals st
      = { st with
          terminals := st.terminals.set tc
            (st.terminals.getD tc [] ++
              ((terminalsIn components all_terminals tc).enumFrom (st.ctr.getD tc 0)).map
                (fun jt => terminal.mk2 (reverse_mapping.getD jt.2 0) jt.1))
          ctr := st.ctr.set tc
            (st.ctr.getD tc 0 + (terminalsIn components all_terminals tc).length) } := by
  induction all_terminals with
  | nil =>
    intro st h1 h2
    simp only [collectTerminals, terminalsIn, List.foldl_nil, List.filter_nil,
      List.enumFrom_nil, List.map_nil, List.append_nil, List.length_nil, Nat.add_zero]
    rw [set_getD_self _ _ _ h1, set_getD_self _ _ _ h2]
  | cons t ts ih =>
    intro st h1 h2
    unfold collectTerminals at ih ⊢
    rw [List.foldl_cons]
    by_cases h : components.getD t 0 = tc
    · subst h
      rw [if_pos rfl, ih _ (by simpa using h1) (by simpa using h2)]
      simp only [getD_set_self _ _ _ _ h1,
        getD_set_self _ _ _ _ h2, List.set_set]
      unfold terminalsIn
      rw [List.filter_cons_of_pos (by simp)]
      simp only [List.enumFrom_cons, List.map_cons, List.length_cons, List.append_assoc,
        List.singleton_append]
      congr 2
      omega
    · rw [if_neg h, ih _ h1 h2]
      unfold terminalsIn
      rw [List.filter_cons_of_neg (by simpa using h)]

theorem foldl_append_if {α β : Type} (p : α → Prop) [DecidablePred p] (f : α → β)
    (l : List α) :
    ∀ (init : List β),
      l.foldl (fun problems i => if p i then problems ++ [f i] else problems) init
        = init ++ (l.filter (fun i => decide (p i))).map f := by
  induction l with
  | nil => intro init; simp
  | cons x xs ih =>
    intro init
    rw [List.foldl_cons, ih]
    by_cases h : p x
    · simp [h]
    · simp [h]
theorem splitStep_invariant (env : Collaborators) (G : mutable_graph)
    (all_terminals done : List Nat) (st : SplitState) (t : Nat)
    (ht : (env.strong_components G).1.getD t 0 < (env.strong_components G).2)
    (hinv : st.Invariant env G all_terminals done) :
    (splitStep env G (env.strong_components G).1
      (countTerminals (env.strong_components G).1 (env.strong_components G).2 all_terminals)
      all_terminals st t).Invariant env G all_terminals (done ++ [t]) := by
  obtain ⟨hl1, hl2, hl3, hmem, hin, hout⟩ := hinv
  unfold splitStep
  simp only
  rw [countTerminals_getD _ _ _ _ ht]
  by_cases h1 : (terminalsIn (env.strong_components G).1 all_terminals
      ((env.strong_components G).1.getD t 0)).length = 1
  · rw [if_pos h1]
    refine ⟨hl1, hl2, hl3, ?_, hin, hout⟩
    intro c
    rw [hmem c]
    constructor
    · rintro ⟨u, hu, hc, hn⟩
      exact ⟨u, List.mem_append_left _ hu, hc, hn⟩
    · rintro ⟨u, hu, hc, hn⟩
      rcases List.mem_append.mp hu with hu | hu
      · exact ⟨u, hu, hc, hn⟩
      · rw [List.mem_singleton] at hu
        subst hu
        subst hc
        exact absurd h1 hn
  · rw [if_neg h1]
    by_cases h2 : st.t_comp.contains ((env.strong_components G).1.getD t 0) = true
    · rw [if_neg (by simpa using h2)]
      have h2m : (env.strong_components G).1.getD t 0 ∈ st.t_comp := by simpa using h2
      have hmem2 : ∀ c, c ∈ st.t_comp ++ [(env.strong_components G).1.getD t 0] ↔
          c ∈ st.t_comp := by
        intro c
        rw [List.mem_append, List.mem_singleton]
        constructor
        · rintro (h | h)
          · exact h
          · rw [h]; exact h2m
        · intro h; exact Or.inl h
      refine ⟨hl1, hl2, hl3, ?_, ?_, ?_⟩
      · intro c
        simp only
        rw [hmem2 c, hmem c]
        constructor
        · rintro ⟨u, hu, hc, hn⟩
          exact ⟨u, List.mem_append_left _ hu, hc, hn⟩
        · rintro ⟨u, hu, hc, hn⟩
          rcases List.mem_append.mp hu with hu | hu
          · exact ⟨u, hu, hc, hn⟩
          · rw [List.mem_singleton] at hu
            subst hu
            subst hc
            exact (hmem _).mp h2m
      · intro c hc hcm
        exact hin c hc ((hmem2 c).mp hcm)
      · intro c hc hcm
        exact hout c hc (fun h => hcm ((hmem2 c).mpr h))
    · rw [if_pos (by simpa using h2)]
      have h2m : (env.strong_components G).1.getD t 0 ∉ st.t_comp := by simpa using h2
      have hempty := hout _ ht h2m
      rw [collectTerminals_eq _ _ _ _ _ (by rw [hl1]; exact ht) (by rw [hl2]; exact ht)]
      simp only [hempty.1, hempty.2, List.nil_append, Nat.zero_add]
      refine ⟨by simpa using hl1, by simpa using hl2, by simpa using hl3, ?_, ?_, ?_⟩
      · intro c
        simp only
        rw [List.mem_append, List.mem_singleton, hmem c]
        constructor
        · rintro (⟨u, hu, hc, hn⟩ | h)
          · exact ⟨u, List.mem_append_left _ hu, hc, hn⟩
          · subst h
            exact ⟨t, by simp, rfl, h1⟩
        · rintro ⟨u, hu, hc, hn⟩
          rcases List.mem_append.mp hu with hu | hu
          · exact Or.inl ⟨u, hu, hc, hn⟩
          · rw [List.mem_singleton] at hu
            subst hu
            exact Or.inr hc.symm
      · intro c hc hcm
        simp only at hcm ⊢
        by_cases hct : c = (env.strong_components G).1.getD t 0
        · subst hct
          rw [getD_set_self _ _ _ _ (by rw [hl1]; exact ht),
            getD_set_self _ _ _ _ (by rw [hl3]; exact ht)]
          exact ⟨rfl, rfl⟩
        · rw [getD_set_other _ _ _ _ _ (Ne.symm hct), getD_set_other _ _ _ _ _ (Ne.symm hct)]
          rcases List.mem_append.mp hcm with h | h
          · exact hin c hc h
          · rw [List.mem_singleton] at h
            exact absurd h hct
      · intro c hc hcm
        simp only at hcm ⊢
        have hct : c ≠ (env.strong_components G).1.getD t 0 := by
          intro h
          exact hcm (List.mem_append_right _ (by simp [h]))
        have hcn : c ∉ st.t_comp := fun h => hcm (List.mem_append_left _ h)
        rw [getD_set_other _ _ _ _ _ (Ne.symm hct), getD_set_other _ _ _ _ _ (Ne.symm hct)]
        exact hout c hc hcn

theorem splitLoop_invariant (env : Collaborators) (G : mutable_graph)
    (all_terminals : List Nat) (rest : List Nat) :
    ∀ (done : List Nat) (st : SplitState),
      (∀ t, t ∈ rest → (env.strong_components G).1.getD t 0 < (env.strong_components G).2) →
      st.Invariant env G all_terminals done →
      (rest.foldl (splitStep env G (env.strong_components G).1
        (countTerminals (env.strong_components G).1 (env.strong_components G).2 all_terminals)
        all_terminals) st).Invariant env G all_terminals (done ++ rest) := by
  induction rest with
  | nil => intro done st _ h; simpa using h
  | cons t ts ih =>
    intro done st hlab hinv
    rw [List.foldl_cons]
    have h := ih (done ++ [t]) _ (fun u hu => hlab u (List.mem_cons_of_mem _ hu))
      (splitStep_invariant env G all_terminals done st t (hlab t (List.mem_cons_self _ _)) hinv)
    simpa using h
/-- The subproblems `splitConnectedComponents` returns, in closed form. -/
theorem splitConnectedComponents_eq (env : Collaborators) (G : mutable_graph)
    (all_terminals : List Nat)
    (hlab : ∀ t, t ∈ all_terminals →
      (env.strong_components G).1.getD t 0 < (env.strong_components G).2) :
    splitConnectedComponents env G all_terminals =
      ((List.range (env.strong_components G).2).filter (fun c =>
          decide (2 ≤ (terminalsIn (env.strong_components G).1 all_terminals c).length))).map
        (fun c =>
          multicut_problem.mk2 env.flow_bits
            (env.extract_block G c (env.strong_components G).1).1
            (blockTerminals (env.strong_components G).1
              (env.extract_block G c (env.strong_components G).1).2 all_terminals c)) := by
  have hinit : SplitState.Invariant env G all_terminals []
      { t_comp := [], terminals := List.replicate (env.strong_components G).2 [],
        ctr := List.replicate (env.strong_components G).2 0,
        component_subgraph := List.replicate (env.strong_components G).2 default } := by
    refine ⟨by simp, by simp, by simp, ?_, ?_, ?_⟩
    · intro c
      simp
    · intro c _ hc
      simp at hc
    · intro c hc _
      simp [List.getD_eq_getElem?_getD, List.getElem?_replicate, hc]
  have hinv := splitLoop_invariant env G all_terminals all_terminals [] _ hlab hinit
  rw [List.nil_append] at hinv
  obtain ⟨-, -, -, hmem, hin, hout⟩ := hinv
  unfold splitConnectedComponents
  simp only
  rw [foldl_append_if, List.nil_append]
  have hlen : ∀ c, (blockTerminals (env.strong_components G).1
      (env.extract_block G c (env.strong_components G).1).2 all_terminals c).length
      = (terminalsIn (env.strong_components G).1 all_terminals c).length := by
    intro c
    simp [blockTerminals]
  have hdone : ∀ c, c < (env.strong_components G).2 →
      (c ∈ (all_terminals.foldl (splitStep env G (env.strong_components G).1
          (countTerminals (env.strong_components G).1 (env.strong_components G).2
            all_terminals) all_terminals)
          { t_comp := [], terminals := List.replicate (env.strong_components G).2 [],
            ctr := List.replicate (env.strong_components G).2 0,
            component_subgraph := List.replicate (env.strong_components G).2 default }).t_comp
        ↔ 2 ≤ (terminalsIn (env.strong_components G).1 all_terminals c).length) := by
    intro c _
    rw [hmem c]
    constructor
    · rintro ⟨t, ht, hc, hn⟩
      have hpos : 0 < (terminalsIn (env.strong_components G).1 all_terminals c).length := by
        apply List.length_pos_of_mem (a := t)
        unfold terminalsIn
        rw [List.mem_filter]
        exact ⟨ht, by simpa using hc⟩
      omega
    · intro h2
      have hne : terminalsIn (env.strong_components G).1 all_terminals c ≠ [] := by
        intro h
        rw [h] at h2
        simp at h2
      obtain ⟨t, ht⟩ := List.exists_mem_of_ne_nil _ hne
      unfold terminalsIn at ht
      rw [List.mem_filter] at ht
      exact ⟨t, ht.1, by simpa using ht.2, by omega⟩
  have hfilter : ∀ c, c ∈ List.range (env.strong_components G).2 →
      (decide (((all_terminals.foldl (splitStep env G (env.strong_components G).1
          (countTerminals (env.strong_components G).1 (env.strong_components G).2
            all_terminals) all_terminals)
          { t_comp := [], terminals := List.replicate (env.strong_components G).2 [],
            ctr := List.replicate (env.strong_components G).2 0,
            component_subgraph := List.replicate (env.strong_components G).2 default }).terminals.getD
              c []).length > 1)
        = decide (2 ≤ (terminalsIn (env.strong_components G).1 all_terminals c).length)) := by
    intro c hc
    rw [List.mem_range] at hc
    by_cases h2 : 2 ≤ (terminalsIn (env.strong_components G).1 all_terminals c).length
    · have h3 := (hin c hc ((hdone c hc).mpr h2)).1
      rw [h3, hlen c]
      simp only [h2, decide_True, decide_eq_true_eq]
      omega
    · have h3 := (hout c hc (fun h => h2 ((hdone c hc).mp h))).1
      rw [h3]
      simp [h2]
  rw [List.filter_congr hfilter]
  apply List.map_congr_left
  intro c hc
  rw [List.mem_filter, List.mem_range] at hc
  have h2 : 2 ≤ (terminalsIn (env.strong_components G).1 all_terminals c).length := by
    simpa using hc.2
  have h3 := hin c hc.1 ((hdone c hc.1).mpr h2)
  rw [h3.1, h3.2]

/-- C2: for every component labelling (labels below `num_comp`) and terminal list,
`splitConnectedComponents` returns, in the order of the component labels, exactly one
subproblem for each component holding at least two terminals of the list and none
for any other component; the subproblem of a component carries the extracted graph
of that component and lists exactly its terminals, in input order, each at the
position `reverse_mapping` assigns to it; so every subproblem returned has at least
two terminals.  (Distinctness of the terminals is not needed: terminals are counted
as entries of the list.) -/
theorem split_one_subproblem_per_component (env : Collaborators) (G : mutable_graph)
    (all_terminals : List Nat)
    (hlab : ∀ t, t ∈ all_terminals →
      (env.strong_components G).1.getD t 0 < (env.strong_components G).2) :
    splitConnectedComponents env G all_terminals =
      ((List.range (env.strong_components G).2).filter (fun c =>
          decide (2 ≤ (terminalsIn (env.strong_components G).1 all_terminals c).length))).map
        (fun c =>
          multicut_problem.mk2 env.flow_bits
            (env.extract_block G c (env.strong_components G).1).1
            (blockTerminals (env.strong_components G).1
              (env.extract_block G c (env.strong_components G).1).2 all_terminals c)) ∧
    ∀ p, p ∈ splitConnectedComponents env G all_terminals → 2 ≤ p.terminals.length := by
  have heq := splitConnectedComponents_eq env G all_terminals hlab
  refine ⟨heq, ?_⟩
  intro p hp
  rw [heq, List.mem_map] at hp
  obtain ⟨c, hc, rfl⟩ := hp
  have h2 : 2 ≤ (terminalsIn (env.strong_components G).1 all_terminals c).length := by
    simpa using (List.mem_filter.mp hc).2
  have hlen : (blockTerminals (env.strong_components G).1
      (env.extract_block G c (env.strong_components G).1).2 all_terminals c).length
      = (terminalsIn (env.strong_components G).1 all_terminals c).length := by
    simp [blockTerminals]
  show 2 ≤ (blockTerminals (env.strong_components G).1
      (env.extract_block G c (env.strong_components G).1).2 all_terminals c).length
  rw [hlen]
  exact h2

theorem split_one_subproblem_per_component_witness :
    (∀ t, t ∈ [0, 1, 4] →
      ((specEnv 0 64).strong_components twoCliques).1.getD t 0
        < ((specEnv 0 64).strong_components twoCliques).2) ∧
    splitConnectedComponents (specEnv 0 64) twoCliques [0, 1, 4] =
      ((List.range ((specEnv 0 64).strong_components twoCliques).2).filter (fun c =>
          decide (2 ≤ (terminalsIn ((specEnv 0 64).strong_components twoCliques).1
            [0, 1, 4] c).length))).map
        (fun c =>
          multicut_problem.mk2 (specEnv 0 64).flow_bits
            ((specEnv 0 64).extract_block twoCliques c
              ((specEnv 0 64).strong_components twoCliques).1).1
            (blockTerminals ((specEnv 0 64).strong_components twoCliques).1
              ((specEnv 0 64).extract_block twoCliques c
                ((specEnv 0 64).strong_components twoCliques).1).2 [0, 1, 4] c)) :=
  ⟨by decide,
    (split_one_subproblem_per_component (specEnv 0 64) twoCliques [0, 1, 4] (by decide)).1⟩
/-! ## Lemmas on `FlowType` arithmetic and the driver loop -/

theorem wrapFlow_add_left (w : Nat) (a b : Int) :
    wrapFlow w (wrapFlow w a + b) = wrapFlow w (a + b) := by
  unfold wrapFlow
  congr 1
  have h : (a + 2 ^ (w - 1)) % 2 ^ w - 2 ^ (w - 1) + b + 2 ^ (w - 1)
      = (a + 2 ^ (w - 1)) % 2 ^ w + b := by ring
  rw [h, Int.emod_add_emod]
  congr 1
  ring

theorem wrapFlow_of_range (w : Nat) (hw : 0 < w) (x : Int)
    (hlo : -(2 ^ (w - 1)) ≤ x) (hhi : x < 2 ^ (w - 1)) : wrapFlow w x = x := by
  unfold wrapFlow
  have hpow : (2 : Int) ^ w = 2 * 2 ^ (w - 1) := by
    have : w = (w - 1) + 1 := by omega
    conv_lhs => rw [this]
    rw [pow_succ]
    ring
  rw [Int.emod_eq_of_lt (by omega) (by omega)]
  ring

theorem toSizeT_of_range (x : Int) (hlo : 0 ≤ x) (hhi : x < (size_t_mod : Int)) :
    (toSizeT x : Int) = x := by
  unfold toSizeT
  rw [Int.emod_eq_of_lt hlo hhi]
  exact Int.toNat_of_nonneg hlo

theorem multicutLoop_fst_aux (env : Collaborators) (problems : List multicut_problem) :
    ∀ (acc : Int × List EngineCall),
      (problems.foldl
        (fun (acc : Int × List EngineCall) problem =>
          (wrapFlow env.flow_bits
              (acc.1 + env.find_multiterminal_cut problem.graph
                (problem.terminals.map (fun t => t.position))
                (addSurroundingAreaToTerminals env problem
                  (problem.terminals.map (fun t => t.position)))),
            acc.2 ++ [{ graph := problem.graph,
                        terminals := problem.terminals.map (fun t => t.position),
                        problem := addSurroundingAreaToTerminals env problem
                          (problem.terminals.map (fun t => t.position)) }]))
        acc).1
      = if problems = [] then acc.1
        else wrapFlow env.flow_bits (acc.1 + (problems.map (engineValue env)).sum) := by
  induction problems with
  | nil => intro acc; simp
  | cons p ps ih =>
    intro acc
    rw [List.foldl_cons, ih]
    simp only [List.map_cons, List.sum_cons]
    by_cases hps : ps = []
    · subst hps
      simp [engineValue]
    · rw [if_neg hps, if_neg (by simp), wrapFlow_add_left]
      congr 1
      unfold engineValue
      ring

/-- The `flow_sum` of the driver loop is the sum of the engine values, reduced to
the range of `FlowType`. -/
theorem multicutLoop_fst (env : Collaborators) (hw : 0 < env.flow_bits)
    (problems : List multicut_problem) :
    (multicutLoop env problems).1
      = wrapFlow env.flow_bits ((problems.map (engineValue env)).sum) := by
  unfold multicutLoop
  rw [multicutLoop_fst_aux]
  have hpos : (0 : Int) < 2 ^ (env.flow_bits - 1) := by positivity
  by_cases hps : problems = []
  · subst hps
    simp only [if_true, List.map_nil, List.sum_nil]
    rw [wrapFlow_of_range _ hw 0 (by omega) hpos]
  · rw [if_neg hps]
    simp only [Int.zero_add]
/-- C3: the value `multicut(G, T)` returns is the sum, over the subproblems
returned by `splitConnectedComponents(G, T)`, of the values the engine returns for
them after `addSurroundingAreaToTerminals`: it is that sum as accumulated in the
`FlowType` variable `flow_sum` and returned as `size_t`, and it is that sum exactly
whenever the sum is a non-negative `FlowType` value. -/
theorem multicut_eq_sum_of_engine_values (env : Collaborators) (G : mutable_graph)
    (terminals : List Nat) (hw : 0 < env.flow_bits) :
    multicut env G terminals
      = toSizeT (wrapFlow env.flow_bits
          (((splitConnectedComponents env G terminals).map (engineValue env)).sum)) ∧
    (env.flow_bits ≤ 64 →
      0 ≤ ((splitConnectedComponents env G terminals).map (engineValue env)).sum →
      ((splitConnectedComponents env G terminals).map (engineValue env)).sum
        < 2 ^ (env.flow_bits - 1) →
      (multicut env G terminals : Int)
        = ((splitConnectedComponents env G terminals).map (engineValue env)).sum) := by
  have h1 : multicut env G terminals
      = toSizeT (wrapFlow env.flow_bits
          (((splitConnectedComponents env G terminals).map (engineValue env)).sum)) := by
    unfold multicut
    rw [multicutLoop_fst env hw]
  refine ⟨h1, ?_⟩
  intro h64 hlo hhi
  have hpos : (0 : Int) < 2 ^ (env.flow_bits - 1) := by positivity
  rw [h1, wrapFlow_of_range _ hw _ (by omega) hhi]
  apply toSizeT_of_range _ hlo
  have hle : (2 : Int) ^ (env.flow_bits - 1) ≤ 2 ^ 63 :=
    pow_le_pow_right₀ (by norm_num) (by omega)
  have hsz : ((size_t_mod : Nat) : Int) = 2 ^ 64 := by
    unfold size_t_mod
    norm_num
  rw [hsz]
  have : (2 : Int) ^ 63 < 2 ^ 64 := by norm_num
  omega

theorem multicut_eq_sum_of_engine_values_witness :
    0 < (specEnv 2 64).flow_bits ∧
    multicut (specEnv 2 64) twoCliques [0, 1, 4, 5]
      = toSizeT (wrapFlow (specEnv 2 64).flow_bits
          (((splitConnectedComponents (specEnv 2 64) twoCliques [0, 1, 4, 5]).map
            (engineValue (specEnv 2 64))).sum)) :=
  ⟨by decide,
    (multicut_eq_sum_of_engine_values (specEnv 2 64) twoCliques [0, 1, 4, 5] (by decide)).1⟩

/-- C4: when no component holds two or more terminals of the list (so in particular
for a single terminal, or one terminal per component), `multicut(G, T)` returns 0
and makes no call of the branch-and-bound engine. -/
theorem multicut_zero_without_engine (env : Collaborators) (G : mutable_graph)
    (terminals : List Nat)
    (hlab : ∀ t, t ∈ terminals →
      (env.strong_components G).1.getD t 0 < (env.strong_components G).2)
    (hone : ∀ c, c < (env.strong_components G).2 →
      (terminalsIn (env.strong_components G).1 terminals c).length ≤ 1) :
    multicut env G terminals = 0 ∧ multicutCalls env G terminals = [] := by
  have hsplit : splitConnectedComponents env G terminals = [] := by
    rw [splitConnectedComponents_eq env G terminals hlab, List.map_eq_nil_iff,
      List.filter_eq_nil_iff]
    intro c hc
    rw [List.mem_range] at hc
    have := hone c hc
    simp only [decide_eq_true_eq]
    omega
  unfold multicut multicutCalls
  rw [hsplit]
  exact ⟨rfl, rfl⟩

theorem multicut_zero_without_engine_witness :
    (∀ t, t ∈ [0, 4] →
      ((specEnv 2 64).strong_components twoCliques).1.getD t 0
        < ((specEnv 2 64).strong_components twoCliques).2) ∧
    (∀ c, c < ((specEnv 2 64).strong_components twoCliques).2 →
      (terminalsIn ((specEnv 2 64).strong_components twoCliques).1 [0, 4] c).length ≤ 1) ∧
    multicut (specEnv 2 64) twoCliques [0, 4] = 0 ∧
    multicutCalls (specEnv 2 64) twoCliques [0, 4] = [] :=
  ⟨by decide, by decide,
    multicut_zero_without_engine (specEnv 2 64) twoCliques [0, 4] (by decide) (by decide)⟩

/-! ## Lemmas on sums, labellings and minima -/

theorem sum_map_filter_of_zero {α : Type} (p : α → Bool) (f : α → Nat) (l : List α)
    (h : ∀ x, x ∈ l → p x = false → f x = 0) :
    ((l.filter p).map f).sum = (l.map f).sum := by
  induction l with
  | nil => rfl
  | cons x xs ih =>
    have ih2 := ih (fun y hy => h y (List.mem_cons_of_mem _ hy))
    by_cases hp : p x = true
    · rw [List.filter_cons_of_pos hp, List.map_cons, List.sum_cons, ih2, List.map_cons,
        List.sum_cons]
    · rw [List.filter_cons_of_neg hp, ih2, List.map_cons, List.sum_cons,
        h x (List.mem_cons_self _ _) (by simpa using hp), Nat.zero_add]

theorem sum_map_flatMap {α β : Type} (f : α → List β) (g : β → Nat) (l : List α) :
    ((l.flatMap f).map g).sum = (l.map (fun x => ((f x).map g).sum)).sum := by
  induction l with
  | nil => rfl
  | cons x xs ih =>
    rw [List.flatMap_cons, List.map_append, List.sum_append, ih, List.map_cons, List.sum_cons]

theorem sum_range_ite_eq (m k : Nat) (c : Nat → Nat) :
    ((List.range m).map (fun b => if k = b then c b else 0)).sum
      = if k < m then c k else 0 := by
  induction m with
  | zero => simp
  | succ m ih =>
    rw [List.range_succ, List.map_append, List.sum_append, ih]
    simp only [List.map_cons, List.map_nil, List.sum_cons, List.sum_nil, Nat.add_zero]
    by_cases h1 : k < m
    · rw [if_pos h1, if_neg (by omega), if_pos (by omega), Nat.add_zero]
    · rw [if_neg h1]
      by_cases h2 : k = m
      · subst h2
        rw [if_pos rfl, if_pos (by omega), Nat.zero_add]
      · rw [if_neg h2, if_neg (by omega)]

/-- A sum over a list, regrouped by the value of a key below `m`. -/
theorem sum_group_by_key {α : Type} (key : α → Nat) (F : Nat → α → Nat) (m : Nat)
    (l : List α) :
    ((List.range m).map (fun b =>
        ((l.filter (fun x => key x == b)).map (F b)).sum)).sum
      = (l.map (fun x => if key x < m then F (key x) x else 0)).sum := by
  induction l with
  | nil => simp
  | cons x xs ih =>
    rw [List.map_cons, List.sum_cons, ← ih, ← sum_range_ite_eq m (key x) (fun b => F b x),
      ← List.sum_map_add]
    congr 1
    apply List.map_congr_left
    intro b _
    by_cases h : key x = b
    · rw [List.filter_cons_of_pos (by simpa using h), if_pos h, List.map_cons, List.sum_cons]
    · rw [List.filter_cons_of_neg (by simpa using h), if_neg h, Nat.zero_add]

theorem sum_map_ite_const {α : Type} (c : Prop) [Decidable c] (f : α → Nat) (l : List α) :
    (l.map (fun x => if c then f x else 0)).sum = if c then (l.map f).sum else 0 := by
  by_cases h : c
  · simp [h]
  · simp [h]

theorem mem_allLabellings (k : Nat) :
    ∀ (n : Nat) (l : List Nat),
      l ∈ allLabellings k n ↔ l.length = n ∧ ∀ x, x ∈ l → x < k := by
  intro n
  induction n with
  | zero =>
    intro l
    simp only [allLabellings, List.mem_singleton]
    constructor
    · intro h
      subst h
      simp
    · intro h
      exact List.length_eq_zero.mp h.1
  | succ n ih =>
    intro l
    simp only [allLabellings, List.mem_flatMap, List.mem_map, List.mem_range]
    constructor
    · rintro ⟨l0, hl0, x, hx, rfl⟩
      obtain ⟨h1, h2⟩ := (ih l0).mp hl0
      refine ⟨by simp [h1], ?_⟩
      intro y hy
      rcases List.mem_cons.mp hy with h | h
      · rw [h]; exact hx
      · exact h2 y h
    · rintro ⟨h1, h2⟩
      cases l with
      | nil => simp at h1
      | cons x l0 =>
        refine ⟨l0, (ih l0).mpr ⟨by simpa using h1, fun y hy => h2 y (List.mem_cons_of_mem _ hy)⟩,
          x, h2 x (List.mem_cons_self _ _), rfl⟩

theorem foldl_min_spec (xs : List Nat) :
    ∀ (x : Nat), (xs.foldl min x = x ∨ xs.foldl min x ∈ xs) ∧
      xs.foldl min x ≤ x ∧ ∀ y, y ∈ xs → xs.foldl min x ≤ y := by
  induction xs with
  | nil => intro x; simp
  | cons a as ih =>
    intro x
    rw [List.foldl_cons]
    obtain ⟨h1, h2, h3⟩ := ih (min x a)
    refine ⟨?_, ?_, ?_⟩
    · rcases h1 with h | h
      · rw [h]
        rcases Nat.le_total x a with hxa | hxa
        · left; exact Nat.min_eq_left hxa
        · right; rw [Nat.min_eq_right hxa]; exact List.mem_cons_self _ _
      · right; exact List.mem_cons_of_mem _ h
    · exact le_trans h2 (Nat.min_le_left _ _)
    · intro y hy
      rcases List.mem_cons.mp hy with h | h
      · rw [h]; exact le_trans h2 (Nat.min_le_right _ _)
      · exact h3 y h

/-- The value `listMin` returns is an element of the list and a lower bound of it. -/
theorem listMin_eq_some_iff (xs : List Nat) (m : Nat) :
    listMin xs = some m ↔ m ∈ xs ∧ ∀ y, y ∈ xs → m ≤ y := by
  cases xs with
  | nil => simp [listMin]
  | cons x xs =>
    obtain ⟨h1, h2, h3⟩ := foldl_min_spec xs x
    simp only [listMin, Option.some.injEq]
    constructor
    · intro h
      subst h
      refine ⟨?_, ?_⟩
      · rcases h1 with h | h
        · rw [h]; exact List.mem_cons_self _ _
        · exact List.mem_cons_of_mem _ h
      · intro y hy
        rcases List.mem_cons.mp hy with h | h
        · rw [h]; exact h2
        · exact h3 y h
    · rintro ⟨hm, hle⟩
      apply le_antisymm
      · rcases List.mem_cons.mp hm with h | h
        · rw [h]; exact h2
        · exact h3 m h
      · apply hle
        rcases h1 with h | h
        · rw [h]; exact List.mem_cons_self _ _
        · exact List.mem_cons_of_mem _ h

theorem listMin_isSome_of_ne_nil (xs : List Nat) (h : xs ≠ []) : ∃ m, listMin xs = some m := by
  cases xs with
  | nil => exact absurd rfl h
  | cons x xs => exact ⟨_, rfl⟩
/-- The optimum is the weight of a feasible labelling and a lower bound of the
weight of every feasible labelling. -/
theorem optimum_eq_some_iff (G : mutable_graph) (terminals : List Nat) (c : Nat) :
    optimum G terminals = some c ↔
      (∃ l, feasible G terminals l ∧ cutWeight G l = c) ∧
      (∀ l, feasible G terminals l → c ≤ cutWeight G l) := by
  unfold optimum
  rw [listMin_eq_some_iff]
  simp only [List.mem_map, List.mem_filter, mem_allLabellings, feasible]
  constructor
  · rintro ⟨⟨l, ⟨⟨h1, h2⟩, h3⟩, h4⟩, hle⟩
    refine ⟨⟨l, ⟨h1, h2, h3⟩, h4⟩, ?_⟩
    rintro l2 ⟨g1, g2, g3⟩
    exact hle _ ⟨l2, ⟨⟨g1, g2⟩, g3⟩, rfl⟩
  · rintro ⟨⟨l, ⟨h1, h2, h3⟩, h4⟩, hle⟩
    refine ⟨⟨l, ⟨⟨h1, h2⟩, h3⟩, h4⟩, ?_⟩
    rintro y ⟨l2, ⟨⟨g1, g2⟩, g3⟩, rfl⟩
    exact hle l2 ⟨g1, g2, g3⟩

theorem optimum_isSome_of_feasible (G : mutable_graph) (terminals : List Nat) (l : List Nat)
    (h : feasible G terminals l) : ∃ c, optimum G terminals = some c ∧ c ≤ cutWeight G l := by
  have hne : ((allLabellings (max terminals.length 1) G.n).filter
      (fun l => separates terminals l)).map (cutWeight G) ≠ [] := by
    intro hnil
    have hm : cutWeight G l ∈ ((allLabellings (max terminals.length 1) G.n).filter
        (fun l => separates terminals l)).map (cutWeight G) := by
      simp only [List.mem_map, List.mem_filter, mem_allLabellings]
      exact ⟨l, ⟨⟨h.1, h.2.1⟩, h.2.2⟩, rfl⟩
    rw [hnil] at hm
    simp at hm
  obtain ⟨c, hc⟩ := listMin_isSome_of_ne_nil _ hne
  have hc2 : optimum G terminals = some c := hc
  exact ⟨c, hc2, ((optimum_eq_some_iff G terminals c).mp hc2).2 l h⟩

/-- If every feasible labelling of the second problem yields a feasible labelling of
the first that weighs no more, the optimum of the first is at most that of the
second. -/
theorem optimum_le_of_transfer (G G2 : mutable_graph) (T T2 : List Nat)
    (h : ∀ l2, feasible G2 T2 l2 → ∃ l, feasible G T l ∧ cutWeight G l ≤ cutWeight G2 l2)
    (c2 : Nat) (hc2 : optimum G2 T2 = some c2) :
    ∃ c, optimum G T = some c ∧ c ≤ c2 := by
  obtain ⟨⟨l2, hf2, hw2⟩, -⟩ := (optimum_eq_some_iff G2 T2 c2).mp hc2
  obtain ⟨l, hf, hw⟩ := h l2 hf2
  obtain ⟨c, hc, hle⟩ := optimum_isSome_of_feasible G T l hf
  exact ⟨c, hc, by omega⟩
/-! ## Contraction of blocks and the optimum -/

theorem getD_map_range {α : Type} (f : Nat → α) (n a : Nat) (d : α) (h : a < n) :
    ((List.range n).map f).getD a d = f a := by
  simp [List.getD_eq_getElem?_getD, List.getElem?_range, h]

theorem contractedId_lt (G : mutable_graph) (blocks : List (List Nat)) (v : Nat)
    (hv : v < G.n) :
    contractedId G blocks v < ((G.nodes.map (blockHead blocks)).dedup).length := by
  unfold contractedId
  rw [List.indexOf_lt_length, List.mem_dedup, List.mem_map]
  exact ⟨v, by simpa [mutable_graph.nodes] using hv, rfl⟩

theorem labelOf_liftedLabelling (G : mutable_graph) (blocks : List (List Nat))
    (label : List Nat) (v : Nat) :
    labelOf (liftedLabelling G blocks label) v
      = if v < G.n then labelOf label (contractedId G blocks v) else 0 := by
  unfold liftedLabelling mutable_graph.nodes
  by_cases h : v < G.n
  · rw [if_pos h]
    conv_lhs => unfold labelOf
    rw [getD_map_range _ _ _ _ h]
    rfl
  · rw [if_neg h]
    unfold labelOf
    rw [List.getD_eq_getElem?_getD, List.getElem?_eq_none (by simpa using h)]
    rfl

theorem contracted_n (mcp : multicut_problem) (blocks : List (List Nat)) :
    (contractIsolatingBlocks_spec mcp blocks).graph.n
      = ((mcp.graph.nodes.map (blockHead blocks)).dedup).length := by
  simp [contractIsolatingBlocks_spec, mutable_graph.n]

theorem contracted_halfEdges (mcp : multicut_problem) (blocks : List (List Nat)) (a : Nat)
    (ha : a < ((mcp.graph.nodes.map (blockHead blocks)).dedup).length) :
    (contractIsolatingBlocks_spec mcp blocks).graph.halfEdges a
      = (contractedNeighbours mcp.graph blocks a).map (fun b =>
          ({ target := b
             weight := (((contractedOut mcp.graph blocks a).filter
                (fun he => contractedId mcp.graph blocks he.target == b)).map
                  (fun he => he.weight)).sum
             reverse := ((contractedNeighbours mcp.graph blocks b).indexOf a) } : HalfEdge)) := by
  simp only [contractIsolatingBlocks_spec, mutable_graph.halfEdges]
  rw [getD_map_range _ _ _ _ ha]

/-- The cut a labelling of the contracted graph describes, summed over the
half-edges of the original graph. -/
theorem cutWeight_contracted (mcp : multicut_problem) (blocks : List (List Nat))
    (label : List Nat) :
    cutWeight (contractIsolatingBlocks_spec mcp blocks).graph label
      = (mcp.graph.nodes.map (fun v =>
          ((mcp.graph.halfEdges v).map (fun he =>
            if contractedId mcp.graph blocks he.target
                < ((mcp.graph.nodes.map (blockHead blocks)).dedup).length then
              (if labelOf label (contractedId mcp.graph blocks v)
                  < labelOf label (contractedId mcp.graph blocks he.target)
                then he.weight else 0)
            else 0)).sum)).sum := by
  have hinner : ∀ a, a ∈ List.range ((mcp.graph.nodes.map (blockHead blocks)).dedup).length →
      (((contractIsolatingBlocks_spec mcp blocks).graph.halfEdges a).map (fun he =>
          if labelOf label a < labelOf label he.target then he.weight else 0)).sum
      = ((mcp.graph.nodes.filter (fun v => contractedId mcp.graph blocks v == a)).map
          (fun v => ((mcp.graph.halfEdges v).map (fun he =>
            if contractedId mcp.graph blocks he.target
                < ((mcp.graph.nodes.map (blockHead blocks)).dedup).length then
              (if labelOf label (contractedId mcp.graph blocks v)
                  < labelOf label (contractedId mcp.graph blocks he.target)
                then he.weight else 0)
            else 0)).sum)).sum := by
    intro a ha
    rw [List.mem_range] at ha
    rw [contracted_halfEdges mcp blocks a ha, List.map_map]
    unfold contractedNeighbours
    rw [sum_map_filter_of_zero]
    · have hterm : ∀ b, b ∈ List.range ((mcp.graph.nodes.map (blockHead blocks)).dedup).length →
          ((fun he : HalfEdge =>
              if labelOf label a < labelOf label he.target then he.weight else 0) ∘
            (fun b => ({ target := b
                         weight := (((contractedOut mcp.graph blocks a).filter
                            (fun he => contractedId mcp.graph blocks he.target == b)).map
                              (fun he => he.weight)).sum
                         reverse := (((List.range
                              ((mcp.graph.nodes.map (blockHead blocks)).dedup).length).filter
                            (fun b2 => b2 != b &&
                              (contractedOut mcp.graph blocks b).any (fun he =>
                                contractedId mcp.graph blocks he.target == b2))).indexOf a) } :
                          HalfEdge))) b
          = (((contractedOut mcp.graph blocks a).filter
                (fun he => contractedId mcp.graph blocks he.target == b)).map
              (fun he => if labelOf label a < labelOf label b then he.weight else 0)).sum := by
        intro b _
        simp only [Function.comp]
        rw [sum_map_ite_const]
      rw [List.map_congr_left hterm,
        sum_group_by_key (fun he : HalfEdge => contractedId mcp.graph blocks he.target)
          (fun b he => if labelOf label a < labelOf label b then he.weight else 0)]
      unfold contractedOut
      rw [sum_map_flatMap]
      apply congrArg
      apply List.map_congr_left
      intro v hv
      rw [List.mem_filter] at hv
      have hva : contractedId mcp.graph blocks v = a := by simpa using hv.2
      rw [hva]
    · intro b _ hb
      simp only [Function.comp]
      by_cases hba : b = a
      · subst hba
        simp
      · have hany : (contractedOut mcp.graph blocks a).any
            (fun he => contractedId mcp.graph blocks he.target == b) = false := by
          simpa [hba] using hb
        have hfil : (contractedOut mcp.graph blocks a).filter
            (fun he => contractedId mcp.graph blocks he.target == b) = [] := by
          rw [List.filter_eq_nil_iff]
          intro he hhe
          rw [List.any_eq_false] at hany
          exact hany he hhe
        rw [hfil]
        simp
  unfold cutWeight
  have hn : (contractIsolatingBlocks_spec mcp blocks).graph.nodes
      = List.range ((mcp.graph.nodes.map (blockHead blocks)).dedup).length := by
    show List.range (contractIsolatingBlocks_spec mcp blocks).graph.n = _
    rw [contracted_n]
  rw [hn, List.map_congr_left hinner,
    sum_group_by_key (fun v => contractedId mcp.graph blocks v)
      (fun _ v => ((mcp.graph.halfEdges v).map (fun he =>
            if contractedId mcp.graph blocks he.target
                < ((mcp.graph.nodes.map (blockHead blocks)).dedup).length then
              (if labelOf label (contractedId mcp.graph blocks v)
                  < labelOf label (contractedId mcp.graph blocks he.target)
                then he.weight else 0)
            else 0)).sum)]
  apply congrArg
  apply List.map_congr_left
  intro v hv
  rw [if_pos (contractedId_lt mcp.graph blocks v (by simpa [mutable_graph.nodes] using hv))]

/-- A labelling of the contracted graph, lifted to the original graph, cuts no more
than it cuts in the contracted graph. -/
theorem cutWeight_lifted_le (mcp : multicut_problem) (blocks : List (List Nat))
    (label : List Nat) :
    cutWeight mcp.graph (liftedLabelling mcp.graph blocks label)
      ≤ cutWeight (contractIsolatingBlocks_spec mcp blocks).graph label := by
  rw [cutWeight_contracted]
  unfold cutWeight
  apply List.sum_le_sum
  intro v hv
  have hvn : v < mcp.graph.n := by simpa [mutable_graph.nodes] using hv
  apply List.sum_le_sum
  intro he _
  rw [labelOf_liftedLabelling, labelOf_liftedLabelling, if_pos hvn]
  by_cases ht : he.target < mcp.graph.n
  · rw [if_pos ht, if_pos (contractedId_lt mcp.graph blocks he.target ht)]
  · rw [if_neg ht, if_neg (Nat.not_lt_zero _)]
    exact Nat.zero_le _
theorem separates_iff (terminals label : List Nat) :
    separates terminals label = true ↔
      ∀ i, i < terminals.length → labelOf label (terminals.getD i 0) = i := by
  unfold separates
  rw [List.all_eq_true]
  constructor
  · intro h i hi
    have := h i (List.mem_range.mpr hi)
    simpa using this
  · intro h i hi
    have := h i (List.mem_range.mp hi)
    simpa using this

theorem labelOf_lt (label : List Nat) (k v : Nat) (hk : 0 < k)
    (h : ∀ x, x ∈ label → x < k) : labelOf label v < k := by
  unfold labelOf
  rw [List.getD_eq_getElem?_getD]
  by_cases hv : v < label.length
  · rw [List.getElem?_eq_getElem hv]
    exact h _ (List.getElem_mem _)
  · rw [List.getElem?_eq_none (not_lt.mp hv)]
    exact hk

theorem cutWeight_congr (G1 G2 : mutable_graph) (h : G1.adjacency = G2.adjacency)
    (label : List Nat) : cutWeight G1 label = cutWeight G2 label := by
  unfold cutWeight mutable_graph.nodes mutable_graph.n mutable_graph.halfEdges
  rw [h]

/-- The optimum depends on the half-edges of the graph only. -/
theorem optimum_congr (G1 G2 : mutable_graph) (h : G1.adjacency = G2.adjacency)
    (terminals : List Nat) : optimum G1 terminals = optimum G2 terminals := by
  unfold optimum
  have hn : G1.n = G2.n := by unfold mutable_graph.n; rw [h]
  rw [hn]
  congr 1
  apply List.map_congr_left
  intro l _
  exact cutWeight_congr G1 G2 h l

theorem foldl_setPartitionIndex_adjacency {α : Type} (l : List α)
    (f : mutable_graph → α → Nat) (g : α → Nat) :
    ∀ (G : mutable_graph),
      (l.foldl (fun G x => G.setPartitionIndex (f G x) (g x)) G).adjacency = G.adjacency := by
  induction l with
  | nil => intro G; rfl
  | cons x xs ih =>
    intro G
    rw [List.foldl_cons, ih]
    rfl

/-- The subproblem after `addSurroundingAreaToTerminals` has the half-edges and the
terminals of the contracted subproblem. -/
theorem addSurroundingAreaToTerminals_spec (bfs_size w : Nat) (hb : bfs_size ≠ 0)
    (mcp : multicut_problem) (terminals : List Nat) :
    (addSurroundingAreaToTerminals (specEnv bfs_size w) mcp terminals).graph.adjacency
      = (contractIsolatingBlocks_spec mcp
          (buildBlocks bfs_size mcp.graph terminals)).graph.adjacency ∧
    (addSurroundingAreaToTerminals (specEnv bfs_size w) mcp terminals).terminals
      = (contractIsolatingBlocks_spec mcp
          (buildBlocks bfs_size mcp.graph terminals)).terminals := by
  unfold addSurroundingAreaToTerminals
  have h1 : (specEnv bfs_size w).bfs_size = bfs_size := rfl
  rw [h1, if_pos hb]
  simp only
  refine ⟨?_, rfl⟩
  rw [foldl_setPartitionIndex_adjacency (List.range terminals.length)
    (fun G l => G.getCurrentPosition (terminals.getD l 0)) (fun l => l)]
  exact foldl_setPartitionIndex_adjacency _ (fun _ n => n) (fun _ => 0) _

/-- A feasible labelling of the contracted subproblem lifts to a feasible labelling
of the subproblem. -/
theorem feasible_lifted (mcp : multicut_problem) (blocks : List (List Nat)) (label : List Nat)
    (hT : ∀ t, t ∈ mcp.terminals → t.position < mcp.graph.n)
    (h : feasible (contractIsolatingBlocks_spec mcp blocks).graph
      ((contractIsolatingBlocks_spec mcp blocks).terminals.map (fun t => t.position)) label) :
    feasible mcp.graph (mcp.terminals.map (fun t => t.position))
      (liftedLabelling mcp.graph blocks label) := by
  obtain ⟨-, h2, h3⟩ := h
  have hterm : (contractIsolatingBlocks_spec mcp blocks).terminals.map (fun t => t.position)
      = (mcp.terminals.map (fun t => t.position)).map (contractedId mcp.graph blocks) := by
    simp [contractIsolatingBlocks_spec, List.map_map, Function.comp]
  rw [hterm] at h2 h3
  rw [List.length_map] at h2
  refine ⟨by simp [liftedLabelling, mutable_graph.nodes], ?_, ?_⟩
  · intro x hx
    unfold liftedLabelling at hx
    rw [List.mem_map] at hx
    obtain ⟨v, -, rfl⟩ := hx
    exact labelOf_lt label _ _ (by omega) h2
  · rw [separates_iff] at h3 ⊢
    intro i hi
    have h4 := h3 i (by simpa using hi)
    have hi2 : i < mcp.terminals.length := by simpa using hi
    have hget : (mcp.terminals.map (fun t => t.position)).getD i 0
        = (mcp.terminals[i]).position := by
      rw [List.getD_eq_getElem?_getD, List.getElem?_eq_getElem (by simpa using hi2)]
      simp
    have hget2 : ((mcp.terminals.map (fun t => t.position)).map
        (contractedId mcp.graph blocks)).getD i 0
        = contractedId mcp.graph blocks (mcp.terminals[i]).position := by
      rw [List.getD_eq_getElem?_getD, List.getElem?_eq_getElem (by simpa using hi2)]
      simp
    rw [hget2] at h4
    rw [hget, labelOf_liftedLabelling, if_pos (hT _ (List.getElem_mem _)), h4]

/-- C5, as stated, fails: on the path `0 - 1 - 2` with weights 1 and 5, terminals 0
and 2 and `bfs_size = 2`, the block of terminal 0 is `[0, 1]`; after the contraction
the optimum is 5, while the optimum of the path is 1. -/
theorem contraction_changes_optimum :
    buildBlocks 2 pathOneFive [0, 2] = [[0, 1], [2]] ∧
    optimum (addSurroundingAreaToTerminals (specEnv 2 64) pathProblem [0, 2]).graph
      ((addSurroundingAreaToTerminals (specEnv 2 64) pathProblem [0, 2]).terminals.map
        (fun t => t.position)) = some 5 ∧
    optimum pathOneFive [0, 2] = some 1 := by
  decide

/-- C5, amended: contracting the blocks computed by `addSurroundingAreaToTerminals`
into their terminals never lowers the optimum: the optimum multiway cut value of the
contracted graph (terminals at their new positions) is at least the optimum multiway
cut value of the graph with respect to the terminals; it can be larger. -/
theorem contraction_optimum_ge (bfs_size w : Nat) (mcp : multicut_problem)
    (hT : ∀ t, t ∈ mcp.terminals → t.position < mcp.graph.n) (c2 : Nat)
    (h : optimum
      (addSurroundingAreaToTerminals (specEnv bfs_size w) mcp
        (mcp.terminals.map (fun t => t.position))).graph
      ((addSurroundingAreaToTerminals (specEnv bfs_size w) mcp
        (mcp.terminals.map (fun t => t.position))).terminals.map (fun t => t.position))
      = some c2) :
    ∃ c, optimum mcp.graph (mcp.terminals.map (fun t => t.position)) = some c ∧ c ≤ c2 := by
  by_cases hb : bfs_size = 0
  · subst hb
    have hid : addSurroundingAreaToTerminals (specEnv 0 w) mcp
        (mcp.terminals.map (fun t => t.position)) = mcp := by
      unfold addSurroundingAreaToTerminals
      rfl
    rw [hid] at h
    exact ⟨c2, h, le_refl _⟩
  · obtain ⟨hadj, hterm⟩ := addSurroundingAreaToTerminals_spec bfs_size w hb mcp
      (mcp.terminals.map (fun t => t.position))
    rw [optimum_congr _ _ hadj, hterm] at h
    apply optimum_le_of_transfer _ _ _ _ _ c2 h
    intro l2 hl2
    exact ⟨_, feasible_lifted mcp _ l2 hT hl2, cutWeight_lifted_le mcp _ l2⟩

theorem contraction_optimum_ge_witness :
    (∀ t, t ∈ pathProblem.terminals → t.position < pathProblem.graph.n) ∧
    optimum
      (addSurroundingAreaToTerminals (specEnv 2 64) pathProblem
        (pathProblem.terminals.map (fun t => t.position))).graph
      ((addSurroundingAreaToTerminals (specEnv 2 64) pathProblem
        (pathProblem.terminals.map (fun t => t.position))).terminals.map (fun t => t.position))
      = some 5 ∧
    ∃ c, optimum pathProblem.graph (pathProblem.terminals.map (fun t => t.position)) = some c ∧
      c ≤ 5 :=
  ⟨by decide, by decide, contraction_optimum_ge 2 64 pathProblem (by decide) 5 (by decide)⟩

/-! ## The breadth-first search stops within its fuel -/

theorem bfsVisitEdges_measure (bfs_size : Nat) (G : mutable_graph) (n : Nat)
    (es : List Nat) :
    ∀ (st : BfsState), st.current_block_size < bfs_size →
      (bfsVisitEdges bfs_size G n es st).current_block_size ≤ bfs_size ∧
      (bfsVisitEdges bfs_size G n es st).bfs_q.length
          + (bfs_size - (bfsVisitEdges bfs_size G n es st).current_block_size)
        = st.bfs_q.length + (bfs_size - st.current_block_size) := by
  induction es with
  | nil =>
    intro st h
    exact ⟨by simp only [bfsVisitEdges]; omega, rfl⟩
  | cons e es ih =>
    intro st h
    simp only [bfsVisitEdges]
    split
    · split
      · simp only [List.length_append, List.length_cons, List.length_nil]
        omega
      · rename_i hlt
        have h2 := ih
          { already_in_block := st.already_in_block.set (G.getEdgeTarget n e) true
            bfs_q := st.bfs_q ++ [G.getEdgeTarget n e]
            block := st.block ++ [G.getEdgeTarget n e]
            current_block_size := st.current_block_size + 1
            reached := st.reached ++ [G.getEdgeTarget n e] } (by simpa using hlt)
        refine ⟨h2.1, ?_⟩
        rw [h2.2]
        simp only [List.length_append, List.length_cons, List.length_nil]
        omega
    · exact ih { st with reached := st.reached ++ [G.getEdgeTarget n e] } h

/-- With fuel for every queue entry that can still be made, the `while` loop ends
because its condition fails, and more fuel does not change its result. -/
theorem bfsWhile_exit (bfs_size : Nat) (G : mutable_graph) (fuel : Nat) :
    ∀ (st : BfsState), st.current_block_size ≤ bfs_size →
      st.bfs_q.length + (bfs_size - st.current_block_size) ≤ fuel →
      ((bfsWhile bfs_size G fuel st).bfs_q = [] ∨
        ¬ (bfsWhile bfs_size G fuel st).current_block_size < bfs_size) ∧
      ∀ extra, bfsWhile bfs_size G (fuel + extra) st = bfsWhile bfs_size G fuel st := by
  induction fuel with
  | zero =>
    intro st _ hm
    have hq : st.bfs_q = [] := List.length_eq_zero.mp (by omega)
    refine ⟨Or.inl hq, ?_⟩
    intro extra
    cases extra with
    | zero => rfl
    | succ k =>
      simp only [Nat.zero_add, bfsWhile]
      rw [hq]
  | succ fuel ih =>
    intro st hle hm
    have hstep : ∀ extra, fuel + 1 + extra = (fuel + extra) + 1 := by intro extra; omega
    cases hq : st.bfs_q with
    | nil =>
      refine ⟨Or.inl (by simp only [bfsWhile, hq]), ?_⟩
      intro extra
      rw [hstep]
      simp only [bfsWhile, hq]
    | cons n q =>
      by_cases hlt : st.current_block_size < bfs_size
      · have hv := bfsVisitEdges_measure bfs_size G n (G.edges_of n) { st with bfs_q := q } hlt
        have hm2 : (bfsVisitEdges bfs_size G n (G.edges_of n) { st with bfs_q := q }).bfs_q.length
            + (bfs_size - (bfsVisitEdges bfs_size G n (G.edges_of n)
                { st with bfs_q := q }).current_block_size) ≤ fuel := by
          rw [hv.2]
          rw [hq] at hm
          simp only [List.length_cons] at hm
          simp only
          omega
        obtain ⟨h1, h2⟩ := ih _ hv.1 hm2
        refine ⟨?_, ?_⟩
        · simp only [bfsWhile, hq, hlt, if_true]
          exact h1
        · intro extra
          rw [hstep]
          simp only [bfsWhile, hq, hlt, if_true]
          exact h2 extra
      · have hres : bfsWhile bfs_size G (fuel + 1) st = st := by
          simp only [bfsWhile, hq, hlt, if_false]
        refine ⟨Or.inr (by rw [hres]; exact hlt), ?_⟩
        intro extra
        rw [hstep]
        simp only [bfsWhile, hq, hlt, if_false]

/-- The search from a terminal runs its `while` loop to the end: afterwards the
queue is empty or the block has `bfs_size` vertices, and the fuel was enough. -/
theorem bfsFrom_exit (bfs_size : Nat) (hb : 1 ≤ bfs_size) (G : mutable_graph)
    (already_in_block : List Bool) (t : Nat) :
    ((bfsFrom bfs_size G already_in_block t).bfs_q = [] ∨
      ¬ (bfsFrom bfs_size G already_in_block t).current_block_size < bfs_size) ∧
    ∀ extra,
      bfsWhile bfs_size G (bfs_size + extra)
          { already_in_block := already_in_block, bfs_q := [t], block := [t],
            current_block_size := 1, reached := [t] }
        = bfsFrom bfs_size G already_in_block t := by
  unfold bfsFrom
  apply bfsWhile_exit
  · exact hb
  · simp only [List.length_cons, List.length_nil]
    omega

/-! ## The component labelling -/

theorem labelOf_map (f : Nat → Nat) (label : List Nat) (x : Nat) (hx : x < label.length) :
    labelOf (label.map f) x = f (labelOf label x) := by
  unfold labelOf
  rw [List.getD_eq_getElem?_getD, List.getD_eq_getElem?_getD, List.getElem?_map,
    List.getElem?_eq_getElem hx]
  rfl

theorem mergeLabels_length (label : List Nat) (v u : Nat) :
    (mergeLabels label v u).length = label.length := by
  simp [mergeLabels]

theorem mergeLabels_keeps (label : List Nat) (v u x y : Nat) (hx : x < label.length)
    (hy : y < label.length) (h : labelOf label x = labelOf label y) :
    labelOf (mergeLabels label v u) x = labelOf (mergeLabels label v u) y := by
  unfold mergeLabels
  rw [labelOf_map _ _ _ hx, labelOf_map _ _ _ hy, h]

theorem mergeLabels_joins (label : List Nat) (v u : Nat) (hv : v < label.length)
    (hu : u < label.length) :
    labelOf (mergeLabels label v u) v = labelOf (mergeLabels label v u) u := by
  unfold mergeLabels
  rw [labelOf_map _ _ _ hv, labelOf_map _ _ _ hu]
  simp only [if_true]
  split <;> rfl

theorem mergeFold_spec (n : Nat) (edges : List (Nat × Nat)) :
    ∀ (label : List Nat), label.length = n →
      (∀ e, e ∈ edges → e.1 < n ∧ e.2 < n) →
      (edges.foldl (fun lab e => mergeLabels lab e.1 e.2) label).length = n ∧
      (∀ x y, x < n → y < n → labelOf label x = labelOf label y →
        labelOf (edges.foldl (fun lab e => mergeLabels lab e.1 e.2) label) x
          = labelOf (edges.foldl (fun lab e => mergeLabels lab e.1 e.2) label) y) ∧
      (∀ e, e ∈ edges →
        labelOf (edges.foldl (fun lab e => mergeLabels lab e.1 e.2) label) e.1
          = labelOf (edges.foldl (fun lab e => mergeLabels lab e.1 e.2) label) e.2) := by
  induction edges with
  | nil =>
    intro label hl _
    exact ⟨hl, fun _ _ _ _ h => h, fun e he => by simp at he⟩
  | cons e es ih =>
    intro label hl hr
    rw [List.foldl_cons]
    have hl2 : (mergeLabels label e.1 e.2).length = n := by rw [mergeLabels_length, hl]
    obtain ⟨h1, h2, h3⟩ := ih (mergeLabels label e.1 e.2) hl2
      (fun e2 he2 => hr e2 (List.mem_cons_of_mem _ he2))
    have hre := hr e (List.mem_cons_self _ _)
    refine ⟨h1, ?_, ?_⟩
    · intro x y hx hy hxy
      exact h2 x y hx hy (mergeLabels_keeps label e.1 e.2 x y (by omega) (by omega) hxy)
    · intro e2 he2
      rcases List.mem_cons.mp he2 with h | h
      · subst h
        exact h2 _ _ hre.1 hre.2 (mergeLabels_joins label _ _ (by omega) (by omega))
      · exact h3 e2 h

theorem strong_components_spec_length (G : mutable_graph) :
    (strong_components_spec G).1.length = G.n ∧
    (mergeAll G (List.range G.n)).length = G.n := by
  have h : ∀ (edges : List (Nat × Nat)) (label : List Nat),
      (edges.foldl (fun lab e => mergeLabels lab e.1 e.2) label).length = label.length := by
    intro edges
    induction edges with
    | nil => intro label; rfl
    | cons e es ih =>
      intro label
      rw [List.foldl_cons, ih, mergeLabels_length]
  have h2 : (mergeAll G (List.range G.n)).length = G.n := by
    unfold mergeAll
    rw [h, List.length_range]
  exact ⟨by simp [strong_components_spec, h2], h2⟩

/-- Every vertex gets a label below the number of components. -/
theorem strong_components_spec_lt (G : mutable_graph) (v : Nat) (hv : v < G.n) :
    (strong_components_spec G).1.getD v 0 < (strong_components_spec G).2 := by
  have hlen := (strong_components_spec_length G).2
  simp only [strong_components_spec]
  rw [List.getD_eq_getElem?_getD, List.getElem?_map, List.getElem?_eq_getElem (by omega)]
  simp only [Option.map_some', Option.getD_some]
  rw [List.indexOf_lt_length, List.mem_dedup]
  exact List.getElem_mem _

/-- No half-edge joins two components. -/
theorem strong_components_spec_closed (G : mutable_graph)
    (hwf : ∀ v, v < G.n → ∀ he, he ∈ G.halfEdges v → he.target < G.n)
    (v : Nat) (hv : v < G.n) (he : HalfEdge) (hhe : he ∈ G.halfEdges v) :
    (strong_components_spec G).1.getD he.target 0 = (strong_components_spec G).1.getD v 0 := by
  have hlen := (strong_components_spec_length G).2
  have hedges : ∀ e, e ∈ allEdges G → e.1 < G.n ∧ e.2 < G.n := by
    intro e hmem
    unfold allEdges at hmem
    rw [List.mem_flatMap] at hmem
    obtain ⟨u, hu, hmem2⟩ := hmem
    rw [List.mem_map] at hmem2
    obtain ⟨he2, hhe2, rfl⟩ := hmem2
    have hun : u < G.n := by simpa [mutable_graph.nodes] using hu
    exact ⟨hun, hwf u hun he2 hhe2⟩
  obtain ⟨-, -, h3⟩ := mergeFold_spec G.n (allEdges G) (List.range G.n) (List.length_range _)
    hedges
  have hmem : (v, he.target) ∈ allEdges G := by
    unfold allEdges
    rw [List.mem_flatMap]
    exact ⟨v, by simpa [mutable_graph.nodes] using hv, List.mem_map.mpr ⟨he, hhe, rfl⟩⟩
  have heq := h3 _ hmem
  simp only at heq
  have ht := hwf v hv he hhe
  have hraw : ∀ x, x < G.n →
      (strong_components_spec G).1.getD x 0
        = (mergeAll G (List.range G.n)).dedup.indexOf (labelOf (mergeAll G (List.range G.n)) x) := by
    intro x hx
    simp only [strong_components_spec]
    exact labelOf_map _ _ x (by omega)
  rw [hraw _ ht, hraw _ hv]
  unfold mergeAll
  rw [heq]
/-! ## Ranks in a filtered range -/

theorem map_getD_range {α : Type} (l : List α) (d : α) :
    (List.range l.length).map (fun a => l.getD a d) = l := by
  apply List.ext_getElem (by simp)
  intro k h1 h2
  simp [List.getD_eq_getElem?_getD, List.getElem?_eq_getElem h2]
/-! ## The extracted components -/

theorem getD_mem {α : Type} (l : List α) (i : Nat) (d : α) (h : i < l.length) :
    l.getD i d ∈ l := by
  rw [List.getD_eq_getElem?_getD, List.getElem?_eq_getElem h]
  exact List.getElem_mem _

/-- Scenario: a clique on four vertices with unit weights and two of its vertices
as terminals has cut 3. -/
theorem multicut_clique : multicut (specEnv 0 64) twoCliques [0, 1] = 3 := by
  decide

/-- Scenario: two disjoint cliques with one terminal each have cut 0. -/
theorem multicut_two_cliques : multicut (specEnv 0 64) twoCliques [0, 4] = 0 := by
  decide

/-- Scenario: all four vertices of a clique as terminals cut every edge of it. -/
theorem multicut_all_terminals : multicut (specEnv 0 64) twoCliques [0, 1, 2, 3] = 6 := by
  decide

/-! ## `mapped`, the default ordering and the disabled block search -/

/-- C15: `mapped` composes the mapping chain from left to right: with an empty
chain `mapped(n) = n`; a chain that starts with the map `m` sends `n` to what the
rest of the chain makes of `m[n]` (for a valid index `n` of `m`); and over the
concatenation of two chains `mapped` is `mapped` over the second chain applied to
`mapped` over the first. -/
theorem mapped_composes (p : multicut_problem) (n : Nat) :
    ({ p with mappings := [] } : multicut_problem).mapped n = n ∧
    (∀ (m : List Nat) (rest : List (List Nat)) (h : n < m.length),
      ({ p with mappings := m :: rest } : multicut_problem).mapped n
        = ({ p with mappings := rest } : multicut_problem).mapped (m.get ⟨n, h⟩)) ∧
    (∀ (a b : List (List Nat)),
      ({ p with mappings := a ++ b } : multicut_problem).mapped n
        = ({ p with mappings := b } : multicut_problem).mapped
            (({ p with mappings := a } : multicut_problem).mapped n)) := by
  refine ⟨rfl, ?_, ?_⟩
  · intro m rest h
    simp only [multicut_problem.mapped, List.foldl_cons]
    rw [List.getD_eq_getElem?_getD, List.getElem?_eq_getElem h]
    rfl
  · intro a b
    simp only [multicut_problem.mapped, List.foldl_append]

theorem mapped_composes_witness :
    (2 < [5, 6, 7].length) ∧
    ({ (default : multicut_problem) with mappings := [5, 6, 7] :: [[0, 0, 0, 0, 0, 0, 0, 9]] } :
        multicut_problem).mapped 2
      = ({ (default : multicut_problem) with mappings := [[0, 0, 0, 0, 0, 0, 0, 9]] } :
          multicut_problem).mapped ([5, 6, 7].get ⟨2, by decide⟩) :=
  ⟨by decide, (mapped_composes default 2).2.1 [5, 6, 7] [[0, 0, 0, 0, 0, 0, 0, 9]] (by decide)⟩

/-- C19: when `bfs_size` is 0, `addSurroundingAreaToTerminals` returns the
subproblem as it was, graph and record unchanged, whatever
`contractIsolatingBlocks` would do: no contraction is performed. -/
theorem addSurroundingAreaToTerminals_disabled (env : Collaborators) (mcp : multicut_problem)
    (terminals : List Nat) (h0 : env.bfs_size = 0) :
    addSurroundingAreaToTerminals env mcp terminals = mcp ∧
    ∀ (contract : multicut_problem → List (List Nat) → multicut_problem),
      addSurroundingAreaToTerminals { env with contractIsolatingBlocks := contract } mcp terminals
        = mcp := by
  constructor
  · unfold addSurroundingAreaToTerminals
    rw [if_neg (by simp [h0])]
  · intro contract
    unfold addSurroundingAreaToTerminals
    rw [if_neg (by simp [h0])]

theorem addSurroundingAreaToTerminals_disabled_witness :
    (specEnv 0 64).bfs_size = 0 ∧
    addSurroundingAreaToTerminals (specEnv 0 64) pathProblem [0, 2] = pathProblem :=
  ⟨rfl, (addSurroundingAreaToTerminals_disabled (specEnv 0 64) pathProblem [0, 2] rfl).1⟩

namespace per_thread_problem_queue

/-- The constructor installs `lower_bound` for the name `"lower_bound"`. -/
theorem comparatorFor_lower_bound (w : Nat) : comparatorFor w "lower_bound" = lower_bound := by
  unfold comparatorFor
  simp

/-- The constructor installs `lower_bound` for every name it does not know. -/
theorem comparatorFor_unknown (w : Nat) (pq_type : String)
    (h1 : pq_type ≠ "small_graph") (h2 : pq_type ≠ "bound_sum")
    (h3 : pq_type ≠ "few_terminals") (h4 : pq_type ≠ "upper_bound")
    (h5 : pq_type ≠ "bigger_distance")
    (h6 : pq_type ≠ "lower_distance") (h7 : pq_type ≠ "most_deleted") :
    comparatorFor w pq_type = lower_bound := by
  unfold comparatorFor
  simp only [if_neg h1, if_neg h2, if_neg h3, if_neg h4, if_neg h5, if_neg h6, if_neg h7,
    ite_self]

/-- C14: for a `pq_type` that is none of the ordering names (none of the seven
other than `"lower_bound"` is what matters), the constructor builds the same
scheduler as for `"lower_bound"`, every heap with the comparator `lower_bound`; so
on the same sequence of pushes and pops both schedulers go through the same states
and return the same subproblems. -/
theorem unknown_ordering_is_lower_bound (w threads : Nat) (pq_type : String)
    (h1 : pq_type ≠ "small_graph") (h2 : pq_type ≠ "bound_sum")
    (h3 : pq_type ≠ "few_terminals") (h4 : pq_type ≠ "upper_bound")
    (h6 : pq_type ≠ "bigger_distance")
    (h7 : pq_type ≠ "lower_distance") (h8 : pq_type ≠ "most_deleted") :
    new w threads pq_type = new w threads "lower_bound" ∧
    (∀ q, q ∈ (new w threads pq_type).pq → q.comp = lower_bound) ∧
    ∀ ops : List Op,
      (Trace.fresh w threads pq_type).run ops = (Trace.fresh w threads "lower_bound").run ops ∧
      ((Trace.fresh w threads pq_type).run ops).popped
        = ((Trace.fresh w threads "lower_bound").run ops).popped := by
  have hnew : new w threads pq_type = new w threads "lower_bound" := by
    rw [new_eq, new_eq, comparatorFor_unknown w pq_type h1 h2 h3 h4 h6 h7 h8,
      comparatorFor_lower_bound]
  have hfresh : Trace.fresh w threads pq_type = Trace.fresh w threads "lower_bound" := by
    unfold Trace.fresh
    rw [hnew]
  refine ⟨hnew, ?_, ?_⟩
  · intro q hq
    rw [new_eq] at hq
    have := List.eq_of_mem_replicate hq
    rw [this]
    exact comparatorFor_unknown w pq_type h1 h2 h3 h4 h6 h7 h8
  · intro ops
    rw [hfresh]
    exact ⟨rfl, rfl⟩

theorem unknown_ordering_is_lower_bound_witness :
    ("fifo" ≠ "small_graph" ∧ "fifo" ≠ "bound_sum" ∧ "fifo" ≠ "few_terminals" ∧
      "fifo" ≠ "upper_bound" ∧ "fifo" ≠ "lower_bound" ∧ "fifo" ≠ "bigger_distance" ∧
      "fifo" ≠ "lower_distance" ∧ "fifo" ≠ "most_deleted") ∧
    new 64 2 "fifo" = new 64 2 "lower_bound" :=
  ⟨by decide,
    (unknown_ordering_is_lower_bound 64 2 "fifo" (by decide) (by decide) (by decide)
      (by decide) (by decide) (by decide) (by decide)).1⟩

end per_thread_problem_queue

/-! ## The orderings are strict weak orderings -/

/-- Comparing a key with `<` in a linear order is a strict weak ordering. -/
theorem strictWeakOrdering_of_key {α β : Type} [LinearOrder β] (key : α → β) :
    StrictWeakOrdering (fun a b => decide (key a < key b)) := by
  refine ⟨?_, ?_, ?_⟩
  · intro a
    simp
  · intro a b c h1 h2
    simp only [decide_eq_true_eq] at h1 h2 ⊢
    exact lt_trans h1 h2
  · intro a b c h1 h2 h3 h4
    simp only [decide_eq_false_iff_not, not_lt] at h1 h2 h3 h4 ⊢
    exact ⟨le_trans h3 h1, le_trans h2 h4⟩

/-- Ordering by a key from the larger to the smaller, and by a strict weak ordering
among equal keys, is a strict weak ordering. -/
theorem strictWeakOrdering_lex {α β : Type} [LinearOrder β] (key : α → β)
    (c2 : α → α → Bool) (h : StrictWeakOrdering c2) :
    StrictWeakOrdering (fun a b => if key a = key b then c2 a b else decide (key a > key b)) := by
  obtain ⟨hirr, htrans, hinc⟩ := h
  have hincomp : ∀ a b,
      (if key a = key b then c2 a b else decide (key a > key b)) = false →
      (if key b = key a then c2 b a else decide (key b > key a)) = false →
      key a = key b ∧ c2 a b = false ∧ c2 b a = false := by
    intro a b h1 h2
    by_cases hk : key a = key b
    · rw [if_pos hk] at h1
      rw [if_pos hk.symm] at h2
      exact ⟨hk, h1, h2⟩
    · rw [if_neg hk] at h1
      rw [if_neg (Ne.symm hk)] at h2
      simp only [gt_iff_lt, decide_eq_false_iff_not, not_lt] at h1 h2
      exact absurd (le_antisymm h1 h2) hk
  refine ⟨?_, ?_, ?_⟩
  · intro a
    simp only [if_true]
    exact hirr a
  · intro a b c h1 h2
    simp only at h1 h2 ⊢
    by_cases hab : key a = key b
    · by_cases hbc : key b = key c
      · rw [if_pos hab] at h1
        rw [if_pos hbc] at h2
        rw [if_pos (hab.trans hbc)]
        exact htrans a b c h1 h2
      · rw [if_neg hbc] at h2
        rw [hab, if_neg hbc]
        exact h2
    · rw [if_neg hab] at h1
      simp only [gt_iff_lt, decide_eq_true_eq] at h1
      by_cases hbc : key b = key c
      · rw [← hbc, if_neg hab]
        simpa using h1
      · rw [if_neg hbc] at h2
        simp only [gt_iff_lt, decide_eq_true_eq] at h2
        have hlt : key c < key a := lt_trans h2 h1
        rw [if_neg (ne_of_gt hlt)]
        simpa using hlt
  · intro a b c h1 h2 h3 h4
    obtain ⟨k1, e1, e2⟩ := hincomp a b h1 h2
    obtain ⟨k2, e3, e4⟩ := hincomp b c h3 h4
    obtain ⟨r1, r2⟩ := hinc a b c e1 e2 e3 e4
    simp only
    rw [if_pos (k1.trans k2), if_pos (k1.trans k2).symm]
    exact ⟨r1, r2⟩

namespace per_thread_problem_queue

theorem lower_bound_swo : StrictWeakOrdering lower_bound :=
  strictWeakOrdering_lex (fun p : multicut_problem => p.lower_bound)
    (fun p1 p2 => decide (p1.upper_bound > p2.upper_bound))
    (strictWeakOrdering_of_key (β := Intᵒᵈ)
      (fun p : multicut_problem => OrderDual.toDual p.upper_bound))

theorem upper_bound_swo : StrictWeakOrdering upper_bound :=
  strictWeakOrdering_lex (fun p : multicut_problem => p.upper_bound)
    (fun p1 p2 => decide (p1.lower_bound > p2.lower_bound))
    (strictWeakOrdering_of_key (β := Intᵒᵈ)
      (fun p : multicut_problem => OrderDual.toDual p.lower_bound))

theorem few_terminals_swo : StrictWeakOrdering few_terminals :=
  strictWeakOrdering_lex (fun p : multicut_problem => p.terminals.length) lower_bound
    lower_bound_swo

/-- C13: each of the eight comparators is a strict weak ordering on subproblem
records (the three that add or subtract bounds compare the results as `FlowType`
values of any width `w`). -/
theorem comparators_strict_weak (w : Nat) :
    StrictWeakOrdering small_graph ∧ StrictWeakOrdering (bound_sum w) ∧
    StrictWeakOrdering lower_bound ∧ StrictWeakOrdering upper_bound ∧
    StrictWeakOrdering few_terminals ∧ StrictWeakOrdering (bigger_distance w) ∧
    StrictWeakOrdering (lower_distance w) ∧ StrictWeakOrdering most_deleted := by
  refine ⟨?_, ?_, lower_bound_swo, upper_bound_swo, few_terminals_swo, ?_, ?_, ?_⟩
  · exact strictWeakOrdering_of_key (β := Natᵒᵈ)
      (fun p : multicut_problem => OrderDual.toDual p.graph.n)
  · exact strictWeakOrdering_of_key (β := Intᵒᵈ)
      (fun p : multicut_problem => OrderDual.toDual
        (wrapFlow w (p.upper_bound + p.lower_bound)))
  · exact strictWeakOrdering_of_key
      (fun p : multicut_problem => wrapFlow w (p.upper_bound - p.lower_bound))
  · exact strictWeakOrdering_of_key (β := Intᵒᵈ)
      (fun p : multicut_problem => OrderDual.toDual
        (wrapFlow w (p.upper_bound - p.lower_bound)))
  · exact strictWeakOrdering_of_key (fun p : multicut_problem => p.deleted_weight)

end per_thread_problem_queue

/-! ## What `top()` returns under an ordering -/

theorem min_element_scan_minimal {α : Type} (lt : α → α → Bool)
    (hirr : ∀ a, lt a a = false)
    (htrans : ∀ a b c, lt a b = true → lt b c = true → lt a c = true)
    (d : α) (full : List α) :
    ∀ (xs : List α) (si : Nat) (sv : α) (i : Nat),
      full.drop i = xs → si < full.length → full.getD si d = sv →
      (∀ j, j < i → lt (full.getD j d) sv = false) →
      ∀ j, j < full.length →
        lt (full.getD j d) (full.getD (min_element_scan lt si sv i xs) d) = false := by
  intro xs
  induction xs with
  | nil =>
    intro si sv i hdrop hsi hsv hmin j hj
    have hlen : full.length ≤ i := List.drop_eq_nil_iff.mp hdrop
    simp only [min_element_scan]
    rw [hsv]
    exact hmin j (by omega)
  | cons x xs ih =>
    intro si sv i hdrop hsi hsv hmin
    have hi : i < full.length := by
      by_contra hcon
      have : full.drop i = [] := List.drop_eq_nil_iff.mpr (by omega)
      rw [this] at hdrop
      cases hdrop
    have hx : full.getD i d = x := by
      have h1 : (full.drop i)[0]? = some x := by rw [hdrop]; simp
      rw [List.getElem?_drop] at h1
      simp only [Nat.add_zero] at h1
      rw [List.getD_eq_getElem?_getD, h1]
      rfl
    have hdrop2 : full.drop (i + 1) = xs := by
      have := congrArg (List.drop 1) hdrop
      simpa [List.drop_drop, Nat.add_comm] using this
    simp only [min_element_scan]
    by_cases hc : lt x sv = true
    · rw [if_pos hc]
      apply ih i x (i + 1) hdrop2 hi hx
      intro j hj
      rcases Nat.lt_succ_iff_lt_or_eq.mp hj with h | h
      · by_contra hcon
        have h2 : lt (full.getD j d) x = true := by simpa using hcon
        have h3 := htrans _ _ _ h2 hc
        rw [hmin j h] at h3
        cases h3
      · subst h
        rw [hx]
        exact hirr x
    · rw [if_neg hc]
      apply ih si sv (i + 1) hdrop2 hsi hsv
      intro j hj
      rcases Nat.lt_succ_iff_lt_or_eq.mp hj with h | h
      · exact hmin j h
      · subst h
        rw [hx]
        simpa using hc

/-- Under an irreflexive and transitive comparison no element of a non-empty list
is smaller than the one `std::min_element` returns. -/
theorem min_element_minimal {α : Type} (lt : α → α → Bool)
    (hirr : ∀ a, lt a a = false)
    (htrans : ∀ a b c, lt a b = true → lt b c = true → lt a c = true)
    (d : α) (l : List α) (j : Nat) (hj : j < l.length) :
    lt (l.getD j d) (l.getD (min_element lt l) d) = false := by
  cases l with
  | nil => simp at hj
  | cons x xs =>
    simp only [min_element]
    apply min_element_scan_minimal lt hirr htrans d (x :: xs) xs 0 x 1 (by simp) (by simp)
      (by simp)
    · intro k hk
      have : k = 0 := by omega
      subst this
      simpa using hirr x
    · exact hj

namespace per_thread_problem_queue

/-- Under a strict weak ordering `top()` is below no element of the heap. -/
theorem top_not_below (q : priority_queue) (hswo : StrictWeakOrdering q.comp)
    (x : multicut_problem) (hx : x ∈ q.c) : q.comp q.top x = false := by
  obtain ⟨hirr, htrans, -⟩ := hswo
  obtain ⟨j, hj, hget⟩ := List.getElem_of_mem hx
  have h := min_element_minimal (fun a b => q.comp b a) (fun a => hirr a)
    (fun a b c h1 h2 => htrans c b a h2 h1) default q.c j hj
  have hjd : q.c.getD j default = x := by
    rw [List.getD_eq_getElem?_getD, List.getElem?_eq_getElem hj, hget]
    rfl
  rw [hjd] at h
  exact h

theorem mem_set_comp (pq : List priority_queue) (j : Nat) (qnew : priority_queue)
    (cmp : multicut_problem → multicut_problem → Bool)
    (h : ∀ q, q ∈ pq → q.comp = cmp) (hnew : qnew.comp = cmp) :
    ∀ q, q ∈ pq.set j qnew → q.comp = cmp := by
  intro q hq
  rcases List.mem_or_eq_of_mem_set hq with h1 | h1
  · exact h q h1
  · rw [h1]
    exact hnew

theorem getD_comp (pq : List priority_queue) (j : Nat)
    (cmp : multicut_problem → multicut_problem → Bool)
    (h : ∀ q, q ∈ pq → q.comp = cmp) (hj : j < pq.length) :
    (pq.getD j default).comp = cmp := by
  apply h
  rw [List.getD_eq_getElem?_getD, List.getElem?_eq_getElem hj]
  exact List.getElem_mem _

/-- No call changes the sizes of the vectors or the comparator of a heap. -/
theorem step_keeps_comparators (s : per_thread_problem_queue) (op : Op)
    (cmp : multicut_problem → multicut_problem → Bool)
    (hc : s.Consistent) (h : ∀ q, q ∈ s.pq → q.comp = cmp) :
    (s.step op).Consistent ∧ (s.step op).num_threads = s.num_threads ∧
    ∀ q, q ∈ (s.step op).pq → q.comp = cmp := by
  cases op with
  | push p local_id =>
    refine ⟨(addProblem_consistent s p local_id hc).1,
      (addProblem_consistent s p local_id hc).2, ?_⟩
    show ∀ q, q ∈ (s.addProblem p local_id).2.pq → q.comp = cmp
    rw [addProblem_snd]
    simp only
    by_cases hj : (s.addProblem p local_id).1 < s.pq.length
    · exact mem_set_comp _ _ _ cmp h (getD_comp s.pq _ cmp h hj)
    · rw [List.set_eq_of_length_le (by omega)]
      exact h
  | pull local_id =>
    refine ⟨(pullProblem_consistent s local_id hc).1,
      (pullProblem_consistent s local_id hc).2, ?_⟩
    show ∀ q, q ∈ (s.pullProblem local_id).2.pq → q.comp = cmp
    rw [pullProblem_snd]
    simp only
    by_cases hj : local_id < s.pq.length
    · exact mem_set_comp _ _ _ cmp h (getD_comp s.pq _ cmp h hj)
    · rw [List.set_eq_of_length_le (by omega)]
      exact h

theorem run_keeps_comparators (threads : Nat)
    (cmp : multicut_problem → multicut_problem → Bool) (ops : List Op) :
    ∀ (t : Trace), t.state.Consistent → t.state.num_threads = threads →
      (∀ q, q ∈ t.state.pq → q.comp = cmp) →
      (t.run ops).state.Consistent ∧ (t.run ops).state.num_threads = threads ∧
      ∀ q, q ∈ (t.run ops).state.pq → q.comp = cmp := by
  induction ops with
  | nil => intro t h1 h2 h3; exact ⟨h1, h2, h3⟩
  | cons op ops ih =>
    intro t h1 h2 h3
    have hs := step_keeps_comparators t.state op cmp h1 h3
    have hstate : (t.step op).state = t.state.step op := by
      cases op <;> rfl
    apply ih (t.step op)
    · rw [hstate]; exact hs.1
    · rw [hstate, hs.2.1]; exact h2
    · rw [hstate]; exact hs.2.2

/-- Every state a freshly constructed scheduler goes through keeps one heap per
worker, each with the comparator the constructor installed. -/
theorem fresh_run_comparators (w threads : Nat) (pq_type : String) (ops : List Op) :
    ((Trace.fresh w threads pq_type).run ops).state.Consistent ∧
    ((Trace.fresh w threads pq_type).run ops).state.num_threads = threads ∧
    ∀ q, q ∈ ((Trace.fresh w threads pq_type).run ops).state.pq →
      q.comp = comparatorFor w pq_type := by
  have hinv := fresh_invariant w threads pq_type
  apply run_keeps_comparators threads _ ops _ hinv.1 hinv.2.1
  intro q hq
  have hpq : (Trace.fresh w threads pq_type).state.pq
      = List.replicate threads { comp := comparatorFor w pq_type, c := [] } := by
    show (new w threads pq_type).pq = _
    rw [new_eq]
  rw [hpq] at hq
  rw [List.eq_of_mem_replicate hq]

/-- C11: in every state of a scheduler constructed with the ordering
`"lower_bound"` and for every worker whose heap is not empty, `pullProblem` returns
a subproblem of that heap whose `lower_bound` is the smallest in the heap and whose
`upper_bound` is the smallest among the subproblems of the heap with that
`lower_bound`. -/
theorem pullProblem_lower_bound_first (w threads : Nat) (ops : List Op) (local_id : Nat)
    (hid : local_id < threads)
    (hne : ((Trace.fresh w threads "lower_bound").run ops).state.heap local_id ≠ []) :
    (((Trace.fresh w threads "lower_bound").run ops).state.pullProblem local_id).1
      ∈ ((Trace.fresh w threads "lower_bound").run ops).state.heap local_id ∧
    ∀ q, q ∈ ((Trace.fresh w threads "lower_bound").run ops).state.heap local_id →
      (((Trace.fresh w threads "lower_bound").run ops).state.pullProblem local_id).1.lower_bound
        ≤ q.lower_bound ∧
      (q.lower_bound
          = (((Trace.fresh w threads "lower_bound").run ops).state.pullProblem
              local_id).1.lower_bound →
        (((Trace.fresh w threads "lower_bound").run ops).state.pullProblem
            local_id).1.upper_bound ≤ q.upper_bound) := by
  obtain ⟨hc, hn, hcmp⟩ := fresh_run_comparators w threads "lower_bound" ops
  generalize ((Trace.fresh w threads "lower_bound").run ops).state = s at hc hn hcmp hne ⊢
  have hj : local_id < s.pq.length := by rw [hc.2, hn]; exact hid
  have hcomp : (s.pq.getD local_id default).comp = lower_bound := by
    rw [getD_comp s.pq local_id _ hcmp hj, comparatorFor_lower_bound]
  refine ⟨List.getElem?_mem (pullProblem_fst_getElem s local_id hne), ?_⟩
  intro q hq
  have hswo : StrictWeakOrdering (s.pq.getD local_id default).comp := by
    rw [hcomp]
    exact lower_bound_swo
  have h := top_not_below (s.pq.getD local_id default) hswo q hq
  rw [hcomp] at h
  rw [pullProblem_fst]
  unfold lower_bound at h
  split_ifs at h with heq
  · simp only [gt_iff_lt, decide_eq_false_iff_not, not_lt] at h
    exact ⟨le_of_eq heq, fun _ => h⟩
  · simp only [gt_iff_lt, decide_eq_false_iff_not, not_lt] at h
    exact ⟨h, fun h2 => absurd h2.symm heq⟩

theorem pullProblem_lower_bound_first_witness :
    0 < 1 ∧
    ((Trace.fresh 64 1 "lower_bound").run
        [Op.push rootProblem 0, Op.push tightProblem 0]).state.heap 0 ≠ [] ∧
    (((Trace.fresh 64 1 "lower_bound").run
        [Op.push rootProblem 0, Op.push tightProblem 0]).state.pullProblem 0).1
      ∈ ((Trace.fresh 64 1 "lower_bound").run
        [Op.push rootProblem 0, Op.push tightProblem 0]).state.heap 0 :=
  ⟨by decide, by decide,
    (pullProblem_lower_bound_first 64 1 [Op.push rootProblem 0, Op.push tightProblem 0] 0
      (by decide) (by decide)).1⟩

/-- C12 at its failing input: a scheduler with the ordering `"bigger_distance"` and
64-bit `FlowType` holds a root subproblem with the constructor's bounds `-1` and
`2 ^ 63 - 1` and a subproblem with the bounds 0 and 5; `pullProblem` returns the
second one, whose difference 5 is smaller than the difference `2 ^ 63` of the first,
because that difference is no `FlowType` value and wraps to `-2 ^ 63`. -/
theorem pullProblem_bigger_distance_overflow :
    (((Trace.fresh 64 1 "bigger_distance").run
        [Op.push rootProblem 0, Op.push tightProblem 0]).state.pullProblem 0).1
      = tightProblem ∧
    rootProblem ∈ ((Trace.fresh 64 1 "bigger_distance").run
        [Op.push rootProblem 0, Op.push tightProblem 0]).state.heap 0 ∧
    rootProblem.lower_bound = -1 ∧ rootProblem.upper_bound = flowMax 64 ∧
    tightProblem.upper_bound - tightProblem.lower_bound
      < rootProblem.upper_bound - rootProblem.lower_bound ∧
    wrapFlow 64 (rootProblem.upper_bound - rootProblem.lower_bound)
      = -9223372036854775808 := by
  decide

end per_thread_problem_queue

/-! ## The blocks of `addSurroundingAreaToTerminals` -/

/-- The second loop over the terminals, started from any flags. -/
theorem searchFold_append (bfs_size : Nat) (G : mutable_graph)
    (acc : List Bool × List BfsState) (ts : List Nat) (t : Nat) :
    (ts ++ [t]).foldl
        (fun (acc : List Bool × List BfsState) t =>
          ((bfsFrom bfs_size G acc.1 t).already_in_block,
            acc.2 ++ [bfsFrom bfs_size G acc.1 t])) acc
      = ((bfsFrom bfs_size G (ts.foldl
            (fun (acc : List Bool × List BfsState) t =>
              ((bfsFrom bfs_size G acc.1 t).already_in_block,
                acc.2 ++ [bfsFrom bfs_size G acc.1 t])) acc).1 t).already_in_block,
          (ts.foldl
            (fun (acc : List Bool × List BfsState) t =>
              ((bfsFrom bfs_size G acc.1 t).already_in_block,
                acc.2 ++ [bfsFrom bfs_size G acc.1 t])) acc).2
            ++ [bfsFrom bfs_size G (ts.foldl
              (fun (acc : List Bool × List BfsState) t =>
                ((bfsFrom bfs_size G acc.1 t).already_in_block,
                  acc.2 ++ [bfsFrom bfs_size G acc.1 t])) acc).1 t]) := by
  rw [List.foldl_append]
  rfl

/-- Every property that each single search has holds for the recorded search of
each terminal, and there is one recorded search per terminal. -/
theorem searchFold_each (bfs_size : Nat) (G : mutable_graph)
    (P : Nat → BfsState → Prop)
    (hP : ∀ flags t, P t (bfsFrom bfs_size G flags t)) (f0 : List Bool) (ts : List Nat) :
    (ts.foldl
        (fun (acc : List Bool × List BfsState) t =>
          ((bfsFrom bfs_size G acc.1 t).already_in_block,
            acc.2 ++ [bfsFrom bfs_size G acc.1 t])) (f0, [])).2.length = ts.length ∧
    ∀ i, i < ts.length →
      P (ts.getD i 0) ((ts.foldl
        (fun (acc : List Bool × List BfsState) t =>
          ((bfsFrom bfs_size G acc.1 t).already_in_block,
            acc.2 ++ [bfsFrom bfs_size G acc.1 t])) (f0, [])).2.getD i default) := by
  induction ts using List.reverseRecOn with
  | nil => exact ⟨rfl, fun i hi => absurd hi (by simp)⟩
  | append_singleton ts t ih =>
    rw [searchFold_append]
    obtain ⟨hlen, hall⟩ := ih
    refine ⟨by simp [hlen], ?_⟩
    intro i hi
    simp only [List.length_append, List.length_cons, List.length_nil] at hi
    rcases Nat.lt_succ_iff_lt_or_eq.mp hi with h | h
    · have h1 := hall i h
      rw [List.getD_append _ _ _ _ h]
      rw [List.getD_append _ _ _ _ (by rw [hlen]; exact h)]
      exact h1
    · subst h
      rw [List.getD_append_right _ _ _ _ (le_refl _)]
      rw [List.getD_append_right _ _ _ _ (by rw [hlen])]
      simp only [hlen, Nat.sub_self, List.getD_cons_zero]
      exact hP _ _

theorem bfsVisitEdges_size (bfs_size : Nat) (G : mutable_graph) (n t : Nat)
    (es : List Nat) :
    ∀ (st : BfsState), st.current_block_size < bfs_size →
      st.block.head? = some t → st.block.length = st.current_block_size →
      (bfsVisitEdges bfs_size G n es st).block.head? = some t ∧
      (bfsVisitEdges bfs_size G n es st).block.length
        = (bfsVisitEdges bfs_size G n es st).current_block_size ∧
      st.current_block_size ≤ (bfsVisitEdges bfs_size G n es st).current_block_size ∧
      (bfsVisitEdges bfs_size G n es st).current_block_size ≤ bfs_size := by
  induction es with
  | nil =>
    intro st h hh hl
    simp only [bfsVisitEdges]
    exact ⟨hh, hl, le_refl _, by omega⟩
  | cons e es ih =>
    intro st h hh hl
    have hhead : (st.block ++ [G.getEdgeTarget n e]).head? = some t := by
      cases hb : st.block with
      | nil => rw [hb] at hh; cases hh
      | cons x xs => rw [hb] at hh; simpa using hh
    simp only [bfsVisitEdges]
    split
    · split
      · rename_i hge
        refine ⟨hhead, by simp [hl], by simp, ?_⟩
        simp only
        omega
      · rename_i hlt
        have h2 := ih
          { already_in_block := st.already_in_block.set (G.getEdgeTarget n e) true
            bfs_q := st.bfs_q ++ [G.getEdgeTarget n e]
            block := st.block ++ [G.getEdgeTarget n e]
            current_block_size := st.current_block_size + 1
            reached := st.reached ++ [G.getEdgeTarget n e] } (by simpa using hlt) hhead
            (by simp [hl])
        refine ⟨h2.1, h2.2.1, ?_, h2.2.2.2⟩
        have := h2.2.2.1
        simp only at this
        omega
    · exact ih { st with reached := st.reached ++ [G.getEdgeTarget n e] } h hh hl

theorem bfsWhile_size (bfs_size : Nat) (G : mutable_graph) (t : Nat) (fuel : Nat) :
    ∀ (st : BfsState), st.block.head? = some t →
      st.block.length = st.current_block_size → 1 ≤ st.current_block_size →
      st.current_block_size ≤ bfs_size →
      (bfsWhile bfs_size G fuel st).block.head? = some t ∧
      (bfsWhile bfs_size G fuel st).block.length
        = (bfsWhile bfs_size G fuel st).current_block_size ∧
      1 ≤ (bfsWhile bfs_size G fuel st).current_block_size ∧
      (bfsWhile bfs_size G fuel st).current_block_size ≤ bfs_size := by
  induction fuel with
  | zero =>
    intro st hh hl h1 hle
    exact ⟨hh, hl, h1, hle⟩
  | succ fuel ih =>
    intro st hh hl h1 hle
    cases hq : st.bfs_q with
    | nil =>
      simp only [bfsWhile, hq]
      exact ⟨hh, hl, h1, hle⟩
    | cons n q =>
      simp only [bfsWhile, hq]
      split
      · rename_i hlt
        have hv := bfsVisitEdges_size bfs_size G n t (G.edges_of n)
          { st with bfs_q := q } hlt hh hl
        exact ih _ hv.1 hv.2.1 (le_trans h1 hv.2.2.1) hv.2.2.2
      · exact ⟨hh, hl, h1, hle⟩

theorem bfsFrom_size (bfs_size : Nat) (G : mutable_graph) (flags : List Bool) (t : Nat)
    (hb : 1 ≤ bfs_size) :
    (bfsFrom bfs_size G flags t).block.head? = some t ∧
    1 ≤ (bfsFrom bfs_size G flags t).block.length ∧
    (bfsFrom bfs_size G flags t).block.length ≤ bfs_size := by
  have h := bfsWhile_size bfs_size G t bfs_size
    { already_in_block := flags, bfs_q := [t], block := [t],
      current_block_size := 1, reached := [t] } rfl rfl (le_refl _) hb
  refine ⟨h.1, ?_, ?_⟩
  · show 1 ≤ (bfsWhile bfs_size G bfs_size _).block.length
    rw [h.2.1]; exact h.2.2.1
  · show (bfsWhile bfs_size G bfs_size _).block.length ≤ bfs_size
    rw [h.2.1]; exact h.2.2.2

/-- C17: for every graph, every terminal list and every `bfs_size ≥ 1` the loops of
`addSurroundingAreaToTerminals` build one block per terminal; block `i` has
terminal `i` as its first element and holds at least 1 and at most `bfs_size`
vertices. -/
theorem blocks_start_at_terminal_and_bounded (bfs_size : Nat) (G : mutable_graph)
    (terminals : List Nat) (hb : 1 ≤ bfs_size) :
    (buildBlocks bfs_size G terminals).length = terminals.length ∧
    ∀ i, i < terminals.length →
      ((buildBlocks bfs_size G terminals).getD i []).head? = some (terminals.getD i 0) ∧
      1 ≤ ((buildBlocks bfs_size G terminals).getD i []).length ∧
      ((buildBlocks bfs_size G terminals).getD i []).length ≤ bfs_size := by
  have h := searchFold_each bfs_size G
    (fun t st => st.block.head? = some t ∧ 1 ≤ st.block.length ∧ st.block.length ≤ bfs_size)
    (fun flags t => bfsFrom_size bfs_size G flags t hb) (markTerminals G terminals) terminals
  have hlen : (searchAll bfs_size G terminals).2.length = terminals.length := h.1
  refine ⟨by simp only [buildBlocks, List.length_map]; exact hlen, ?_⟩
  intro i hi
  have hget : (buildBlocks bfs_size G terminals).getD i []
      = ((searchAll bfs_size G terminals).2.getD i default).block := by
    simp only [buildBlocks, List.getD_eq_getElem?_getD, List.getElem?_map]
    rw [List.getElem?_eq_getElem (by rw [hlen]; exact hi)]
    rfl
  rw [hget]
  exact h.2 i hi

theorem blocks_start_at_terminal_and_bounded_witness :
    (1 ≤ 2) ∧
    (buildBlocks 2 pathOneFive [0, 2]).length = [0, 2].length ∧
    ∀ i, i < [0, 2].length →
      ((buildBlocks 2 pathOneFive [0, 2]).getD i []).head? = some ([0, 2].getD i 0) ∧
      1 ≤ ((buildBlocks 2 pathOneFive [0, 2]).getD i []).length ∧
      ((buildBlocks 2 pathOneFive [0, 2]).getD i []).length ≤ 2 :=
  ⟨by decide, blocks_start_at_terminal_and_bounded 2 pathOneFive [0, 2] (by decide)⟩

theorem bfsVisitEdges_inv (bfs_size : Nat) (G : mutable_graph) (f0 : List Bool)
    (n t : Nat) (es : List Nat) :
    ∀ (st : BfsState), (∀ e, e ∈ es → G.getEdgeTarget n e < G.number_of_nodes) →
      SearchInv G.number_of_nodes f0 t st →
      SearchInv G.number_of_nodes f0 t (bfsVisitEdges bfs_size G n es st) := by
  induction es with
  | nil =>
    intro st _ h
    simpa only [bfsVisitEdges] using h
  | cons e es ih =>
    intro st hes h
    have htgt : G.getEdgeTarget n e < G.number_of_nodes := hes e (List.mem_cons_self _ _)
    have hes2 : ∀ e, e ∈ es → G.getEdgeTarget n e < G.number_of_nodes :=
      fun e2 h2 => hes e2 (List.mem_cons_of_mem _ h2)
    obtain ⟨hlen, ⟨tl, hblock, hnd, hf0, hflag⟩, hreach, hsub⟩ := h
    have hstep : st.already_in_block.getD (G.getEdgeTarget n e) false = false →
        SearchInv G.number_of_nodes f0 t
          { already_in_block := st.already_in_block.set (G.getEdgeTarget n e) true
            bfs_q := st.bfs_q ++ [G.getEdgeTarget n e]
            block := st.block ++ [G.getEdgeTarget n e]
            current_block_size := st.current_block_size + 1
            reached := st.reached ++ [G.getEdgeTarget n e] } := by
      intro hun
      have hset : ∀ v, (st.already_in_block.set (G.getEdgeTarget n e) true).getD v false
          = true ↔ v = G.getEdgeTarget n e ∨ st.already_in_block.getD v false = true := by
        intro v
        by_cases hv : G.getEdgeTarget n e = v
        · subst hv
          rw [getD_set_self _ _ _ _ (by rw [hlen]; exact htgt)]
          simp
        · rw [getD_set_other _ _ _ _ _ hv]
          constructor
          · intro h1; exact Or.inr h1
          · intro h1
            rcases h1 with h1 | h1
            · exact absurd h1.symm hv
            · exact h1
      have hnotin : G.getEdgeTarget n e ∉ tl := by
        intro hin
        have := (hflag _).mpr (Or.inr hin)
        rw [hun] at this
        cases this
      have hf0tgt : f0.getD (G.getEdgeTarget n e) false = false := by
        by_contra hcon
        have h1 : f0.getD (G.getEdgeTarget n e) false = true := by simpa using hcon
        have := (hflag _).mpr (Or.inl h1)
        rw [hun] at this
        cases this
      refine ⟨by simp only [List.length_set]; exact hlen,
        ⟨tl ++ [G.getEdgeTarget n e], by simp only [hblock, List.cons_append], ?_, ?_, ?_⟩,
        ?_, ?_⟩
      · rw [List.nodup_append]
        refine ⟨hnd, List.nodup_singleton _, ?_⟩
        intro a ha hb
        rw [List.mem_singleton] at hb
        subst hb
        exact hnotin ha
      · intro v hv
        rcases List.mem_append.mp hv with h1 | h1
        · exact hf0 v h1
        · rw [List.mem_singleton] at h1
          rw [h1]
          exact hf0tgt
      · intro v
        simp only
        rw [hset v, hflag v, List.mem_append, List.mem_singleton]
        tauto
      · intro v hv
        simp only at hv ⊢
        rw [hset v]
        rcases List.mem_append.mp hv with h1 | h1
        · rcases hreach v h1 with h2 | h2
          · exact Or.inl h2
          · exact Or.inr (Or.inr h2)
        · rw [List.mem_singleton] at h1
          exact Or.inr (Or.inl h1)
      · intro v hv
        simp only at hv ⊢
        rcases List.mem_append.mp hv with h1 | h1
        · exact List.mem_append_left _ (hsub v h1)
        · exact List.mem_append_right _ h1
    simp only [bfsVisitEdges]
    split
    · rename_i hun
      split
      · exact hstep hun
      · exact ih _ hes2 (hstep hun)
    · rename_i hfl
      apply ih _ hes2
      refine ⟨hlen, ⟨tl, hblock, hnd, hf0, hflag⟩, ?_, ?_⟩
      · intro v hv
        simp only at hv ⊢
        rcases List.mem_append.mp hv with h1 | h1
        · exact hreach v h1
        · rw [List.mem_singleton] at h1
          rw [h1]
          right
          simpa using hfl
      · intro v hv
        exact List.mem_append_left _ (hsub v hv)

theorem edges_of_targets (G : mutable_graph)
    (htgt : ∀ v h, h ∈ G.halfEdges v → h.target < G.number_of_nodes) (n : Nat) :
    ∀ e, e ∈ G.edges_of n → G.getEdgeTarget n e < G.number_of_nodes := by
  intro e he
  have hlt : e < (G.halfEdges n).length := by
    simpa [mutable_graph.edges_of, mutable_graph.get_first_invalid_edge] using he
  apply htgt n
  rw [List.getD_eq_getElem?_getD, List.getElem?_eq_getElem hlt]
  exact List.getElem_mem _

theorem bfsWhile_inv (bfs_size : Nat) (G : mutable_graph) (f0 : List Bool) (t : Nat)
    (htgt : ∀ v h, h ∈ G.halfEdges v → h.target < G.number_of_nodes) (fuel : Nat) :
    ∀ (st : BfsState), SearchInv G.number_of_nodes f0 t st →
      SearchInv G.number_of_nodes f0 t (bfsWhile bfs_size G fuel st) := by
  induction fuel with
  | zero => intro st h; exact h
  | succ fuel ih =>
    intro st h
    cases hq : st.bfs_q with
    | nil => simpa only [bfsWhile, hq] using h
    | cons n q =>
      simp only [bfsWhile, hq]
      split
      · apply ih
        apply bfsVisitEdges_inv bfs_size G f0 n t _ _ (edges_of_targets G htgt n)
        exact h
      · exact h

theorem bfsFrom_inv (bfs_size : Nat) (G : mutable_graph) (f0 : List Bool) (t : Nat)
    (htgt : ∀ v h, h ∈ G.halfEdges v → h.target < G.number_of_nodes)
    (hlen : f0.length = G.number_of_nodes) :
    SearchInv G.number_of_nodes f0 t (bfsFrom bfs_size G f0 t) := by
  apply bfsWhile_inv bfs_size G f0 t htgt
  refine ⟨hlen, ⟨[], rfl, List.nodup_nil, ?_, ?_⟩, ?_, ?_⟩
  · intro v hv; cases hv
  · intro v; simp
  · intro v hv
    left
    simpa using hv
  · intro v hv; exact hv

theorem markTerminals_fold (ts : List Nat) :
    ∀ (a : List Bool), (ts.foldl (fun a t => a.set t true) a).length = a.length ∧
      ∀ v, (ts.foldl (fun a t => a.set t true) a).getD v false = true ↔
        a.getD v false = true ∨ (v ∈ ts ∧ v < a.length) := by
  induction ts with
  | nil => intro a; simp
  | cons t ts ih =>
    intro a
    simp only [List.foldl_cons]
    obtain ⟨h1, h2⟩ := ih (a.set t true)
    refine ⟨by rw [h1, List.length_set], ?_⟩
    intro v
    rw [h2 v, List.length_set, List.mem_cons]
    by_cases hv : t = v
    · subst hv
      by_cases hlt : t < a.length
      · rw [getD_set_self _ _ _ _ hlt]
        simp [hlt]
      · rw [List.set_eq_of_length_le (by omega)]
        constructor
        · rintro (h | ⟨_, h⟩)
          · exact Or.inl h
          · exact absurd h hlt
        · rintro (h | ⟨_, h⟩)
          · exact Or.inl h
          · exact absurd h hlt
    · rw [getD_set_other _ _ _ _ _ hv]
      constructor
      · rintro (h | ⟨h, h3⟩)
        · exact Or.inl h
        · exact Or.inr ⟨Or.inr h, h3⟩
      · rintro (h | ⟨h | h, h3⟩)
        · exact Or.inl h
        · exact absurd h.symm hv
        · exact Or.inr ⟨h, h3⟩

/-- After the first loop exactly the terminals are flagged. -/
theorem markTerminals_spec (G : mutable_graph) (terminals : List Nat)
    (hlt : ∀ t, t ∈ terminals → t < G.number_of_nodes) :
    (markTerminals G terminals).length = G.number_of_nodes ∧
    ∀ v, (markTerminals G terminals).getD v false = true ↔ v ∈ terminals := by
  obtain ⟨h1, h2⟩ := markTerminals_fold terminals (List.replicate G.number_of_nodes false)
  refine ⟨by simpa using h1, ?_⟩
  intro v
  unfold markTerminals
  rw [h2 v]
  have hrep : (List.replicate G.number_of_nodes false).getD v false = false := by
    rw [List.getD_eq_getElem?_getD, List.getElem?_replicate]
    split <;> rfl
  rw [hrep, List.length_replicate]
  constructor
  · rintro (h | ⟨h, _⟩)
    · cases h
    · exact h
  · intro h
    exact Or.inr ⟨h, hlt v h⟩

/-- The recorded search of terminal `i` is the search from that terminal with the
flags left by the searches before it. -/
theorem searchAll_getD (bfs_size : Nat) (G : mutable_graph) (f0 : List Bool)
    (ts : List Nat) :
    ∀ i, i < ts.length →
      (ts.foldl
        (fun (acc : List Bool × List BfsState) t =>
          ((bfsFrom bfs_size G acc.1 t).already_in_block,
            acc.2 ++ [bfsFrom bfs_size G acc.1 t])) (f0, [])).2.getD i default
      = bfsFrom bfs_size G ((ts.take i).foldl
        (fun (acc : List Bool × List BfsState) t =>
          ((bfsFrom bfs_size G acc.1 t).already_in_block,
            acc.2 ++ [bfsFrom bfs_size G acc.1 t])) (f0, [])).1 (ts.getD i 0) := by
  induction ts using List.reverseRecOn with
  | nil => intro i hi; simp at hi
  | append_singleton ts t ih =>
    intro i hi
    have hlen := (searchFold_each bfs_size G (fun _ _ => True) (fun _ _ => trivial) f0 ts).1
    rw [searchFold_append]
    simp only [List.length_append, List.length_cons, List.length_nil] at hi
    rcases Nat.lt_succ_iff_lt_or_eq.mp hi with h | h
    · rw [List.getD_append _ _ _ _ (by rw [hlen]; exact h), List.getD_append _ _ _ _ h,
        List.take_append_of_le_length (le_of_lt h)]
      exact ih i h
    · subst h
      rw [List.getD_append_right _ _ _ _ (by rw [hlen]),
        List.getD_append_right _ _ _ _ (le_refl _), List.take_left]
      simp only [hlen, Nat.sub_self, List.getD_cons_zero]

theorem flagsBefore_succ (bfs_size : Nat) (G : mutable_graph) (terminals : List Nat)
    (i : Nat) (hi : i < terminals.length) :
    flagsBefore bfs_size G terminals (i + 1)
      = (bfsFrom bfs_size G (flagsBefore bfs_size G terminals i)
          (terminals.getD i 0)).already_in_block := by
  unfold flagsBefore
  have ht : terminals.take (i + 1) = terminals.take i ++ [terminals.getD i 0] := by
    rw [List.take_succ, List.getD_eq_getElem?_getD, List.getElem?_eq_getElem hi]
    rfl
  rw [ht, searchFold_append]

theorem searchAll_eq_bfsFrom (bfs_size : Nat) (G : mutable_graph) (terminals : List Nat)
    (i : Nat) (hi : i < terminals.length) :
    (searchAll bfs_size G terminals).2.getD i default
      = bfsFrom bfs_size G (flagsBefore bfs_size G terminals i) (terminals.getD i 0) :=
  searchAll_getD bfs_size G (markTerminals G terminals) terminals i hi

/-- The flags before search `i`: the terminals and what the earlier searches added
to their blocks. -/
theorem flagsBefore_spec (bfs_size : Nat) (G : mutable_graph) (terminals : List Nat)
    (hlt : ∀ t, t ∈ terminals → t < G.number_of_nodes)
    (htgt : ∀ v h, h ∈ G.halfEdges v → h.target < G.number_of_nodes) :
    ∀ i, i ≤ terminals.length →
      (flagsBefore bfs_size G terminals i).length = G.number_of_nodes ∧
      ∀ v, (flagsBefore bfs_size G terminals i).getD v false = true ↔
        v ∈ terminals ∨ ∃ k, k < i ∧
          v ∈ ((searchAll bfs_size G terminals).2.getD k default).block.tail := by
  intro i
  induction i with
  | zero =>
    intro _
    obtain ⟨h1, h2⟩ := markTerminals_spec G terminals hlt
    refine ⟨h1, ?_⟩
    intro v
    show (markTerminals G terminals).getD v false = true ↔ _
    rw [h2 v]
    simp
  | succ i ih =>
    intro hi
    obtain ⟨h1, h2⟩ := ih (by omega)
    have hinv := bfsFrom_inv bfs_size G (flagsBefore bfs_size G terminals i)
      (terminals.getD i 0) htgt h1
    rw [flagsBefore_succ bfs_size G terminals i (by omega)]
    obtain ⟨hlen, ⟨tl, hblock, -, -, hflag⟩, -, -⟩ := hinv
    refine ⟨hlen, ?_⟩
    intro v
    rw [hflag v, h2 v]
    have htail : ((searchAll bfs_size G terminals).2.getD i default).block.tail = tl := by
      rw [searchAll_eq_bfsFrom bfs_size G terminals i (by omega), hblock]
      rfl
    constructor
    · rintro ((h | ⟨k, hk, h⟩) | h)
      · exact Or.inl h
      · exact Or.inr ⟨k, by omega, h⟩
      · exact Or.inr ⟨i, by omega, by rw [htail]; exact h⟩
    · rintro (h | ⟨k, hk, h⟩)
      · exact Or.inl (Or.inl h)
      · rcases Nat.lt_succ_iff_lt_or_eq.mp hk with h3 | h3
        · exact Or.inl (Or.inr ⟨k, h3, h⟩)
        · subst h3
          rw [htail] at h
          exact Or.inr h

/-- What the search of terminal `i` leaves: its block is the terminal followed by
pairwise distinct vertices that are no terminals and in no earlier block; what it
looked at is the terminal, a terminal, or in a block up to its own. -/
theorem search_result (bfs_size : Nat) (G : mutable_graph) (terminals : List Nat)
    (hlt : ∀ t, t ∈ terminals → t < G.number_of_nodes)
    (htgt : ∀ v h, h ∈ G.halfEdges v → h.target < G.number_of_nodes)
    (i : Nat) (hi : i < terminals.length) :
    ∃ tl, ((searchAll bfs_size G terminals).2.getD i default).block
        = terminals.getD i 0 :: tl ∧ tl.Nodup ∧
      (∀ v, v ∈ tl → v ∉ terminals ∧ ∀ k, k < i →
        v ∉ ((searchAll bfs_size G terminals).2.getD k default).block.tail) ∧
      (∀ v, v ∈ ((searchAll bfs_size G terminals).2.getD i default).reached →
        v ∈ terminals ∨ v ∈ tl ∨ ∃ k, k < i ∧
          v ∈ ((searchAll bfs_size G terminals).2.getD k default).block.tail) ∧
      (∀ v, v ∈ tl → v ∈ ((searchAll bfs_size G terminals).2.getD i default).reached) := by
  obtain ⟨h1, h2⟩ := flagsBefore_spec bfs_size G terminals hlt htgt i (le_of_lt hi)
  have hinv := bfsFrom_inv bfs_size G (flagsBefore bfs_size G terminals i)
    (terminals.getD i 0) htgt h1
  rw [← searchAll_eq_bfsFrom bfs_size G terminals i hi] at hinv
  obtain ⟨-, ⟨tl, hblock, hnd, hf0, hflag⟩, hreach, hsub⟩ := hinv
  have hti : terminals.getD i 0 ∈ terminals := by
    rw [List.getD_eq_getElem?_getD, List.getElem?_eq_getElem hi]
    exact List.getElem_mem _
  refine ⟨tl, hblock, hnd, ?_, ?_, ?_⟩
  · intro v hv
    have h3 := hf0 v hv
    have h4 : ¬ (v ∈ terminals ∨ ∃ k, k < i ∧
        v ∈ ((searchAll bfs_size G terminals).2.getD k default).block.tail) := by
      rw [← h2 v, h3]
      simp
    exact ⟨fun h => h4 (Or.inl h), fun k hk h => h4 (Or.inr ⟨k, hk, h⟩)⟩
  · intro v hv
    rcases hreach v hv with h3 | h3
    · rw [h3]; exact Or.inl hti
    · rcases (hflag v).mp h3 with h4 | h4
      · rcases (h2 v).mp h4 with h5 | h5
        · exact Or.inl h5
        · exact Or.inr (Or.inr h5)
      · exact Or.inr (Or.inl h4)
  · intro v hv
    apply hsub v
    rw [hblock]
    exact List.mem_cons_of_mem _ hv

theorem blocks_getD (bfs_size : Nat) (G : mutable_graph) (terminals : List Nat)
    (i : Nat) (hi : i < terminals.length) :
    (buildBlocks bfs_size G terminals).getD i []
      = ((searchAll bfs_size G terminals).2.getD i default).block := by
  have hlen : (searchAll bfs_size G terminals).2.length = terminals.length :=
    (searchFold_each bfs_size G (fun _ _ => True) (fun _ _ => trivial)
      (markTerminals G terminals) terminals).1
  simp only [buildBlocks, List.getD_eq_getElem?_getD, List.getElem?_map]
  rw [List.getElem?_eq_getElem (by rw [hlen]; exact hi)]
  rfl

theorem resetPartition_fold (ns : List Nat) :
    ∀ (g : mutable_graph),
      (ns.foldl (fun g n => g.setPartitionIndex n 0) g).adjacency = g.adjacency ∧
      (ns.foldl (fun g n => g.setPartitionIndex n 0) g).current_position
        = g.current_position ∧
      (ns.foldl (fun g n => g.setPartitionIndex n 0) g).partition_index.length
        = g.partition_index.length ∧
      ∀ v, (v ∈ ns ∨ g.partition_index.getD v 0 = 0) →
        (ns.foldl (fun g n => g.setPartitionIndex n 0) g).partition_index.getD v 0 = 0 := by
  induction ns with
  | nil =>
    intro g
    refine ⟨rfl, rfl, rfl, ?_⟩
    intro v hv
    rcases hv with h | h
    · cases h
    · exact h
  | cons n ns ih =>
    intro g
    simp only [List.foldl_cons]
    obtain ⟨h1, h2, h3, h4⟩ := ih (g.setPartitionIndex n 0)
    refine ⟨h1, h2, by rw [h3]; simp [mutable_graph.setPartitionIndex], ?_⟩
    intro v hv
    apply h4
    by_cases hnv : n = v
    · right
      subst hnv
      simp only [mutable_graph.setPartitionIndex]
      by_cases hlt : n < g.partition_index.length
      · exact getD_set_self _ _ _ _ hlt
      · rw [List.getD_eq_getElem?_getD, List.getElem?_eq_none (by simp; omega)]
        rfl
    · rcases hv with h | h
      · rcases List.mem_cons.mp h with h5 | h5
        · exact absurd h5.symm hnv
        · exact Or.inl h5
      · right
        simp only [mutable_graph.setPartitionIndex]
        rw [getD_set_other _ _ _ _ _ hnv]
        exact h

theorem labelTerminals_fold (terminals : List Nat) (g : mutable_graph)
    (hpos : ∀ i, i < terminals.length →
      g.getCurrentPosition (terminals.getD i 0) < g.partition_index.length)
    (hinj : ∀ i j, i < terminals.length → j < terminals.length → i ≠ j →
      g.getCurrentPosition (terminals.getD i 0) ≠ g.getCurrentPosition (terminals.getD j 0)) :
    ∀ k, k ≤ terminals.length →
      ((List.range k).foldl (fun g l =>
          g.setPartitionIndex (g.getCurrentPosition (terminals.getD l 0)) l) g).adjacency
        = g.adjacency ∧
      ((List.range k).foldl (fun g l =>
          g.setPartitionIndex (g.getCurrentPosition (terminals.getD l 0)) l)
          g).current_position = g.current_position ∧
      ((List.range k).foldl (fun g l =>
          g.setPartitionIndex (g.getCurrentPosition (terminals.getD l 0)) l)
          g).partition_index.length = g.partition_index.length ∧
      (∀ i, i < k → ((List.range k).foldl (fun g l =>
          g.setPartitionIndex (g.getCurrentPosition (terminals.getD l 0)) l)
          g).partition_index.getD (g.getCurrentPosition (terminals.getD i 0)) 0 = i) ∧
      (∀ v, (∀ i, i < k → g.getCurrentPosition (terminals.getD i 0) ≠ v) →
        ((List.range k).foldl (fun g l =>
          g.setPartitionIndex (g.getCurrentPosition (terminals.getD l 0)) l)
          g).partition_index.getD v 0 = g.partition_index.getD v 0) := by
  intro k
  induction k with
  | zero =>
    intro _
    refine ⟨rfl, rfl, rfl, ?_, ?_⟩
    · intro i hi; omega
    · intro v _; rfl
  | succ k ih =>
    intro hk
    obtain ⟨h1, h2, h3, h4, h5⟩ := ih (by omega)
    rw [List.range_succ, List.foldl_append]
    simp only [List.foldl_cons, List.foldl_nil]
    have hcp : ((List.range k).foldl (fun g l =>
          g.setPartitionIndex (g.getCurrentPosition (terminals.getD l 0)) l)
          g).getCurrentPosition (terminals.getD k 0)
        = g.getCurrentPosition (terminals.getD k 0) :=
      congrArg (fun cp => List.getD cp (terminals.getD k 0) 0) h2
    rw [hcp]
    refine ⟨h1, h2, (List.length_set _ _ _).trans h3, ?_, ?_⟩
    · intro i hi
      rcases Nat.lt_succ_iff_lt_or_eq.mp hi with h | h
      · exact (getD_set_other _ _ _ _ _
          (hinj k i (by omega) (by omega) (by omega))).trans (h4 i h)
      · subst h
        exact getD_set_self _ _ _ _ (by rw [h3]; exact hpos i (by omega))
    · intro v hv
      exact (getD_set_other _ _ _ _ _ (hv k (by omega))).trans
        (h5 v (fun i hi => hv i (by omega)))

/-- C18: when `addSurroundingAreaToTerminals` has run with `bfs_size ≠ 0` and the
current positions of the terminals in the contracted graph are vertices of it and
pairwise distinct, then for every terminal index `i` the partition index of
`getCurrentPosition(terminals[i])` is `i`, and every vertex of the contracted graph
that is not the current position of a terminal has partition index 0. -/
theorem partition_indices_after_search (env : Collaborators) (mcp : multicut_problem)
    (terminals : List Nat) (h0 : env.bfs_size ≠ 0)
    (hlen : (env.contractIsolatingBlocks mcp
        (buildBlocks env.bfs_size mcp.graph terminals)).graph.partition_index.length
      = (env.contractIsolatingBlocks mcp
        (buildBlocks env.bfs_size mcp.graph terminals)).graph.n)
    (hpos : ∀ i, i < terminals.length →
      (env.contractIsolatingBlocks mcp
        (buildBlocks env.bfs_size mcp.graph terminals)).graph.getCurrentPosition
          (terminals.getD i 0)
      < (env.contractIsolatingBlocks mcp
        (buildBlocks env.bfs_size mcp.graph terminals)).graph.n)
    (hinj : ∀ i, i < terminals.length → ∀ j, j < terminals.length → i ≠ j →
      (env.contractIsolatingBlocks mcp
        (buildBlocks env.bfs_size mcp.graph terminals)).graph.getCurrentPosition
          (terminals.getD i 0)
      ≠ (env.contractIsolatingBlocks mcp
        (buildBlocks env.bfs_size mcp.graph terminals)).graph.getCurrentPosition
          (terminals.getD j 0)) :
    (addSurroundingAreaToTerminals env mcp terminals).graph.n
      = (env.contractIsolatingBlocks mcp
        (buildBlocks env.bfs_size mcp.graph terminals)).graph.n ∧
    (∀ i, i < terminals.length →
      (addSurroundingAreaToTerminals env mcp terminals).graph.getPartitionIndex
        ((addSurroundingAreaToTerminals env mcp terminals).graph.getCurrentPosition
          (terminals.getD i 0)) = i) ∧
    (∀ v, v < (addSurroundingAreaToTerminals env mcp terminals).graph.n →
      (∀ i, i < terminals.length →
        (addSurroundingAreaToTerminals env mcp terminals).graph.getCurrentPosition
          (terminals.getD i 0) ≠ v) →
      (addSurroundingAreaToTerminals env mcp terminals).graph.getPartitionIndex v = 0) := by
  generalize hg : (env.contractIsolatingBlocks mcp
    (buildBlocks env.bfs_size mcp.graph terminals)) = mcp1 at hlen hpos hinj
  have hR : (addSurroundingAreaToTerminals env mcp terminals).graph
      = (List.range terminals.length).foldl
          (fun g l => g.setPartitionIndex (g.getCurrentPosition (terminals.getD l 0)) l)
          (mcp1.graph.nodes.foldl (fun g n => g.setPartitionIndex n 0) mcp1.graph) := by
    unfold addSurroundingAreaToTerminals
    rw [if_pos h0]
    simp only [hg]
  obtain ⟨r1, r2, r3, r4⟩ := resetPartition_fold mcp1.graph.nodes mcp1.graph
  have hcp1 : ∀ v, (mcp1.graph.nodes.foldl (fun g n => g.setPartitionIndex n 0)
      mcp1.graph).getCurrentPosition v = mcp1.graph.getCurrentPosition v := by
    intro v
    unfold mutable_graph.getCurrentPosition
    rw [r2]
  obtain ⟨l1, l2, -, l4, l5⟩ := labelTerminals_fold terminals
    (mcp1.graph.nodes.foldl (fun g n => g.setPartitionIndex n 0) mcp1.graph)
    (by
      intro i hi
      rw [hcp1, r3, hlen]
      exact hpos i hi)
    (by
      intro i j hi hj hij
      rw [hcp1, hcp1]
      exact hinj i hi j hj hij)
    terminals.length (le_refl _)
  have hcp : ∀ v, (addSurroundingAreaToTerminals env mcp terminals).graph.getCurrentPosition v
      = mcp1.graph.getCurrentPosition v := by
    intro v
    rw [hR, ← hcp1]
    exact congrArg (fun cp => List.getD cp v 0) l2
  have hn : (addSurroundingAreaToTerminals env mcp terminals).graph.n = mcp1.graph.n := by
    rw [hR]
    unfold mutable_graph.n
    rw [l1, r1]
  refine ⟨hn, ?_, ?_⟩
  · intro i hi
    rw [hcp, ← hcp1, hR]
    exact l4 i hi
  · intro v hv hne
    rw [hn] at hv
    have h1 : ((List.range terminals.length).foldl
        (fun g l => g.setPartitionIndex (g.getCurrentPosition (terminals.getD l 0)) l)
        (mcp1.graph.nodes.foldl (fun g n => g.setPartitionIndex n 0)
          mcp1.graph)).partition_index.getD v 0
        = (mcp1.graph.nodes.foldl (fun g n => g.setPartitionIndex n 0)
          mcp1.graph).partition_index.getD v 0 := by
      apply l5
      intro i hi
      rw [hcp1, ← hcp]
      exact hne i hi
    rw [hR]
    unfold mutable_graph.getPartitionIndex
    rw [h1]
    apply r4
    left
    simpa [mutable_graph.nodes] using hv

theorem partition_indices_after_search_witness :
    (specEnv 2 64).bfs_size ≠ 0 ∧
    (addSurroundingAreaToTerminals (specEnv 2 64) pathProblem [0, 2]).graph.n = 2 ∧
    ∀ i, i < [0, 2].length →
      (addSurroundingAreaToTerminals (specEnv 2 64) pathProblem [0, 2]).graph.getPartitionIndex
        ((addSurroundingAreaToTerminals (specEnv 2 64) pathProblem
          [0, 2]).graph.getCurrentPosition ([0, 2].getD i 0)) = i :=
  ⟨by decide, by decide,
    (partition_indices_after_search (specEnv 2 64) pathProblem [0, 2] (by decide)
      (by decide) (by decide) (by decide)).2.1⟩

/-! ## The validator -/

namespace graph_algorithms

theorem checkContained_ok (G : mutable_graph) (n : Nat) (vs : List Nat) :
    checkContained G n vs = .ok () ↔ ∀ v, v ∈ vs → G.getCurrentPosition v = n := by
  induction vs with
  | nil => simp [checkContained]
  | cons v vs ih =>
    simp only [checkContained, List.mem_cons, forall_eq_or_imp]
    by_cases hpn : G.getCurrentPosition v = n
    · rw [if_neg (not_not.mpr hpn), ih]
      exact ⟨fun h => ⟨hpn, h⟩, fun h => h.2⟩
    · rw [if_pos hpn]
      constructor
      · intro h; cases h
      · intro h; exact absurd h.1 hpn

/-- How the loop over the half-edges of a node ends, whatever has been recorded
before. -/
theorem checkEdges_ok (ew : Nat) (G : mutable_graph) (n : Nat) (es : List Nat) :
    ∀ (weight : Nat) (targets : List Nat) (accessed : List (Nat × Nat)) (r : Nat),
      weight < 2 ^ ew →
      ((checkEdges ew G n es weight targets accessed).1 = .ok r ↔
        (∀ e, e ∈ es → G.getEdgeTarget n e ∉ targets ∧ G.getEdgeTarget n e ≠ n ∧
          G.getEdgeTarget n e < G.n ∧
          G.getEdgeTarget (G.getEdgeTarget n e) (G.getReverseEdge n e) = n ∧
          G.getEdgeWeight (G.getEdgeTarget n e) (G.getReverseEdge n e)
            = G.getEdgeWeight n e ∧
          G.getReverseEdge (G.getEdgeTarget n e) (G.getReverseEdge n e) = e) ∧
        (es.map (fun e => G.getEdgeTarget n e)).Nodup ∧
        r = (weight + (es.map (fun e => G.getEdgeWeight n e)).sum) % 2 ^ ew) := by
  induction es with
  | nil =>
    intro weight targets accessed r hw
    simp only [checkEdges, Except.ok.injEq, List.not_mem_nil, false_imp_iff, implies_true,
      List.map_nil, List.nodup_nil, List.sum_nil, Nat.add_zero, true_and]
    rw [Nat.mod_eq_of_lt hw]
    exact eq_comm
  | cons e es ih =>
    intro weight targets accessed r hw
    have hlt : (weight + G.getEdgeWeight n e) % 2 ^ ew < 2 ^ ew :=
      Nat.mod_lt _ (Nat.pow_pos (by decide))
    have hsum : ((weight + G.getEdgeWeight n e) % 2 ^ ew
          + (es.map (fun e => G.getEdgeWeight n e)).sum) % 2 ^ ew
        = (weight + (G.getEdgeWeight n e + (es.map (fun e => G.getEdgeWeight n e)).sum))
          % 2 ^ ew := by
      rw [Nat.add_mod, Nat.mod_mod, ← Nat.add_mod, Nat.add_assoc]
    simp only [checkEdges, List.mem_cons, forall_eq_or_imp, List.map_cons, List.nodup_cons,
      List.sum_cons]
    by_cases h1 : G.getEdgeTarget n e ∈ targets
    · simp [h1]
    rw [if_neg h1]
    by_cases h2 : G.getEdgeTarget n e = n
    · simp [h2]
    rw [if_neg h2]
    by_cases h3 : G.getEdgeTarget n e ≥ G.n
    · rw [if_pos h3]
      have : ¬ G.getEdgeTarget n e < G.n := by omega
      simp [this]
    rw [if_neg h3]
    have h3b : G.getEdgeTarget n e < G.n := by omega
    by_cases h4 : G.getEdgeTarget (G.getEdgeTarget n e) (G.getReverseEdge n e) = n
    swap
    · rw [if_pos h4]
      simp [h4]
    rw [if_neg (not_not.mpr h4)]
    by_cases h5 : G.getEdgeWeight (G.getEdgeTarget n e) (G.getReverseEdge n e)
        = G.getEdgeWeight n e
    swap
    · rw [if_pos h5]
      simp [h5]
    rw [if_neg (not_not.mpr h5)]
    by_cases h6 : G.getReverseEdge (G.getEdgeTarget n e) (G.getReverseEdge n e) = e
    swap
    · rw [if_pos h6]
      simp [h6]
    rw [if_neg (not_not.mpr h6)]
    rw [ih _ (G.getEdgeTarget n e :: targets) _ r hlt, hsum]
    simp only [List.mem_cons, not_or, List.mem_map, not_exists, not_and]
    constructor
    · rintro ⟨hall, hnd, hr⟩
      refine ⟨⟨⟨h1, h2, h3b, h4, h5, h6⟩, ?_⟩, ⟨?_, hnd⟩, hr⟩
      · intro a ha
        exact ⟨(hall a ha).1.2, (hall a ha).2⟩
      · intro a ha heq
        exact (hall a ha).1.1 heq
    · rintro ⟨⟨-, hall⟩, ⟨hne, hnd⟩, hr⟩
      refine ⟨?_, hnd, hr⟩
      intro a ha
      exact ⟨⟨fun heq => hne a ha heq, (hall a ha).1⟩, (hall a ha).2⟩

/-- What the body of the loop over the nodes checks at node `n`. -/
theorem checkNode_ok (ew : Nat) (G : mutable_graph) (n edges : Nat)
    (accessed : List (Nat × Nat)) (r : Nat) :
    (checkNode ew G n edges accessed).1 = .ok r ↔
      NodeChecks ew G n ∧ r = (edges + G.get_first_invalid_edge n) % size_t_mod := by
  have htg : (G.edges_of n).map (fun e => G.getEdgeTarget n e)
      = (G.halfEdges n).map (fun h => h.target) := by
    have := congrArg (List.map (fun (h : HalfEdge) => h.target))
      (map_getD_range (G.halfEdges n) default)
    rw [List.map_map] at this
    exact this
  have hwt : (G.edges_of n).map (fun e => G.getEdgeWeight n e)
      = (G.halfEdges n).map (fun h => h.weight) := by
    have := congrArg (List.map (fun (h : HalfEdge) => h.weight))
      (map_getD_range (G.halfEdges n) default)
    rw [List.map_map] at this
    exact this
  have hmem : ∀ e, e ∈ G.edges_of n ↔ e < (G.halfEdges n).length := by
    intro e
    simp [mutable_graph.edges_of, mutable_graph.get_first_invalid_edge]
  unfold checkNode NodeChecks
  cases hc : checkContained G n (G.containedVertices n) with
  | error f =>
    have hne : ¬ (∀ v, v ∈ G.containedVertices n → G.getCurrentPosition v = n) := by
      rw [← checkContained_ok, hc]
      simp
    simp [hne]
  | ok u =>
    have hcont : ∀ v, v ∈ G.containedVertices n → G.getCurrentPosition v = n := by
      rw [← checkContained_ok, hc]
    simp only
    cases he : (checkEdges ew G n (G.edges_of n) 0 [] accessed).1 with
    | error f =>
      simp only [false_iff, reduceCtorEq]
      rintro ⟨⟨-, hnd, hall, -⟩, -⟩
      have hok := (checkEdges_ok ew G n (G.edges_of n) 0 [] accessed
        ((0 + ((G.edges_of n).map (fun e => G.getEdgeWeight n e)).sum) % 2 ^ ew)
        (Nat.pow_pos (by decide))).mpr
        ⟨fun e hin => ⟨List.not_mem_nil _, hall e ((hmem e).mp hin)⟩,
          by rw [htg]; exact hnd, rfl⟩
      rw [he] at hok
      cases hok
    | ok weight =>
      have hok := (checkEdges_ok ew G n (G.edges_of n) 0 [] accessed weight
        (Nat.pow_pos (by decide))).mp he
      obtain ⟨hall, hnd, hw⟩ := hok
      rw [htg] at hnd
      rw [hwt, Nat.zero_add] at hw
      simp only
      by_cases hd : weight = G.getWeightedNodeDegree n
      · rw [if_neg (not_not.mpr hd)]
        simp only [Except.ok.injEq]
        constructor
        · intro hr
          exact ⟨⟨hcont, hnd, fun e hlt => (hall e ((hmem e).mpr hlt)).2, by rw [← hw, hd]⟩,
            hr.symm⟩
        · rintro ⟨-, hr⟩
          exact hr.symm
      · rw [if_pos hd]
        simp only [false_iff, reduceCtorEq]
        rintro ⟨⟨-, -, -, hdeg⟩, -⟩
        exact hd (by rw [hw, hdeg])

theorem checkNodes_ok (ew : Nat) (G : mutable_graph) (ns : List Nat) :
    ∀ (edges : Nat) (accessed : List (Nat × Nat)) (r : Nat), edges < size_t_mod →
      ((checkNodes ew G ns edges accessed).1 = .ok r ↔
        (∀ n, n ∈ ns → NodeChecks ew G n) ∧
        r = (edges + (ns.map (fun n => G.get_first_invalid_edge n)).sum) % size_t_mod) := by
  induction ns with
  | nil =>
    intro edges accessed r he
    simp only [checkNodes, Except.ok.injEq, List.not_mem_nil, false_imp_iff, implies_true,
      List.map_nil, List.sum_nil, Nat.add_zero, true_and]
    rw [Nat.mod_eq_of_lt he]
    exact eq_comm
  | cons n ns ih =>
    intro edges accessed r he
    have hsum : ((edges + G.get_first_invalid_edge n) % size_t_mod
          + (ns.map (fun n => G.get_first_invalid_edge n)).sum) % size_t_mod
        = (edges + (G.get_first_invalid_edge n
            + (ns.map (fun n => G.get_first_invalid_edge n)).sum)) % size_t_mod := by
      rw [Nat.add_mod, Nat.mod_mod, ← Nat.add_mod, Nat.add_assoc]
    simp only [checkNodes, List.mem_cons, forall_eq_or_imp, List.map_cons, List.sum_cons]
    cases hn : (checkNode ew G n edges accessed).1 with
    | error f =>
      have hne : ¬ NodeChecks ew G n := by
        intro hc
        have := (checkNode_ok ew G n edges accessed _).mpr ⟨hc, rfl⟩
        rw [hn] at this
        cases this
      simp [hne]
    | ok e1 =>
      obtain ⟨hc, he1⟩ := (checkNode_ok ew G n edges accessed e1).mp hn
      simp only
      rw [ih e1 _ r (by rw [he1]; exact Nat.mod_lt _ (by decide)), he1, hsum]
      tauto

/-- The validator reaches its end exactly when every node passes the checks of the
loop body and the edge slots counted as a `size_t` are `m()`. -/
theorem checkGraphValidity_ok (ew : Nat) (G : mutable_graph) :
    (checkGraphValidity ew G).1 = .ok () ↔
      (∀ n, n < G.n → NodeChecks ew G n) ∧
      (G.nodes.map (fun n => G.get_first_invalid_edge n)).sum % size_t_mod = G.m := by
  unfold checkGraphValidity
  cases hn : (checkNodes ew G G.nodes 0 []).1 with
  | error f =>
    simp only [false_iff, reduceCtorEq]
    rintro ⟨hall, -⟩
    have := (checkNodes_ok ew G G.nodes 0 [] _ (by decide)).mpr
      ⟨fun n hin => hall n (by simpa [mutable_graph.nodes] using hin), rfl⟩
    rw [hn] at this
    cases this
  | ok edges =>
    obtain ⟨hall, he⟩ := (checkNodes_ok ew G G.nodes 0 [] edges (by decide)).mp hn
    rw [Nat.zero_add] at he
    simp only
    by_cases hm : edges = G.m
    · rw [if_neg (not_not.mpr hm)]
      simp only [true_iff]
      exact ⟨fun n hlt => hall n (by simpa [mutable_graph.nodes] using hlt),
        by rw [← he, hm]⟩
    · rw [if_pos hm]
      simp only [false_iff, reduceCtorEq]
      rintro ⟨-, h⟩
      exact hm (by rw [he, h])

end graph_algorithms

namespace graph_algorithms

theorem slot_of_lt (G : mutable_graph) (v e : Nat) (h : e < G.get_first_invalid_edge v) :
    G.slot? v e
      = some ⟨G.getEdgeTarget v e, G.getEdgeWeight v e, G.getReverseEdge v e⟩ := by
  unfold mutable_graph.slot? mutable_graph.getEdgeTarget mutable_graph.getEdgeWeight
    mutable_graph.getReverseEdge
  unfold mutable_graph.get_first_invalid_edge at h
  rw [List.getD_eq_getElem?_getD, List.getElem?_eq_getElem h]
  rfl

theorem lt_of_slot (G : mutable_graph) (v e : Nat) (x : HalfEdge) (h : G.slot? v e = some x) :
    e < G.get_first_invalid_edge v ∧ G.getEdgeTarget v e = x.target ∧
      G.getEdgeWeight v e = x.weight ∧ G.getReverseEdge v e = x.reverse := by
  unfold mutable_graph.slot? at h
  obtain ⟨hlt, hx⟩ := List.getElem?_eq_some_iff.mp h
  unfold mutable_graph.get_first_invalid_edge mutable_graph.getEdgeTarget
    mutable_graph.getEdgeWeight mutable_graph.getReverseEdge
  rw [List.getD_eq_getElem?_getD, List.getElem?_eq_getElem hlt, hx]
  exact ⟨hlt, rfl, rfl, rfl⟩

/-- When the reverse indices of node `n` are slots of their targets, the checks of
the validator at `n` make its half-edges paired. -/
theorem nodeChecks_edgesPaired (ew : Nat) (G : mutable_graph) (n : Nat)
    (hc : NodeChecks ew G n)
    (hrev : ∀ e, e < G.get_first_invalid_edge n → G.getEdgeTarget n e < G.n →
      G.getReverseEdge n e < G.get_first_invalid_edge (G.getEdgeTarget n e)) :
    EdgesPaired ew G n := by
  obtain ⟨-, hnd, hall, hdeg⟩ := hc
  refine ⟨hnd, ?_, hdeg⟩
  intro e he
  obtain ⟨h1, h2, h3, h4, h5⟩ := hall e he
  refine ⟨h1, h2, ?_⟩
  rw [slot_of_lt G _ _ (hrev e he h2), h3, h4, h5]

/-- On a graph whose weight sums and slot count do not overflow, the validator
reaches its end having read only stored positions and existing slots exactly when
the listed conditions hold. -/
theorem checkGraphValidity_iff_valid (ew : Nat) (G : mutable_graph)
    (hw : ∀ n, n < G.n → ((G.halfEdges n).map (fun h => h.weight)).sum < 2 ^ ew)
    (hm : (G.nodes.map (fun n => G.get_first_invalid_edge n)).sum < size_t_mod) :
    ((checkGraphValidity ew G).1 = .ok () ∧ ReverseInRange G ∧ PositionsStored G) ↔
      ValidGraph G := by
  rw [checkGraphValidity_ok, Nat.mod_eq_of_lt hm]
  unfold ValidGraph
  have hget : ∀ n e, e < (G.halfEdges n).length →
      (G.halfEdges n).getD e default ∈ G.halfEdges n := by
    intro n e he
    rw [List.getD_eq_getElem?_getD, List.getElem?_eq_getElem he]
    exact List.getElem_mem _
  constructor
  · rintro ⟨⟨hall, hcount⟩, hrev, hpos⟩
    have hp : ∀ n, n < G.n → EdgesPaired ew G n :=
      fun n hn => nodeChecks_edgesPaired ew G n (hall n hn) (hrev n hn)
    refine ⟨?_, fun n hn => (hp n hn).1, ?_, ?_,
      fun n hn e he => ((hp n hn).2.1 e he).2.2, ?_, hcount.symm⟩
    · intro n hn v hv
      have h1 := (hall n hn).1 v hv
      have h2 := hpos n hn v hv
      unfold mutable_graph.getCurrentPosition at h1
      rw [List.getD_eq_getElem?_getD, List.getElem?_eq_getElem h2] at h1
      unfold mutable_graph.position?
      rw [List.getElem?_eq_getElem h2]
      exact congrArg some h1
    · intro n hn h hh
      obtain ⟨e, he, hget2⟩ := List.getElem_of_mem hh
      have := ((hp n hn).2.1 e he).1
      unfold mutable_graph.getEdgeTarget at this
      rw [List.getD_eq_getElem?_getD, List.getElem?_eq_getElem he] at this
      rw [← hget2]
      exact this
    · intro n hn h hh
      obtain ⟨e, he, hget2⟩ := List.getElem_of_mem hh
      have := ((hp n hn).2.1 e he).2.1
      unfold mutable_graph.getEdgeTarget at this
      rw [List.getD_eq_getElem?_getD, List.getElem?_eq_getElem he] at this
      rw [← hget2]
      exact this
    · intro n hn
      rw [← (hp n hn).2.2, Nat.mod_eq_of_lt (hw n hn)]
  · rintro ⟨h1, h2, h3, h4, h5, h6, h7⟩
    refine ⟨⟨?_, h7.symm⟩, ?_, ?_⟩
    · intro n hn
      refine ⟨?_, h2 n hn, ?_, ?_⟩
      · intro v hv
        have := h1 n hn v hv
        unfold mutable_graph.position? at this
        obtain ⟨hlt, hx⟩ := List.getElem?_eq_some_iff.mp this
        unfold mutable_graph.getCurrentPosition
        rw [List.getD_eq_getElem?_getD, List.getElem?_eq_getElem hlt]
        exact hx
      · intro e he
        obtain ⟨-, ht, hwt, hr⟩ := lt_of_slot G _ _ _ (h5 n hn e he)
        exact ⟨h3 n hn _ (hget n e he), h4 n hn _ (hget n e he), ht, hwt, hr⟩
      · rw [Nat.mod_eq_of_lt (hw n hn)]
        exact (h6 n hn).symm
    · intro n hn e he _
      exact (lt_of_slot G _ _ _ (h5 n hn e he)).1
    · intro n hn v hv
      have := h1 n hn v hv
      unfold mutable_graph.position? at this
      exact (List.getElem?_eq_some_iff.mp this).1

/-- On the edge `0 - 1` whose half-edge at node 0 carries the reverse index 1, the
validator aborts after its access to the slot `(1, 1)`. -/
theorem checkGraphValidity_offByOneReverse :
    checkGraphValidity 64 offByOneReverse = (.error .abort, [(1, 1)]) := rfl

/-- C20 at its failing input: node 0 of `danglingReverse` has one half-edge, with
target 1, weight 0 and reverse index 5, and node 1 has no half-edge.  The graph
breaks the listed conditions, since the slot `(1, 5)` that should point back does
not exist: a reverse-edge mismatch.  The validator checks `tgt >= G->n()` only, the
three comparisons on `(1, 5)` pass on what the accessors return, and the run ends
without the fatal abort. -/
theorem checkGraphValidity_accepts_dangling_reverse :
    (checkGraphValidity 64 danglingReverse).1 = .ok () ∧
    (checkGraphValidity 64 danglingReverse).1 ≠ .error .abort ∧
    danglingReverse.getEdgeTarget 0 0 = 1 ∧ danglingReverse.getReverseEdge 0 0 = 5 ∧
    danglingReverse.slot? 1 5 = none ∧
    ¬ ValidGraph danglingReverse := by
  refine ⟨rfl, ?_, rfl, rfl, rfl, ?_⟩
  · intro h
    have h2 : (checkGraphValidity 64 danglingReverse).1 = .ok () := rfl
    rw [h2] at h
    cases h
  · intro h
    have h5 := h.2.2.2.2.1 0 (by decide) 0 (by decide)
    have h6 : danglingReverse.slot? (danglingReverse.getEdgeTarget 0 0)
        (danglingReverse.getReverseEdge 0 0) = none := rfl
    rw [h6] at h5
    cases h5

end graph_algorithms

theorem sum_involution_half {α : Type} [DecidableEq α] (H : List α) (hnd : H.Nodup)
    (mate : α → α) (low : α → Bool) (c : α → Nat)
    (hm : ∀ x, x ∈ H → mate x ∈ H ∧ mate (mate x) = x ∧ low (mate x) = !low x ∧
      c (mate x) = c x) :
    (H.map c).sum = 2 * (H.map (fun x => if low x then c x else 0)).sum := by
  have hsplit : (H.map c).sum
      = (H.map (fun x => if low x then c x else 0)).sum
        + (H.map (fun x => if low (mate x) then c (mate x) else 0)).sum := by
    rw [← List.sum_map_add]
    apply congrArg
    apply List.map_congr_left
    intro x hx
    obtain ⟨-, -, h3, h4⟩ := hm x hx
    rw [h3, h4]
    cases low x <;> simp
  have hswap : (H.map (fun x => if low (mate x) then c (mate x) else 0)).sum
      = (H.map (fun x => if low x then c x else 0)).sum := by
    rw [← List.sum_toFinset _ hnd, ← List.sum_toFinset _ hnd]
    apply Finset.sum_nbij' mate mate
    · intro x hx
      rw [List.mem_toFinset] at hx ⊢
      exact (hm x hx).1
    · intro x hx
      rw [List.mem_toFinset] at hx ⊢
      exact (hm x hx).1
    · intro x hx
      rw [List.mem_toFinset] at hx
      exact (hm x hx).2.1
    · intro x hx
      rw [List.mem_toFinset] at hx
      exact (hm x hx).2.1
    · intro x _
      rfl
  rw [hsplit, hswap]
  ring

/-! ## The records `splitConnectedComponents` returns -/

theorem multicutLoop_snd_aux (env : Collaborators) (problems : List multicut_problem) :
    ∀ (acc : Int × List EngineCall),
      (problems.foldl
        (fun (acc : Int × List EngineCall) problem =>
          (wrapFlow env.flow_bits
              (acc.1 + env.find_multiterminal_cut problem.graph
                (problem.terminals.map (fun t => t.position))
                (addSurroundingAreaToTerminals env problem
                  (problem.terminals.map (fun t => t.position)))),
            acc.2 ++ [{ graph := problem.graph,
                        terminals := problem.terminals.map (fun t => t.position),
                        problem := addSurroundingAreaToTerminals env problem
                          (problem.terminals.map (fun t => t.position)) }]))
        acc).2
      = acc.2 ++ problems.map (fun problem =>
          ({ graph := problem.graph,
             terminals := problem.terminals.map (fun t => t.position),
             problem := addSurroundingAreaToTerminals env problem
               (problem.terminals.map (fun t => t.position)) } : EngineCall)) := by
  induction problems with
  | nil => intro acc; simp
  | cons p ps ih =>
    intro acc
    rw [List.foldl_cons, ih]
    simp

/-- The engine calls of the driver: one per subproblem, in order, each with the
subproblem after `addSurroundingAreaToTerminals`. -/
theorem multicutCalls_eq (env : Collaborators) (G : mutable_graph) (terminals : List Nat) :
    multicutCalls env G terminals
      = (splitConnectedComponents env G terminals).map (fun problem =>
          ({ graph := problem.graph,
             terminals := problem.terminals.map (fun t => t.position),
             problem := addSurroundingAreaToTerminals env problem
               (problem.terminals.map (fun t => t.position)) } : EngineCall)) := by
  unfold multicutCalls multicutLoop
  rw [multicutLoop_snd_aux]
  rfl

/-- Every subproblem `splitConnectedComponents` returns was made by the constructor
`multicut_problem(G, term)`. -/
theorem splitConnectedComponents_mk2 (env : Collaborators) (G : mutable_graph)
    (all_terminals : List Nat) (p : multicut_problem)
    (hp : p ∈ splitConnectedComponents env G all_terminals) :
    ∃ g term, p = multicut_problem.mk2 env.flow_bits g term := by
  unfold splitConnectedComponents at hp
  simp only at hp
  rw [foldl_append_if, List.nil_append, List.mem_map] at hp
  obtain ⟨i, -, rfl⟩ := hp
  exact ⟨_, _, rfl⟩

theorem flowMax_nonneg (w : Nat) : (0 : Int) ≤ flowMax w := by
  unfold flowMax
  have : (1 : Int) ≤ 2 ^ (w - 1) := one_le_pow₀ (by norm_num)
  omega

/-- C21: every subproblem returned by `splitConnectedComponents` carries
`lower_bound = -1`, `upper_bound` the largest `FlowType` value, `deleted_weight = 0`,
an empty mapping chain and an empty path tag, so that `lower_bound ≤ upper_bound`;
and the same holds for every subproblem the driver hands to the engine, when
`contractIsolatingBlocks` (not among the sources) leaves these five members as they
are whenever the block search is enabled. -/
theorem root_subproblems_carry_defaults (env : Collaborators) (G : mutable_graph)
    (terminals : List Nat)
    (hkeep : env.bfs_size ≠ 0 → ∀ mcp blocks,
      (env.contractIsolatingBlocks mcp blocks).lower_bound = mcp.lower_bound ∧
      (env.contractIsolatingBlocks mcp blocks).upper_bound = mcp.upper_bound ∧
      (env.contractIsolatingBlocks mcp blocks).deleted_weight = mcp.deleted_weight ∧
      (env.contractIsolatingBlocks mcp blocks).mappings = mcp.mappings ∧
      (env.contractIsolatingBlocks mcp blocks).path = mcp.path) :
    (∀ p, p ∈ splitConnectedComponents env G terminals →
      p.lower_bound = -1 ∧ p.upper_bound = flowMax env.flow_bits ∧ p.deleted_weight = 0 ∧
      p.mappings = [] ∧ p.path = "" ∧ p.lower_bound ≤ p.upper_bound) ∧
    (∀ c, c ∈ multicutCalls env G terminals →
      c.problem.lower_bound = -1 ∧ c.problem.upper_bound = flowMax env.flow_bits ∧
      c.problem.deleted_weight = 0 ∧ c.problem.mappings = [] ∧ c.problem.path = "" ∧
      c.problem.lower_bound ≤ c.problem.upper_bound) := by
  have hsplit : ∀ p, p ∈ splitConnectedComponents env G terminals →
      p.lower_bound = -1 ∧ p.upper_bound = flowMax env.flow_bits ∧ p.deleted_weight = 0 ∧
      p.mappings = [] ∧ p.path = "" ∧ p.lower_bound ≤ p.upper_bound := by
    intro p hp
    obtain ⟨g, term, rfl⟩ := splitConnectedComponents_mk2 env G terminals p hp
    refine ⟨rfl, rfl, rfl, rfl, rfl, ?_⟩
    show (-1 : Int) ≤ flowMax env.flow_bits
    have := flowMax_nonneg env.flow_bits
    omega
  refine ⟨hsplit, ?_⟩
  intro c hc
  rw [multicutCalls_eq, List.mem_map] at hc
  obtain ⟨p, hp, rfl⟩ := hc
  obtain ⟨h1, h2, h3, h4, h5, h6⟩ := hsplit p hp
  simp only
  by_cases h0 : env.bfs_size = 0
  · have hsame : addSurroundingAreaToTerminals env p
        (p.terminals.map (fun t => t.position)) = p := by
      unfold addSurroundingAreaToTerminals
      rw [if_neg (not_not.mpr h0)]
    rw [hsame]
    exact ⟨h1, h2, h3, h4, h5, h6⟩
  · obtain ⟨k1, k2, k3, k4, k5⟩ := hkeep h0 p
      (buildBlocks env.bfs_size p.graph (p.terminals.map (fun t => t.position)))
    unfold addSurroundingAreaToTerminals
    rw [if_pos h0]
    simp only
    rw [k1, k2, k3, k4, k5]
    exact ⟨h1, h2, h3, h4, h5, h6⟩

theorem root_subproblems_carry_defaults_witness :
    (multicutCalls (specEnv 2 64) twoCliques [0, 1, 4, 5]).length = 2 ∧
    ∀ c, c ∈ multicutCalls (specEnv 2 64) twoCliques [0, 1, 4, 5] →
      c.problem.lower_bound = -1 ∧ c.problem.upper_bound = flowMax (specEnv 2 64).flow_bits ∧
      c.problem.deleted_weight = 0 ∧ c.problem.mappings = [] ∧ c.problem.path = "" ∧
      c.problem.lower_bound ≤ c.problem.upper_bound :=
  ⟨by decide,
    (root_subproblems_carry_defaults (specEnv 2 64) twoCliques [0, 1, 4, 5]
      (fun _ _ _ => ⟨rfl, rfl, rfl, rfl, rfl⟩)).2⟩

/-- C25: in every subproblem returned by `splitConnectedComponents` (component
labels below `num_comp`) the `j`-th terminal, counting from 0, is the `j`-th terminal
of its component in input order, has `original_id = j` and `invalid_flow = true`; so
the `original_id` values of a subproblem with `k` terminals are `0, 1, …, k - 1`. -/
theorem split_terminals_numbered (env : Collaborators) (G : mutable_graph)
    (all_terminals : List Nat)
    (hlab : ∀ t, t ∈ all_terminals →
      (env.strong_components G).1.getD t 0 < (env.strong_components G).2) :
    ∀ p, p ∈ splitConnectedComponents env G all_terminals →
      (∃ c, c < (env.strong_components G).2 ∧
        p.terminals.length = (terminalsIn (env.strong_components G).1 all_terminals c).length ∧
        ∀ j, j < p.terminals.length →
          (p.terminals.getD j default).position
            = (env.extract_block G c (env.strong_components G).1).2.getD
                ((terminalsIn (env.strong_components G).1 all_terminals c).getD j 0) 0) ∧
      (∀ j, j < p.terminals.length →
        (p.terminals.getD j default).original_id = j ∧
        (p.terminals.getD j default).invalid_flow = true) ∧
      p.terminals.map (fun t => t.original_id) = List.range p.terminals.length := by
  intro p hp
  rw [splitConnectedComponents_eq env G all_terminals hlab, List.mem_map] at hp
  obtain ⟨c, hc, rfl⟩ := hp
  have hcl : c < (env.strong_components G).2 := by
    simpa using (List.mem_filter.mp hc).1
  have hterm : (multicut_problem.mk2 env.flow_bits
      (env.extract_block G c (env.strong_components G).1).1
      (blockTerminals (env.strong_components G).1
        (env.extract_block G c (env.strong_components G).1).2 all_terminals c)).terminals
      = blockTerminals (env.strong_components G).1
        (env.extract_block G c (env.strong_components G).1).2 all_terminals c := rfl
  rw [hterm]
  have hlen : (blockTerminals (env.strong_components G).1
      (env.extract_block G c (env.strong_components G).1).2 all_terminals c).length
      = (terminalsIn (env.strong_components G).1 all_terminals c).length := by
    simp [blockTerminals]
  have hget : ∀ j, j < (terminalsIn (env.strong_components G).1 all_terminals c).length →
      (blockTerminals (env.strong_components G).1
        (env.extract_block G c (env.strong_components G).1).2 all_terminals c).getD j default
      = terminal.mk2 ((env.extract_block G c (env.strong_components G).1).2.getD
          ((terminalsIn (env.strong_components G).1 all_terminals c).getD j 0) 0) j := by
    intro j hj
    have hin : (terminalsIn (env.strong_components G).1 all_terminals c).getD j 0
        = (terminalsIn (env.strong_components G).1 all_terminals c)[j] := by
      rw [List.getD_eq_getElem?_getD, List.getElem?_eq_getElem hj]
      rfl
    rw [hin]
    unfold blockTerminals
    rw [List.getD_eq_getElem?_getD, List.getElem?_map, List.getElem?_enum,
      List.getElem?_eq_getElem hj]
    rfl
  refine ⟨⟨c, hcl, hlen, ?_⟩, ?_, ?_⟩
  · intro j hj
    rw [hget j (by rw [← hlen]; exact hj)]
    rfl
  · intro j hj
    rw [hget j (by rw [← hlen]; exact hj)]
    exact ⟨rfl, rfl⟩
  · apply List.ext_getElem
    · simp
    · intro j h1 h2
      have hj : j < (terminalsIn (env.strong_components G).1 all_terminals c).length := by
        rw [← hlen]; simpa using h1
      have := hget j hj
      rw [List.getD_eq_getElem?_getD, List.getElem?_eq_getElem (by rw [hlen]; exact hj)]
        at this
      simp only [Option.getD_some] at this
      simp only [List.getElem_map, List.getElem_range]
      rw [this]
      rfl

theorem split_terminals_numbered_witness :
    (∀ t, t ∈ [0, 1, 4, 5, 2] →
      ((specEnv 0 64).strong_components twoCliques).1.getD t 0
        < ((specEnv 0 64).strong_components twoCliques).2) ∧
    (splitConnectedComponents (specEnv 0 64) twoCliques [0, 1, 4, 5, 2]).length = 2 ∧
    ∀ p, p ∈ splitConnectedComponents (specEnv 0 64) twoCliques [0, 1, 4, 5, 2] →
      p.terminals.map (fun t => t.original_id) = List.range p.terminals.length :=
  ⟨by decide, by decide,
    fun p hp => ((split_terminals_numbered (specEnv 0 64) twoCliques [0, 1, 4, 5, 2]
      (by decide)) p hp).2.2⟩

/-! ## The flag of the caller in `addProblem` -/

namespace per_thread_problem_queue

theorem clearRunning_idem (sizes : List (Nat × Bool)) (local_id : Nat) :
    clearRunning (clearRunning sizes local_id) local_id = clearRunning sizes local_id := by
  have h : ((clearRunning sizes local_id).getD local_id (0, false)).2 = false := by
    rw [clearRunning_getD]
    simp
  generalize clearRunning sizes local_id = sz at h ⊢
  unfold clearRunning
  rw [h]
  simp

/-- C23: for every scheduler state with one entry per worker and counters below
`2 ^ 64 - 1`, and every caller `local_id`: `addProblem(p, local_id)` behaves as in the
state where the caller's flag is already cleared; after the call the caller's flag is
cleared and every other flag is as before; the index returned is a worker, is either
the first minimum of the scan or the caller, and minimises `len[i] + running[i]`
over all workers `i` with `running[local_id]` taken as 0 and the other flags as they
were before the call. -/
theorem addProblem_clears_caller_then_scans (s : per_thread_problem_queue)
    (p : multicut_problem) (local_id : Nat) (hc : s.Consistent)
    (hid : local_id < s.num_threads)
    (hlen : ∀ i, i < s.num_threads → s.len i + 1 < size_t_mod) :
    s.addProblem p local_id
      = ({ s with sizes := clearRunning s.sizes local_id } : per_thread_problem_queue).addProblem
          p local_id ∧
    (s.addProblem p local_id).2.running local_id = false ∧
    (∀ i, i ≠ local_id → (s.addProblem p local_id).2.running i = s.running i) ∧
    (s.addProblem p local_id).1 < s.num_threads ∧
    ((s.addProblem p local_id).1
        = min_element (fun e1 e2 => decide (load e1 < load e2)) (clearRunning s.sizes local_id) ∨
      (s.addProblem p local_id).1 = local_id) ∧
    (∀ i, i < s.num_threads →
      s.pendingCleared local_id (s.addProblem p local_id).1 ≤ s.pendingCleared local_id i) := by
  have h := addProblem_least s p local_id (by rw [hc.1]; exact hid)
    (by rw [hc.1]; exact hlen)
  rw [hc.1] at h
  refine ⟨?_, ?_, ?_, h.1, ?_, h.2⟩
  · unfold addProblem
    simp only [clearRunning_idem]
  · rw [addProblem_running]
    simp
  · intro i hi
    rw [addProblem_running, if_neg hi]
  · rw [addProblem_fst]
    split
    · exact Or.inr rfl
    · exact Or.inl rfl

theorem addProblem_clears_caller_then_scans_witness :
    afterOnePop.Consistent ∧ afterOnePop.running 0 = true ∧
    (afterOnePop.addProblem default 0).2.running 0 = false ∧
    (afterOnePop.addProblem default 0).1 = 0 :=
  ⟨⟨by decide, by decide⟩, by decide,
    (addProblem_clears_caller_then_scans afterOnePop default 0 ⟨by decide, by decide⟩
      (by decide) (by decide)).2.1,
    by decide⟩

end per_thread_problem_queue

/-! ## The blocks are connected -/

theorem linkedBlock_append (G : mutable_graph) (block : List Nat) (n tgt : Nat)
    (hl : LinkedBlock G block) (hn : n ∈ block) (hadj : G.adjacent n tgt) :
    LinkedBlock G (block ++ [tgt]) := by
  intro i hi0 hi
  simp only [List.length_append, List.length_cons, List.length_nil] at hi
  rcases Nat.lt_succ_iff_lt_or_eq.mp hi with h | h
  · obtain ⟨j, hj, hadj2⟩ := hl i hi0 h
    refine ⟨j, hj, ?_⟩
    rw [List.getD_append _ _ _ _ (by omega), List.getD_append _ _ _ _ h]
    exact hadj2
  · obtain ⟨j, hj, hget⟩ := List.getElem_of_mem hn
    refine ⟨j, by omega, ?_⟩
    rw [List.getD_append _ _ _ _ hj, h, List.getD_append_right _ _ _ _ (le_refl _)]
    simp only [Nat.sub_self, List.getD_cons_zero]
    rw [List.getD_eq_getElem?_getD, List.getElem?_eq_getElem hj, hget]
    exact hadj

theorem bfsVisitEdges_linked (bfs_size : Nat) (G : mutable_graph) (n t : Nat)
    (es : List Nat) :
    ∀ (st : BfsState), (∀ e, e ∈ es → e < G.get_first_invalid_edge n) →
      n ∈ st.block → (∀ q, q ∈ st.bfs_q → q ∈ st.block) → st.block.head? = some t →
      LinkedBlock G st.block →
      (∀ q, q ∈ (bfsVisitEdges bfs_size G n es st).bfs_q →
        q ∈ (bfsVisitEdges bfs_size G n es st).block) ∧
      (bfsVisitEdges bfs_size G n es st).block.head? = some t ∧
      LinkedBlock G (bfsVisitEdges bfs_size G n es st).block := by
  induction es with
  | nil =>
    intro st _ _ hq hh hl
    simp only [bfsVisitEdges]
    exact ⟨hq, hh, hl⟩
  | cons e es ih =>
    intro st hes hn hq hh hl
    have hes2 : ∀ e, e ∈ es → e < G.get_first_invalid_edge n :=
      fun e2 h2 => hes e2 (List.mem_cons_of_mem _ h2)
    have hq1 : ∀ q, q ∈ st.bfs_q ++ [G.getEdgeTarget n e] →
        q ∈ st.block ++ [G.getEdgeTarget n e] := by
      intro q hin
      rcases List.mem_append.mp hin with h | h
      · exact List.mem_append_left _ (hq q h)
      · exact List.mem_append_right _ h
    have hh1 : (st.block ++ [G.getEdgeTarget n e]).head? = some t := by
      cases hb : st.block with
      | nil => rw [hb] at hh; cases hh
      | cons x xs => rw [hb] at hh; simpa using hh
    have hl1 : LinkedBlock G (st.block ++ [G.getEdgeTarget n e]) :=
      linkedBlock_append G st.block n _ hl hn ⟨e, hes e (List.mem_cons_self _ _), rfl⟩
    simp only [bfsVisitEdges]
    split
    · split
      · exact ⟨hq1, hh1, hl1⟩
      · exact ih _ hes2 (List.mem_append_left _ hn) hq1 hh1 hl1
    · exact ih { st with reached := st.reached ++ [G.getEdgeTarget n e] } hes2 hn hq hh hl

theorem bfsWhile_linked (bfs_size : Nat) (G : mutable_graph) (t : Nat) (fuel : Nat) :
    ∀ (st : BfsState), (∀ q, q ∈ st.bfs_q → q ∈ st.block) → st.block.head? = some t →
      LinkedBlock G st.block →
      (bfsWhile bfs_size G fuel st).block.head? = some t ∧
      LinkedBlock G (bfsWhile bfs_size G fuel st).block := by
  induction fuel with
  | zero => intro st _ hh hl; exact ⟨hh, hl⟩
  | succ fuel ih =>
    intro st hq hh hl
    cases hbq : st.bfs_q with
    | nil =>
      simp only [bfsWhile, hbq]
      exact ⟨hh, hl⟩
    | cons n q =>
      simp only [bfsWhile, hbq]
      split
      · have hn : n ∈ st.block := hq n (by rw [hbq]; exact List.mem_cons_self _ _)
        have hq2 : ∀ x, x ∈ q → x ∈ st.block :=
          fun x hx => hq x (by rw [hbq]; exact List.mem_cons_of_mem _ hx)
        have hv := bfsVisitEdges_linked bfs_size G n t (G.edges_of n) { st with bfs_q := q }
          (by
            intro e he
            simpa [mutable_graph.edges_of] using he)
          hn hq2 hh hl
        exact ih _ hv.1 hv.2.1 hv.2.2
      · exact ⟨hh, hl⟩

theorem bfsFrom_linked (bfs_size : Nat) (G : mutable_graph) (flags : List Bool) (t : Nat) :
    (bfsFrom bfs_size G flags t).block.head? = some t ∧
    LinkedBlock G (bfsFrom bfs_size G flags t).block := by
  apply bfsWhile_linked bfs_size G t bfs_size
  · intro q hq
    exact hq
  · rfl
  · intro i hi0 hi
    simp only [List.length_cons, List.length_nil] at hi
    omega

/-- In a linked block every entry is reached from the first one along half-edges
between entries of the block. -/
theorem linkedBlock_connected (G : mutable_graph) (block : List Nat)
    (hl : LinkedBlock G block) :
    ∀ i, i < block.length →
      Relation.ReflTransGen (fun a b => a ∈ block ∧ b ∈ block ∧ G.adjacent a b)
        (block.getD 0 0) (block.getD i 0) := by
  intro i
  induction i using Nat.strong_induction_on with
  | _ i ih =>
    intro hi
    by_cases h0 : i = 0
    · subst h0
      exact Relation.ReflTransGen.refl
    · obtain ⟨j, hj, hadj⟩ := hl i (by omega) hi
      have hmem : ∀ k, k < block.length → block.getD k 0 ∈ block := by
        intro k hk
        rw [List.getD_eq_getElem?_getD, List.getElem?_eq_getElem hk]
        exact List.getElem_mem _
      exact Relation.ReflTransGen.tail (ih j hj (by omega))
        ⟨hmem j (by omega), hmem i hi, hadj⟩

/-- C24: for every graph, terminal list and `bfs_size`, every vertex of a block
built by `addSurroundingAreaToTerminals` other than the first, the block's terminal,
is the target of a half-edge of a vertex that appears earlier in the same block; hence
every vertex of the block is reached from the terminal along half-edges between
vertices of the block. -/
theorem block_vertices_linked_to_terminal (bfs_size : Nat) (G : mutable_graph)
    (terminals : List Nat) (k : Nat) (hk : k < terminals.length) :
    ((buildBlocks bfs_size G terminals).getD k []).getD 0 0 = terminals.getD k 0 ∧
    (∀ i, 0 < i → i < ((buildBlocks bfs_size G terminals).getD k []).length →
      ∃ j, j < i ∧
        G.adjacent (((buildBlocks bfs_size G terminals).getD k []).getD j 0)
          (((buildBlocks bfs_size G terminals).getD k []).getD i 0)) ∧
    (∀ v, v ∈ (buildBlocks bfs_size G terminals).getD k [] →
      Relation.ReflTransGen
        (fun a b => a ∈ (buildBlocks bfs_size G terminals).getD k [] ∧
          b ∈ (buildBlocks bfs_size G terminals).getD k [] ∧ G.adjacent a b)
        (terminals.getD k 0) v) := by
  have h := (searchFold_each bfs_size G
    (fun t st => st.block.head? = some t ∧ LinkedBlock G st.block)
    (fun flags t => bfsFrom_linked bfs_size G flags t) (markTerminals G terminals)
    terminals).2 k hk
  rw [blocks_getD bfs_size G terminals k hk]
  have hb : ((searchAll bfs_size G terminals).2.getD k default).block.head?
      = some (terminals.getD k 0) := h.1
  have hl : LinkedBlock G ((searchAll bfs_size G terminals).2.getD k default).block := h.2
  generalize ((searchAll bfs_size G terminals).2.getD k default).block = block at hb hl
  have h0 : block.getD 0 0 = terminals.getD k 0 := by
    cases block with
    | nil => cases hb
    | cons x xs => simpa using hb
  refine ⟨h0, hl, ?_⟩
  intro v hv
  obtain ⟨i, hi, hget⟩ := List.getElem_of_mem hv
  have hc := linkedBlock_connected G block hl i hi
  have hiv : block.getD i 0 = v := by
    rw [List.getD_eq_getElem?_getD, List.getElem?_eq_getElem hi, hget]
    rfl
  rw [h0, hiv] at hc
  exact hc

theorem block_vertices_linked_to_terminal_witness :
    (0 < [0, 2].length) ∧ (buildBlocks 2 pathOneFive [0, 2]).getD 0 [] = [0, 1] ∧
    ∃ j, j < 1 ∧ pathOneFive.adjacent (((buildBlocks 2 pathOneFive [0, 2]).getD 0 []).getD j 0)
      (((buildBlocks 2 pathOneFive [0, 2]).getD 0 []).getD 1 0) :=
  ⟨by decide, by decide,
    (block_vertices_linked_to_terminal 2 pathOneFive [0, 2] 0 (by decide)).2.1 1
      (by decide) (by decide)⟩

/-! ## The slots the validator reads -/

namespace graph_algorithms

theorem checkEdges_accessed (ew : Nat) (G : mutable_graph) (n : Nat) (es : List Nat) :
    ∀ (weight : Nat) (targets : List Nat) (accessed : List (Nat × Nat)) (x : Nat × Nat),
      x ∈ (checkEdges ew G n es weight targets accessed).2 →
      x ∈ accessed ∨ ∃ e, e ∈ es ∧ x = G.mate (n, e) ∧ G.getEdgeTarget n e < G.n := by
  induction es with
  | nil =>
    intro weight targets accessed x hx
    exact Or.inl hx
  | cons e es ih =>
    intro weight targets accessed x hx
    have hnew : x ∈ accessed ++ [(G.getEdgeTarget n e, G.getReverseEdge n e)] →
        G.getEdgeTarget n e < G.n →
        x ∈ accessed ∨ ∃ e2, e2 ∈ e :: es ∧ x = G.mate (n, e2) ∧ G.getEdgeTarget n e2 < G.n := by
      intro hm hlt
      rw [List.mem_append, List.mem_singleton] at hm
      cases hm with
      | inl h => exact Or.inl h
      | inr h => exact Or.inr ⟨e, List.mem_cons_self _ _, h, hlt⟩
    simp only [checkEdges] at hx
    by_cases h1 : G.getEdgeTarget n e ∈ targets
    · rw [if_pos h1] at hx
      exact Or.inl hx
    rw [if_neg h1] at hx
    by_cases h2 : G.getEdgeTarget n e = n
    · rw [if_pos h2] at hx
      exact Or.inl hx
    rw [if_neg h2] at hx
    by_cases h3 : G.getEdgeTarget n e ≥ G.n
    · rw [if_pos h3] at hx
      exact Or.inl hx
    rw [if_neg h3] at hx
    have h3b : G.getEdgeTarget n e < G.n := by omega
    by_cases h4 : G.getEdgeTarget (G.getEdgeTarget n e) (G.getReverseEdge n e) ≠ n
    · rw [if_pos h4] at hx
      exact hnew hx h3b
    rw [if_neg h4] at hx
    by_cases h5 : G.getEdgeWeight (G.getEdgeTarget n e) (G.getReverseEdge n e)
        ≠ G.getEdgeWeight n e
    · rw [if_pos h5] at hx
      exact hnew hx h3b
    rw [if_neg h5] at hx
    by_cases h6 : G.getReverseEdge (G.getEdgeTarget n e) (G.getReverseEdge n e) ≠ e
    · rw [if_pos h6] at hx
      exact hnew hx h3b
    rw [if_neg h6] at hx
    cases ih _ _ _ x hx with
    | inl h => exact hnew h h3b
    | inr h =>
      obtain ⟨e2, he2, hx2, hlt2⟩ := h
      exact Or.inr ⟨e2, List.mem_cons_of_mem _ he2, hx2, hlt2⟩

theorem checkNode_accessed (ew : Nat) (G : mutable_graph) (n edges : Nat)
    (accessed : List (Nat × Nat)) (x : Nat × Nat)
    (hx : x ∈ (checkNode ew G n edges accessed).2) :
    x ∈ accessed ∨ ∃ e, e < G.get_first_invalid_edge n ∧ x = G.mate (n, e) ∧
      G.getEdgeTarget n e < G.n := by
  have hres : x ∈ (checkEdges ew G n (G.edges_of n) 0 [] accessed).2 →
      x ∈ accessed ∨ ∃ e, e < G.get_first_invalid_edge n ∧ x = G.mate (n, e) ∧
        G.getEdgeTarget n e < G.n := by
    intro h
    cases checkEdges_accessed ew G n _ _ _ _ x h with
    | inl h2 => exact Or.inl h2
    | inr h2 =>
      obtain ⟨e, he, hx2, hlt⟩ := h2
      exact Or.inr ⟨e, by simpa [mutable_graph.edges_of] using he, hx2, hlt⟩
  unfold checkNode at hx
  cases hc : checkContained G n (G.containedVertices n) with
  | error f =>
    rw [hc] at hx
    exact Or.inl hx
  | ok u =>
    rw [hc] at hx
    simp only at hx
    cases he : (checkEdges ew G n (G.edges_of n) 0 [] accessed).1 with
    | error f =>
      rw [he] at hx
      exact hres hx
    | ok weight =>
      rw [he] at hx
      simp only at hx
      split at hx
      · exact hres hx
      · exact hres hx

theorem checkNodes_accessed (ew : Nat) (G : mutable_graph) (ns : List Nat) :
    ∀ (edges : Nat) (accessed : List (Nat × Nat)) (x : Nat × Nat),
      x ∈ (checkNodes ew G ns edges accessed).2 →
      x ∈ accessed ∨ ∃ n, n ∈ ns ∧ ∃ e, e < G.get_first_invalid_edge n ∧
        x = G.mate (n, e) ∧ G.getEdgeTarget n e < G.n := by
  induction ns with
  | nil =>
    intro edges accessed x hx
    exact Or.inl hx
  | cons n ns ih =>
    intro edges accessed x hx
    have hres : x ∈ (checkNode ew G n edges accessed).2 →
        x ∈ accessed ∨ ∃ n2, n2 ∈ n :: ns ∧ ∃ e, e < G.get_first_invalid_edge n2 ∧
          x = G.mate (n2, e) ∧ G.getEdgeTarget n2 e < G.n := by
      intro h
      cases checkNode_accessed ew G n edges accessed x h with
      | inl h2 => exact Or.inl h2
      | inr h2 => exact Or.inr ⟨n, List.mem_cons_self _ _, h2⟩
    simp only [checkNodes] at hx
    cases hn : (checkNode ew G n edges accessed).1 with
    | error f =>
      rw [hn] at hx
      exact hres hx
    | ok e1 =>
      rw [hn] at hx
      simp only at hx
      cases ih _ _ x hx with
      | inl h => exact hres h
      | inr h =>
        obtain ⟨n2, hn2, h2⟩ := h
        exact Or.inr ⟨n2, List.mem_cons_of_mem _ hn2, h2⟩

/-- Every slot on which the validator calls the accessors of a target node is the
pair `(tgt, rev)` of a half-edge of the graph whose target is a node: the first
index of the access is always in range. -/
theorem checkGraphValidity_accessed (ew : Nat) (G : mutable_graph) (x : Nat × Nat)
    (hx : x ∈ (checkGraphValidity ew G).2) :
    ∃ n, n < G.n ∧ ∃ e, e < G.get_first_invalid_edge n ∧ x = G.mate (n, e) ∧ x.1 < G.n := by
  have hx2 : x ∈ (checkNodes ew G G.nodes 0 []).2 := by
    unfold checkGraphValidity at hx
    cases hn : (checkNodes ew G G.nodes 0 []).1 with
    | error f =>
      rw [hn] at hx
      exact hx
    | ok edges =>
      rw [hn] at hx
      simp only at hx
      split at hx
      · exact hx
      · exact hx
  cases checkNodes_accessed ew G G.nodes 0 [] x hx2 with
  | inl h => cases h
  | inr h =>
    obtain ⟨n, hn, e, he, hxe, hlt⟩ := h
    refine ⟨n, by simpa [mutable_graph.nodes] using hn, e, he, hxe, ?_⟩
    rw [hxe]
    exact hlt

/-- When every reverse index of a half-edge with a target in range is a slot of
that target, every slot the validator reads exists. -/
theorem checkGraphValidity_accessed_exists (ew : Nat) (G : mutable_graph)
    (hrev : ReverseInRange G) (x : Nat × Nat) (hx : x ∈ (checkGraphValidity ew G).2) :
    x.1 < G.n ∧ x.2 < G.get_first_invalid_edge x.1 := by
  obtain ⟨n, hn, e, he, hxe, hlt⟩ := checkGraphValidity_accessed ew G x hx
  refine ⟨hlt, ?_⟩
  rw [hxe] at hlt ⊢
  exact hrev n hn e he hlt

/-- C27 at its failing input: node 0 of `danglingReverse` has one half-edge, with
target 1 and reverse index 5, and node 1 has no half-edge.  The validator finds
`tgt = 1 < n() = 2` and then calls `getEdgeTarget(1, 5)`, `getEdgeWeight(1, 5)` and
`getReverseEdge(1, 5)` although node 1 has 0 half-edges: the one slot it accesses
does not exist, and 5 is not smaller than the number of half-edges of node 1.  On
the zeros these reads return here the three comparisons pass, and the run reaches
its end. -/
theorem checkGraphValidity_unchecked_reverse_index :
    (checkGraphValidity 64 danglingReverse).2 = [(1, 5)] ∧
    danglingReverse.getEdgeTarget 0 0 = 1 ∧ danglingReverse.getEdgeTarget 0 0 < danglingReverse.n ∧
    danglingReverse.getReverseEdge 0 0 = 5 ∧ danglingReverse.get_first_invalid_edge 1 = 0 ∧
    ¬ (5 < danglingReverse.get_first_invalid_edge 1) ∧
    danglingReverse.slot? 1 5 = none ∧
    (danglingReverse.getEdgeTarget 1 5 = 0 ∧
      danglingReverse.getEdgeWeight 1 5 = danglingReverse.getEdgeWeight 0 0 ∧
      danglingReverse.getReverseEdge 1 5 = 0) ∧
    (checkGraphValidity 64 danglingReverse).1 = .ok () :=
  ⟨rfl, rfl, by decide, rfl, rfl, by decide, rfl, ⟨rfl, rfl, rfl⟩, rfl⟩

end graph_algorithms

/-! ## Accepted graphs: the reverse indices pair the half-edges -/

theorem mem_halfEdgeList (G : mutable_graph) (x : Nat × Nat) :
    x ∈ G.halfEdgeList ↔ x.1 < G.n ∧ x.2 < G.get_first_invalid_edge x.1 := by
  unfold mutable_graph.halfEdgeList mutable_graph.nodes mutable_graph.edges_of
  simp only [List.mem_flatMap, List.mem_range, List.mem_map]
  constructor
  · rintro ⟨u, hu, e, he, rfl⟩
    exact ⟨hu, he⟩
  · rintro ⟨h1, h2⟩
    exact ⟨x.1, h1, x.2, h2, rfl⟩

theorem halfEdgeList_nodup (G : mutable_graph) : G.halfEdgeList.Nodup := by
  unfold mutable_graph.halfEdgeList mutable_graph.nodes mutable_graph.edges_of
  rw [List.nodup_flatMap]
  constructor
  · intro u _
    apply List.Nodup.map
    · intro a b hab
      exact (Prod.mk.inj hab).2
    · exact List.nodup_range _
  · apply List.Pairwise.imp _ (List.nodup_range _)
    intro a b hab
    simp only [Function.onFun]
    rw [List.disjoint_left]
    intro x hxa hxb
    rw [List.mem_map] at hxa hxb
    obtain ⟨e1, -, rfl⟩ := hxa
    obtain ⟨e2, -, h2⟩ := hxb
    exact hab (Prod.mk.inj h2).1.symm

theorem sum_halfEdgeList (G : mutable_graph) (f : Nat × Nat → Nat) :
    (G.halfEdgeList.map f).sum
      = (G.nodes.map (fun u => ((G.edges_of u).map (fun e => f (u, e))).sum)).sum := by
  unfold mutable_graph.halfEdgeList
  rw [sum_map_flatMap]
  simp only [List.map_map]
  rfl

theorem sum_edge_weights (G : mutable_graph) (n : Nat) :
    ((G.edges_of n).map (fun e => G.getEdgeWeight n e)).sum
      = ((G.halfEdges n).map (fun h => h.weight)).sum := by
  have := congrArg (List.map (fun (h : HalfEdge) => h.weight))
    (map_getD_range (G.halfEdges n) default)
  rw [List.map_map] at this
  exact congrArg List.sum this

theorem list_sum_mod (l : List Nat) (m : Nat) :
    (l.map (fun x => x % m)).sum % m = l.sum % m := by
  induction l with
  | nil => rfl
  | cons x xs ih =>
    rw [List.map_cons, List.sum_cons, List.sum_cons, Nat.add_mod, ih, Nat.mod_mod,
      ← Nat.add_mod]

namespace graph_algorithms

/-- What paired half-edges at every node give for each half-edge: the paired
half-edge exists, is paired back, lies at another node and has the same weight. -/
theorem edgesPaired_mate (ew : Nat) (G : mutable_graph)
    (hall : ∀ n, n < G.n → EdgesPaired ew G n) (x : Nat × Nat) (hx : x ∈ G.halfEdgeList) :
    G.mate x ∈ G.halfEdgeList ∧ G.mate (G.mate x) = x ∧ (G.mate x).1 ≠ x.1 ∧
    G.getEdgeWeight (G.mate x).1 (G.mate x).2 = G.getEdgeWeight x.1 x.2 := by
  obtain ⟨hu, he⟩ := (mem_halfEdgeList G x).mp hx
  obtain ⟨hne, hlt, hslot⟩ := (hall x.1 hu).2.1 x.2 he
  unfold mutable_graph.slot? at hslot
  have hr : G.getReverseEdge x.1 x.2 < (G.halfEdges (G.getEdgeTarget x.1 x.2)).length := by
    by_contra hcon
    rw [List.getElem?_eq_none (by omega)] at hslot
    cases hslot
  have hget : (G.halfEdges (G.getEdgeTarget x.1 x.2)).getD (G.getReverseEdge x.1 x.2) default
      = { target := x.1, weight := G.getEdgeWeight x.1 x.2, reverse := x.2 } := by
    rw [List.getD_eq_getElem?_getD, hslot]
    rfl
  refine ⟨?_, ?_, hne, ?_⟩
  · rw [mem_halfEdgeList]
    exact ⟨hlt, hr⟩
  · unfold mutable_graph.mate
    simp only [mutable_graph.getEdgeTarget, mutable_graph.getReverseEdge] at hget ⊢
    rw [hget]
  · unfold mutable_graph.mate
    simp only [mutable_graph.getEdgeTarget, mutable_graph.getReverseEdge,
      mutable_graph.getEdgeWeight] at hget ⊢
    rw [hget]

/-- On a graph with paired half-edges a sum over the half-edges of a quantity that paired
half-edges share is twice the sum over the half-edges leaving the smaller end. -/
theorem paired_sum_twice (ew : Nat) (G : mutable_graph)
    (hall : ∀ n, n < G.n → EdgesPaired ew G n) (c : Nat × Nat → Nat)
    (hc : ∀ x, x ∈ G.halfEdgeList → c (G.mate x) = c x) :
    (G.halfEdgeList.map c).sum
      = 2 * (G.halfEdgeList.map (fun x =>
          if x.1 < G.getEdgeTarget x.1 x.2 then c x else 0)).sum := by
  have h := sum_involution_half G.halfEdgeList (halfEdgeList_nodup G) G.mate
    (fun x => decide (x.1 < G.getEdgeTarget x.1 x.2)) c
    (by
      intro x hx
      obtain ⟨h1, h2, h3, -⟩ := edgesPaired_mate ew G hall x hx
      refine ⟨h1, h2, ?_, hc x hx⟩
      have h4 : G.getEdgeTarget (G.mate x).1 (G.mate x).2 = x.1 :=
        congrArg Prod.fst h2
      show decide ((G.mate x).1 < G.getEdgeTarget (G.mate x).1 (G.mate x).2)
        = !decide (x.1 < G.getEdgeTarget x.1 x.2)
      rw [h4]
      have h5 : (G.mate x).1 = G.getEdgeTarget x.1 x.2 := rfl
      rw [h5] at h3 ⊢
      by_cases hlt : x.1 < G.getEdgeTarget x.1 x.2
      · have : ¬ G.getEdgeTarget x.1 x.2 < x.1 := by omega
        simp [hlt, this]
      · have : G.getEdgeTarget x.1 x.2 < x.1 := by omega
        simp [hlt, this])
  rw [h]
  simp only [decide_eq_true_eq]

theorem paired_degrees (ew : Nat) (G : mutable_graph)
    (hall : ∀ n, n < G.n → EdgesPaired ew G n) :
    G.nodes.map (fun n => G.getWeightedNodeDegree n)
      = (G.nodes.map (fun n => ((G.edges_of n).map (fun e => G.getEdgeWeight n e)).sum)).map
          (fun x => x % 2 ^ ew) := by
  rw [List.map_map]
  apply List.map_congr_left
  intro n hn
  have hlt : n < G.n := by simpa [mutable_graph.nodes] using hn
  simp only [Function.comp]
  rw [sum_edge_weights]
  exact ((hall n hlt).2.2).symm

/-- On every graph on which `checkGraphValidity` reaches its end and whose reverse
indices are slots of their targets, the map sending a half-edge `(u, e)` to
`(target(u, e), reverse(u, e))` maps half-edges to half-edges, is its own inverse and
has no fixed point; the number of half-edges is twice the number of undirected edges
and `m()` is even; the sum of the weighted node degrees is twice the total weight of
the undirected edges as an `EdgeWeight` value, and as a number when no node's
weights add up to `2 ^ ew` or more. -/
theorem accepted_in_range_pairs_half_edges (ew : Nat) (G : mutable_graph)
    (hok : (checkGraphValidity ew G).1 = .ok ()) (hrev : ReverseInRange G) :
    (∀ x, x ∈ G.halfEdgeList →
      G.mate x ∈ G.halfEdgeList ∧ G.mate (G.mate x) = x ∧ G.mate x ≠ x) ∧
    G.halfEdgeList.length = 2 * G.undirectedCount ∧
    Even G.m ∧
    (G.nodes.map (fun n => G.getWeightedNodeDegree n)).sum % 2 ^ ew
      = (2 * G.undirectedWeight) % 2 ^ ew ∧
    ((∀ n, n < G.n → ((G.halfEdges n).map (fun h => h.weight)).sum < 2 ^ ew) →
      (G.nodes.map (fun n => G.getWeightedNodeDegree n)).sum = 2 * G.undirectedWeight) := by
  obtain ⟨hchecks, hm⟩ := (checkGraphValidity_ok ew G).mp hok
  have hall : ∀ n, n < G.n → EdgesPaired ew G n :=
    fun n hn => nodeChecks_edgesPaired ew G n (hchecks n hn) (hrev n hn)
  have hlen : G.halfEdgeList.length = 2 * G.undirectedCount := by
    have h := paired_sum_twice ew G hall (fun _ => 1) (fun _ _ => rfl)
    simp only [List.map_const', List.sum_replicate, smul_eq_mul, Nat.mul_one] at h
    exact h
  have hcount : (G.nodes.map (fun n => G.get_first_invalid_edge n)).sum
      = G.halfEdgeList.length := by
    have h := sum_halfEdgeList G (fun _ => 1)
    simp only [List.map_const', List.sum_replicate, smul_eq_mul, Nat.mul_one] at h
    rw [h]
    apply congrArg
    apply List.map_congr_left
    intro n _
    simp [mutable_graph.edges_of]
  have htotal : (G.nodes.map (fun n =>
      ((G.edges_of n).map (fun e => G.getEdgeWeight n e)).sum)).sum
      = 2 * G.undirectedWeight := by
    rw [← sum_halfEdgeList G (fun x => G.getEdgeWeight x.1 x.2)]
    exact paired_sum_twice ew G hall (fun x => G.getEdgeWeight x.1 x.2)
      (fun x hx => (edgesPaired_mate ew G hall x hx).2.2.2)
  refine ⟨?_, hlen, ?_, ?_, ?_⟩
  · intro x hx
    obtain ⟨h1, h2, h3, -⟩ := edgesPaired_mate ew G hall x hx
    exact ⟨h1, h2, fun h => h3 (congrArg Prod.fst h)⟩
  · rw [← hm, hcount, hlen]
    have h64 : size_t_mod = 2 * 9223372036854775808 := by
      unfold size_t_mod
      norm_num
    rw [h64, Nat.mul_mod_mul_left]
    exact even_two_mul _
  · rw [paired_degrees ew G hall, list_sum_mod, htotal]
  · intro hw
    rw [← htotal]
    apply congrArg
    apply List.map_congr_left
    intro n hn
    have hlt : n < G.n := by simpa [mutable_graph.nodes] using hn
    have h4 := (hall n hlt).2.2
    rw [Nat.mod_eq_of_lt (hw n hlt)] at h4
    rw [sum_edge_weights]
    exact h4.symm

/-- The two cliques joined by an edge are accepted with every reverse index in
range: their 24 half-edges are paired. -/
theorem twoCliques_pairs_half_edges :
    (checkGraphValidity 64 twoCliques).1 = .ok () ∧ twoCliques.m = 24 ∧ Even twoCliques.m ∧
    twoCliques.halfEdgeList.length = 2 * twoCliques.undirectedCount :=
  ⟨rfl, by decide,
    (accepted_in_range_pairs_half_edges 64 twoCliques rfl (by unfold ReverseInRange; decide)).2.2.1,
    (accepted_in_range_pairs_half_edges 64 twoCliques rfl (by unfold ReverseInRange; decide)).2.1⟩

/-- C26 at its failing input: `checkGraphValidity` ends without aborting on
`danglingReverse`, whose half-edge `(0, 0)` is sent to `(1, 5)`, which is not a
half-edge of the graph; the map is not an involution on the half-edges, and
`m() = 1` is odd. -/
theorem checkGraphValidity_accepts_unpaired_half_edge :
    (checkGraphValidity 64 danglingReverse).1 = .ok () ∧
    (0, 0) ∈ danglingReverse.halfEdgeList ∧
    danglingReverse.mate (0, 0) = (1, 5) ∧
    danglingReverse.mate (0, 0) ∉ danglingReverse.halfEdgeList ∧
    danglingReverse.m = 1 ∧ ¬ Even danglingReverse.m :=
  ⟨rfl, by decide, rfl, by decide, rfl, by decide⟩

end graph_algorithms

/-! ## `top_k_degrees` -/

theorem map_range'_getD_eq_drop {α β : Type} (f : α → β) (l : List α) (d : α) (s : Nat) :
    (List.range' s (l.length - s)).map (fun i => f (l.getD i d)) = (l.drop s).map f := by
  apply List.ext_getElem
  · simp
  · intro i h1 h2
    have hi : i < l.length - s := by simpa using h1
    simp only [List.getElem_map, List.getElem_range', List.getElem_drop, Nat.one_mul]
    rw [List.getD_eq_getElem?_getD, List.getElem?_eq_getElem (by omega)]
    rfl

namespace graph_algorithms

/-- C28: for every mutable graph with `n` nodes and every `k ≤ n`, when
`std::nth_element` keeps its promise on the call made, `top_k_degrees(G, k)` returns
exactly `k` pairwise distinct nodes of `G`, and every returned node has a weighted
degree greater than or equal to that of every node that is not returned. -/
theorem top_k_degrees_largest
    (nth_element : (Nat × Nat → Nat × Nat → Bool) → List (Nat × Nat) → Nat → List (Nat × Nat))
    (G : mutable_graph) (k : Nat) (hk : k ≤ G.n)
    (hpost : NthElementPost (fun (a1 a2 : Nat × Nat) => decide (a1.2 < a2.2))
      (G.nodes.map (fun n => (n, G.getWeightedNodeDegree n))) (G.n - k)
      (nth_element (fun a1 a2 => decide (a1.2 < a2.2))
        (G.nodes.map (fun n => (n, G.getWeightedNodeDegree n))) (G.n - k))) :
    ∃ out, top_k_degrees nth_element G k = some out ∧ out.length = k ∧ out.Nodup ∧
      (∀ v, v ∈ out → v < G.n) ∧
      (∀ v, v ∈ out → ∀ u, u < G.n → u ∉ out →
        G.getWeightedNodeDegree u ≤ G.getWeightedNodeDegree v) := by
  obtain ⟨hperm, hpart⟩ := hpost
  generalize hall : G.nodes.map (fun n => (n, G.getWeightedNodeDegree n)) = all at hperm hpart
  generalize harr : nth_element (fun a1 a2 => decide (a1.2 < a2.2)) all (G.n - k) = arr
    at hperm hpart
  have hlenall : all.length = G.n := by
    rw [← hall]
    simp [mutable_graph.nodes]
  have hlen : arr.length = G.n := by rw [hperm.length_eq, hlenall]
  have hmemall : ∀ x, x ∈ all ↔ x.1 < G.n ∧ x.2 = G.getWeightedNodeDegree x.1 := by
    intro x
    rw [← hall]
    simp only [List.mem_map, mutable_graph.nodes, List.mem_range]
    constructor
    · rintro ⟨a, ha, rfl⟩
      exact ⟨ha, rfl⟩
    · rintro ⟨h1, h2⟩
      exact ⟨x.1, h1, by rw [← h2]⟩
  have hfst : (arr.map Prod.fst).Perm (List.range G.n) := by
    have h1 := hperm.map Prod.fst
    have h2 : all.map Prod.fst = List.range G.n := by
      rw [← hall, List.map_map]
      have hid : (Prod.fst ∘ fun n => (n, G.getWeightedNodeDegree n)) = id := rfl
      rw [hid, List.map_id]
      rfl
    rw [h2] at h1
    exact h1
  have hout : top_k_degrees nth_element G k = some ((arr.drop (G.n - k)).map Prod.fst) := by
    unfold top_k_degrees find_top_k
    rw [hall, if_pos (by rw [hlenall]; exact hk), hlenall, harr]
    have := map_range'_getD_eq_drop Prod.fst arr default (G.n - k)
    rw [hlen] at this
    show some ((List.range' (arr.length - k) (arr.length - (arr.length - k))).map
      (fun i => (arr.getD i default).1)) = _
    rw [hlen, this]
  refine ⟨_, hout, ?_, ?_, ?_, ?_⟩
  · simp only [List.length_map, List.length_drop, hlen]
    omega
  · rw [List.map_drop]
    exact List.Nodup.sublist (List.drop_sublist _ _)
      ((List.Perm.nodup_iff hfst).mpr (List.nodup_range _))
  · intro v hv
    rw [List.map_drop] at hv
    have h1 : v ∈ arr.map Prod.fst := List.mem_of_mem_drop hv
    have h2 := (List.Perm.mem_iff hfst).mp h1
    simpa using h2
  · intro v hv u hu hnot
    rw [List.mem_map] at hv
    obtain ⟨y, hy, rfl⟩ := hv
    obtain ⟨j0, hj0, hyget⟩ := List.getElem_of_mem hy
    have hj0' : j0 < arr.length - (G.n - k) := by simpa using hj0
    rw [List.getElem_drop] at hyget
    have hyall := (hmemall y).mp ((List.Perm.mem_iff hperm).mp (List.mem_of_mem_drop hy))
    have hux : (u, G.getWeightedNodeDegree u) ∈ arr :=
      (List.Perm.mem_iff hperm).mpr ((hmemall _).mpr ⟨hu, rfl⟩)
    obtain ⟨i, hi, higet⟩ := List.getElem_of_mem hux
    have hilt : i < G.n - k := by
      by_contra hcon
      apply hnot
      rw [List.mem_map]
      refine ⟨(u, G.getWeightedNodeDegree u), ?_, rfl⟩
      rw [List.mem_iff_getElem]
      refine ⟨i - (G.n - k), by simp only [List.length_drop]; omega, ?_⟩
      rw [List.getElem_drop]
      have : G.n - k + (i - (G.n - k)) = i := by omega
      simp only [this]
      exact higet
    have hcmp := hpart i hilt (G.n - k + j0) (by omega) (by omega)
    rw [List.getD_eq_getElem?_getD, List.getD_eq_getElem?_getD,
      List.getElem?_eq_getElem hi, List.getElem?_eq_getElem (by omega)] at hcmp
    simp only [Option.getD_some, higet, hyget, decide_eq_false_iff_not, not_lt] at hcmp
    rw [hyall.2] at hcmp
    exact hcmp

theorem top_k_degrees_largest_witness :
    (2 ≤ pathOneFive.n) ∧
    top_k_degrees nth_element_by_sorting pathOneFive 2 = some [2, 1] ∧
    ∃ out, top_k_degrees nth_element_by_sorting pathOneFive 2 = some out ∧ out.length = 2 ∧
      out.Nodup ∧ (∀ v, v ∈ out → v < pathOneFive.n) ∧
      (∀ v, v ∈ out → ∀ u, u < pathOneFive.n → u ∉ out →
        pathOneFive.getWeightedNodeDegree u ≤ pathOneFive.getWeightedNodeDegree v) :=
  ⟨by decide, by decide,
    top_k_degrees_largest nth_element_by_sorting pathOneFive 2 (by decide)
      (by unfold NthElementPost; decide)⟩

end graph_algorithms

/-! ## Cuts of the path -/

theorem pathGraph_valid_ten :
    (graph_algorithms.checkGraphValidity 64 (pathGraph 10 1)).1 = .ok () :=
  rfl

theorem pathGraph_three (w : Nat) :
    (pathGraph 3 w).adjacency = (graphOfEdges 3 [(0, 1, w), (1, 2, w)]).adjacency := by
  rfl

theorem pathGraph_n (length w : Nat) : (pathGraph length w).n = length := by
  simp [pathGraph, mutable_graph.n]

theorem pathGraph_halfEdges (length w v : Nat) (hv : v < length) :
    (pathGraph length w).halfEdges v
      = (if 0 < v then
            [({ target := v - 1, weight := w, reverse := if v = 1 then 0 else 1 } : HalfEdge)]
          else [])
        ++ (if v + 1 < length then [{ target := v + 1, weight := w, reverse := 0 }] else []) := by
  unfold mutable_graph.halfEdges pathGraph
  simp only
  rw [getD_map_range _ _ _ _ hv]

theorem pathGraph_targets (length w : Nat) :
    ∀ v, v < (pathGraph length w).n → ∀ he, he ∈ (pathGraph length w).halfEdges v →
      he.target < (pathGraph length w).n := by
  intro v hv he hhe
  rw [pathGraph_n] at hv ⊢
  rw [pathGraph_halfEdges length w v hv] at hhe
  rcases List.mem_append.mp hhe with h | h
  · split at h
    · rw [List.mem_singleton] at h
      rw [h]
      simp only
      omega
    · cases h
  · split at h
    · rw [List.mem_singleton] at h
      rw [h]
      simp only
      omega
    · cases h

/-- The weight a labelling cuts on the path, node by node. -/
theorem cutWeight_pathGraph (length w : Nat) (label : List Nat) :
    cutWeight (pathGraph length w) label
      = ((List.range length).map (fun v =>
          (if 0 < v ∧ labelOf label v < labelOf label (v - 1) then w else 0)
          + (if v + 1 < length ∧ labelOf label v < labelOf label (v + 1) then w else 0))).sum := by
  unfold cutWeight
  rw [show (pathGraph length w).nodes = List.range length from by
    unfold mutable_graph.nodes; rw [pathGraph_n]]
  apply congrArg
  apply List.map_congr_left
  intro v hv
  rw [List.mem_range] at hv
  rw [pathGraph_halfEdges length w v hv, List.map_append, List.sum_append]
  congr 1
  · by_cases h0 : 0 < v
    · simp only [h0, if_true, true_and, List.map_cons, List.map_nil, List.sum_cons,
        List.sum_nil, Nat.add_zero]
    · simp [h0]
  · by_cases h1 : v + 1 < length
    · simp only [h1, if_true, true_and, List.map_cons, List.map_nil, List.sum_cons,
        List.sum_nil, Nat.add_zero]
    · simp [h1]

theorem exists_step_of_ne (f : Nat → Nat) (a : Nat) :
    ∀ b, a ≤ b → f a ≠ f b → ∃ v, a ≤ v ∧ v < b ∧ f v ≠ f (v + 1) := by
  intro b
  induction b with
  | zero =>
    intro hab hne
    have : a = 0 := by omega
    subst this
    exact absurd rfl hne
  | succ b ih =>
    intro hab hne
    by_cases hb : f b = f (b + 1)
    · by_cases hab2 : a ≤ b
      · obtain ⟨v, h1, h2, h3⟩ := ih hab2 (by rw [hb]; exact hne)
        exact ⟨v, h1, by omega, h3⟩
      · have : a = b + 1 := by omega
        subst this
        exact absurd rfl hne
    · by_cases hab2 : a ≤ b
      · exact ⟨b, hab2, by omega, hb⟩
      · have : a = b + 1 := by omega
        subst this
        exact absurd rfl hne

theorem le_sum_map_of_mem (f : Nat → Nat) (l : List Nat) (v : Nat) (hv : v ∈ l) :
    f v ≤ (l.map f).sum := by
  induction l with
  | nil => cases hv
  | cons x xs ih =>
    rw [List.map_cons, List.sum_cons]
    rcases List.mem_cons.mp hv with h | h
    · rw [h]
      omega
    · have := ih h
      omega

/-- Every labelling of the path that gives two vertices different labels cuts at
least one edge. -/
theorem cutWeight_pathGraph_ge (length w : Nat) (label : List Nat) (a b : Nat)
    (ha : a < length) (hb : b < length) (hne : labelOf label a ≠ labelOf label b) :
    w ≤ cutWeight (pathGraph length w) label := by
  have hstep : ∃ v, v + 1 < length ∧ labelOf label v ≠ labelOf label (v + 1) := by
    rcases Nat.le_total a b with h | h
    · obtain ⟨v, -, h2, h3⟩ := exists_step_of_ne (labelOf label) a b h hne
      exact ⟨v, by omega, h3⟩
    · obtain ⟨v, -, h2, h3⟩ := exists_step_of_ne (labelOf label) b a h (Ne.symm hne)
      exact ⟨v, by omega, h3⟩
  obtain ⟨v, hv, hvne⟩ := hstep
  rw [cutWeight_pathGraph]
  rcases Nat.lt_or_gt_of_ne hvne with h | h
  · have h1 := le_sum_map_of_mem (fun v =>
      (if 0 < v ∧ labelOf label v < labelOf label (v - 1) then w else 0)
      + (if v + 1 < length ∧ labelOf label v < labelOf label (v + 1) then w else 0))
      (List.range length) v (List.mem_range.mpr (by omega))
    simp only [hv, h, and_self, if_true] at h1
    omega
  · have h1 := le_sum_map_of_mem (fun v =>
      (if 0 < v ∧ labelOf label v < labelOf label (v - 1) then w else 0)
      + (if v + 1 < length ∧ labelOf label v < labelOf label (v + 1) then w else 0))
      (List.range length) (v + 1) (List.mem_range.mpr hv)
    simp only [Nat.add_sub_cancel, Nat.zero_lt_succ, true_and] at h1
    rw [if_pos h] at h1
    omega

/-- A labelling of the path with side 0 on `0 .. j` and side 1 beyond cuts exactly
the edge between `j` and `j + 1`. -/
theorem cutWeight_pathGraph_split (length w j : Nat) (label : List Nat)
    (hj : j + 1 < length)
    (hlab : ∀ v, v < length → labelOf label v = if v ≤ j then 0 else 1) :
    cutWeight (pathGraph length w) label = w := by
  rw [cutWeight_pathGraph]
  have hterm : ∀ v, v ∈ List.range length →
      (if 0 < v ∧ labelOf label v < labelOf label (v - 1) then w else 0)
        + (if v + 1 < length ∧ labelOf label v < labelOf label (v + 1) then w else 0)
      = if j = v then w else 0 := by
    intro v hv
    rw [List.mem_range] at hv
    have h1 : ¬ (0 < v ∧ labelOf label v < labelOf label (v - 1)) := by
      rintro ⟨h0, hlt⟩
      rw [hlab v hv, hlab (v - 1) (by omega)] at hlt
      split_ifs at hlt <;> omega
    rw [if_neg h1, Nat.zero_add]
    by_cases hjv : j = v
    · subst hjv
      rw [if_pos rfl, if_pos]
      refine ⟨hj, ?_⟩
      rw [hlab j hv, hlab (j + 1) hj]
      simp
    · rw [if_neg hjv, if_neg]
      rintro ⟨h2, hlt⟩
      rw [hlab v hv, hlab (v + 1) h2] at hlt
      split_ifs at hlt <;> omega
  rw [List.map_congr_left hterm, sum_range_ite_eq, if_pos (by omega)]

theorem labelOf_prefixLabel (length j v : Nat) (hv : v < length) :
    labelOf (prefixLabel length j) v = if v ≤ j then 0 else 1 := by
  unfold labelOf prefixLabel
  rw [getD_map_range _ _ _ _ hv]

theorem feasible_prefixLabel (length w : Nat) (hl : 2 ≤ length) :
    feasible (pathGraph length w) [0, length - 1] (prefixLabel length 0) := by
  refine ⟨?_, ?_, ?_⟩
  · rw [pathGraph_n]
    simp [prefixLabel]
  · intro x hx
    unfold prefixLabel at hx
    rw [List.mem_map] at hx
    obtain ⟨v, -, rfl⟩ := hx
    split <;> simp
  · rw [separates_iff]
    intro i hi
    simp only [List.length_cons, List.length_nil] at hi
    have hcases : i = 0 ∨ i = 1 := by omega
    rcases hcases with h | h
    · subst h
      simp only [List.getD_cons_zero]
      rw [labelOf_prefixLabel length 0 0 (by omega)]
      simp
    · subst h
      simp only [List.getD_cons_succ, List.getD_cons_zero]
      rw [labelOf_prefixLabel length 0 (length - 1) (by omega), if_neg (by omega)]

/-- The optimum multiway cut of the path for its two end vertices is the weight of
one edge. -/
theorem optimum_pathGraph (length w : Nat) (hl : 2 ≤ length) :
    optimum (pathGraph length w) [0, length - 1] = some w := by
  rw [optimum_eq_some_iff]
  constructor
  · exact ⟨prefixLabel length 0, feasible_prefixLabel length w hl,
      cutWeight_pathGraph_split length w 0 _ (by omega)
        (fun v hv => labelOf_prefixLabel length 0 v hv)⟩
  · intro l hf
    have hsep := (separates_iff _ _).mp hf.2.2
    have h0 := hsep 0 (by simp)
    have h1 := hsep 1 (by simp)
    simp only [List.getD_cons_zero, List.getD_cons_succ] at h0 h1
    exact cutWeight_pathGraph_ge length w l 0 (length - 1) (by omega) (by omega)
      (by rw [h0, h1]; decide)

/-! ## The driver on the path -/

theorem pathGraph_halfEdges_mem (length w n : Nat) (he : HalfEdge)
    (h : he ∈ (pathGraph length w).halfEdges n) :
    n < length ∧ he.weight = w ∧ he.reverse ≤ 1 ∧
    ((he.target + 1 = n ∧ (he.reverse = 0 ↔ n = 1)) ∨
      (he.target = n + 1 ∧ n + 1 < length ∧ he.reverse = 0)) := by
  have hn : n < length := by
    by_contra hcon
    unfold mutable_graph.halfEdges at h
    rw [List.getD_eq_getElem?_getD, List.getElem?_eq_none (by
      have := pathGraph_n length w
      unfold mutable_graph.n at this
      omega)] at h
    cases h
  rw [pathGraph_halfEdges length w n hn] at h
  refine ⟨hn, ?_⟩
  rcases List.mem_append.mp h with h1 | h1
  · split at h1
    · rw [List.mem_singleton] at h1
      subst h1
      refine ⟨rfl, ?_, Or.inl ⟨?_, ?_⟩⟩
      · simp only
        split <;> omega
      · simp only
        omega
      · simp only
        constructor
        · intro h2
          by_contra h3
          rw [if_neg h3] at h2
          cases h2
        · intro h2
          rw [if_pos h2]
    · cases h1
  · split at h1
    · rename_i hlt
      rw [List.mem_singleton] at h1
      subst h1
      exact ⟨rfl, by simp, Or.inr ⟨rfl, hlt, rfl⟩⟩
    · cases h1

theorem pathGraph_halfEdges_length (length w n : Nat) (hn : n + 1 < length) :
    (if n = 0 then 1 else 2) = ((pathGraph length w).halfEdges n).length := by
  rw [pathGraph_halfEdges length w n (by omega)]
  by_cases h0 : n = 0
  · subst h0
    simp [hn]
  · have : 0 < n := by omega
    simp [h0, this, hn]

/-- The component labels of the path are all equal. -/
theorem strong_components_pathGraph (length w : Nat) :
    ∀ v, v < length →
      (strong_components_spec (pathGraph length w)).1.getD v 0
        = (strong_components_spec (pathGraph length w)).1.getD 0 0 := by
  intro v
  induction v with
  | zero => intro _; rfl
  | succ v ih =>
    intro hv
    have hmem : ({ target := v + 1, weight := w, reverse := 0 } : HalfEdge)
        ∈ (pathGraph length w).halfEdges v := by
      rw [pathGraph_halfEdges length w v (by omega)]
      apply List.mem_append_right
      rw [if_pos hv]
      exact List.mem_singleton.mpr rfl
    have h := strong_components_spec_closed (pathGraph length w)
      (pathGraph_targets length w) v (by rw [pathGraph_n]; omega) _ hmem
    simp only at h
    rw [h]
    exact ih (by omega)

/-- Extracting the component of a path all of whose vertices carry the label `c`
gives the path itself, with every vertex at its own position. -/
theorem extract_block_spec_pathGraph (length w c : Nat) (components : List Nat)
    (hall : ∀ v, v < length → components.getD v 0 = c) :
    extract_block_spec (pathGraph length w) c components
      = (pathGraph length w, List.range length) := by
  have hin : ∀ v, v < length → (components.getD v 0 == c) = true := by
    intro v hv
    rw [hall v hv]
    simp
  have hnodes : (pathGraph length w).nodes = List.range length := by
    unfold mutable_graph.nodes
    rw [pathGraph_n]
  have hmembers : (pathGraph length w).nodes.filter (fun v => components.getD v 0 == c)
      = List.range length := by
    rw [hnodes, List.filter_eq_self]
    intro v hv
    exact hin v (List.mem_range.mp hv)
  have hrm : (pathGraph length w).nodes.map
      (fun v => ((List.range v).filter (fun v => components.getD v 0 == c)).length)
      = List.range length := by
    rw [hnodes]
    apply List.ext_getElem
    · simp
    · intro i h1 h2
      have hi : i < length := by simpa using h2
      simp only [List.getElem_map, List.getElem_range]
      have : (List.range i).filter (fun v => components.getD v 0 == c) = List.range i := by
        rw [List.filter_eq_self]
        intro u hu
        exact hin u (by have := List.mem_range.mp hu; omega)
      rw [this, List.length_range]
  have hrmget : ∀ t, t < length → (List.range length).getD t 0 = t := by
    intro t ht
    rw [List.getD_eq_getElem?_getD, List.getElem?_eq_getElem (by simpa using ht)]
    simp
  have hadj : (List.range length).map (fun v =>
      (((pathGraph length w).halfEdges v).filter
        (fun he => components.getD he.target 0 == c)).map (fun he =>
          ({ target := (List.range length).getD he.target 0
             weight := he.weight
             reverse := ((((pathGraph length w).halfEdges he.target).take he.reverse).filter
                (fun r => components.getD r.target 0 == c)).length } : HalfEdge)))
      = (pathGraph length w).adjacency := by
    apply List.ext_getElem
    · simp [pathGraph]
    · intro i h1 h2
      have hi : i < length := by simpa using h1
      simp only [List.getElem_map, List.getElem_range]
      have hrow : (pathGraph length w).adjacency[i] = (pathGraph length w).halfEdges i := by
        unfold mutable_graph.halfEdges
        rw [List.getD_eq_getElem?_getD, List.getElem?_eq_getElem h2]
        rfl
      rw [hrow]
      have hfilt : ((pathGraph length w).halfEdges i).filter
          (fun he => components.getD he.target 0 == c) = (pathGraph length w).halfEdges i := by
        rw [List.filter_eq_self]
        intro he hhe
        have := pathGraph_targets length w i (by rw [pathGraph_n]; exact hi) he hhe
        rw [pathGraph_n] at this
        exact hin _ this
      rw [hfilt]
      conv_rhs => rw [← List.map_id ((pathGraph length w).halfEdges i)]
      apply List.map_congr_left
      intro he hhe
      have htl := pathGraph_targets length w i (by rw [pathGraph_n]; exact hi) he hhe
      rw [pathGraph_n] at htl
      obtain ⟨-, -, hr1, hcase⟩ := pathGraph_halfEdges_mem length w i he hhe
      have hrev : ((((pathGraph length w).halfEdges he.target).take he.reverse).filter
          (fun r => components.getD r.target 0 == c)).length = he.reverse := by
        have hf : (((pathGraph length w).halfEdges he.target).take he.reverse).filter
            (fun r => components.getD r.target 0 == c)
            = ((pathGraph length w).halfEdges he.target).take he.reverse := by
          rw [List.filter_eq_self]
          intro r hr
          have := pathGraph_targets length w he.target (by rw [pathGraph_n]; exact htl) r
            (List.mem_of_mem_take hr)
          rw [pathGraph_n] at this
          exact hin _ this
        rw [hf, List.length_take]
        rcases hcase with ⟨h3, h4⟩ | ⟨h3, h4, h5⟩
        · have hlen := pathGraph_halfEdges_length length w he.target (by omega)
          rw [← hlen]
          split <;> omega
        · rw [h5]
          simp
      rw [hrev, hrmget he.target htl]
      rfl
  unfold extract_block_spec
  simp only [hmembers, hrm, hadj, List.length_range]
  rfl

theorem filter_range_eq_singleton (m c0 : Nat) (h : c0 < m) (p : Nat → Bool)
    (hp : ∀ c, c < m → (p c = true ↔ c = c0)) :
    (List.range m).filter p = [c0] := by
  induction m with
  | zero => omega
  | succ m ih =>
    rw [List.range_succ, List.filter_append]
    by_cases hc : c0 = m
    · subst hc
      have h1 : (List.range c0).filter p = [] := by
        rw [List.filter_eq_nil_iff]
        intro c hcm
        have hlt := List.mem_range.mp hcm
        intro hpc
        have := (hp c (by omega)).mp hpc
        omega
      have h2 : p c0 = true := (hp c0 (by omega)).mpr rfl
      rw [h1]
      simp [h2]
    · have h1 := ih (by omega) (fun c hcm => hp c (by omega))
      have h2 : ¬ p m = true := by
        intro hpm
        have := (hp m (by omega)).mp hpm
        omega
      rw [h1]
      simp [h2]

/-- On the path with its two end vertices as terminals `splitConnectedComponents`
returns one subproblem: the path itself with the terminals at their positions. -/
theorem splitConnectedComponents_pathGraph (bfs_size bits length w : Nat) (hl : 2 ≤ length) :
    splitConnectedComponents (specEnv bfs_size bits) (pathGraph length w) [0, length - 1]
      = [multicut_problem.mk2 bits (pathGraph length w)
          [terminal.mk2 0 0, terminal.mk2 (length - 1) 1]] := by
  have hlab0 : ∀ v, v < length →
      (strong_components_spec (pathGraph length w)).1.getD v 0
        = (strong_components_spec (pathGraph length w)).1.getD 0 0 :=
    strong_components_pathGraph length w
  have hc0 := strong_components_spec_lt (pathGraph length w) 0 (by rw [pathGraph_n]; omega)
  have hsplit := splitConnectedComponents_eq (specEnv bfs_size bits) (pathGraph length w)
    [0, length - 1]
    (by
      intro t ht
      apply strong_components_spec_lt
      rw [pathGraph_n]
      simp only [List.mem_cons, List.mem_singleton, List.not_mem_nil, or_false] at ht
      rcases ht with h | h <;> omega)
  rw [hsplit]
  show ((List.range (strong_components_spec (pathGraph length w)).2).filter (fun c =>
      decide (2 ≤ (terminalsIn (strong_components_spec (pathGraph length w)).1
        [0, length - 1] c).length))).map
      (fun c => multicut_problem.mk2 bits
        (extract_block_spec (pathGraph length w) c
          (strong_components_spec (pathGraph length w)).1).1
        (blockTerminals (strong_components_spec (pathGraph length w)).1
          (extract_block_spec (pathGraph length w) c
            (strong_components_spec (pathGraph length w)).1).2 [0, length - 1] c)) = _
  have hterm : ∀ c, terminalsIn (strong_components_spec (pathGraph length w)).1
      [0, length - 1] c
      = if (strong_components_spec (pathGraph length w)).1.getD 0 0 = c
        then [0, length - 1] else [] := by
    intro c
    by_cases hc : (strong_components_spec (pathGraph length w)).1.getD 0 0 = c
    · rw [if_pos hc]
      unfold terminalsIn
      rw [List.filter_eq_self]
      intro t ht
      simp only [List.mem_cons, List.mem_singleton, List.not_mem_nil, or_false] at ht
      rcases ht with h | h
      · rw [h]
        exact decide_eq_true hc
      · rw [h]
        exact decide_eq_true ((hlab0 (length - 1) (by omega)).trans hc)
    · rw [if_neg hc]
      unfold terminalsIn
      rw [List.filter_eq_nil_iff]
      intro t ht
      simp only [List.mem_cons, List.mem_singleton, List.not_mem_nil, or_false] at ht
      rcases ht with h | h
      · rw [h]
        simpa using hc
      · rw [h, hlab0 (length - 1) (by omega)]
        simpa using hc
  rw [filter_range_eq_singleton _ _ hc0 _ (by
    intro c _
    rw [hterm c]
    by_cases hc : (strong_components_spec (pathGraph length w)).1.getD 0 0 = c
    · rw [if_pos hc]
      exact ⟨fun _ => hc.symm, fun _ => rfl⟩
    · rw [if_neg hc]
      exact ⟨fun h => absurd h (by decide), fun h => absurd h.symm hc⟩)]
  simp only [List.map_cons, List.map_nil]
  rw [extract_block_spec_pathGraph length w _ _ hlab0]
  simp only
  unfold blockTerminals
  rw [hterm, if_pos rfl]
  have h0 : (List.range length).getD 0 0 = 0 := by
    rw [List.getD_eq_getElem?_getD, List.getElem?_eq_getElem (by simp; omega)]
    simp
  have h1 : (List.range length).getD (length - 1) 0 = length - 1 := by
    rw [List.getD_eq_getElem?_getD, List.getElem?_eq_getElem (by simp; omega)]
    simp
  simp only [List.enum, List.enumFrom, List.map_cons, List.map_nil, h0, h1]

theorem bfsVisitEdges_path (bfs_size length w n : Nat) (es : List Nat) :
    ∀ (st : BfsState),
      (∀ e, e ∈ es → e < (pathGraph length w).get_first_invalid_edge n) →
      n ∈ st.block → PathSearchInv length st →
      PathSearchInv length (bfsVisitEdges bfs_size (pathGraph length w) n es st) := by
  induction es with
  | nil =>
    intro st _ _ h
    simpa only [bfsVisitEdges] using h
  | cons e es ih =>
    intro st hes hn hinv
    have hes2 : ∀ e, e ∈ es → e < (pathGraph length w).get_first_invalid_edge n :=
      fun e2 h2 => hes e2 (List.mem_cons_of_mem _ h2)
    obtain ⟨hblock, hpos, hflag, hq, hlen⟩ := hinv
    have hmem : ((pathGraph length w).halfEdges n).getD e default
        ∈ (pathGraph length w).halfEdges n :=
      getD_mem _ _ _ (hes e (List.mem_cons_self _ _))
    obtain ⟨hnl, -, -, hcase⟩ := pathGraph_halfEdges_mem length w n _ hmem
    have hnlt : n < st.block.length := by
      rw [hblock] at hn
      exact List.mem_range.mp hn
    simp only [bfsVisitEdges]
    split
    · rename_i hun
      have htgt : (pathGraph length w).getEdgeTarget n e = st.block.length := by
        have hnot : (pathGraph length w).getEdgeTarget n e ∉ st.block := by
          intro hin
          rw [hflag _ hin] at hun
          cases hun
        rw [hblock, List.mem_range] at hnot
        rcases hcase with ⟨h1, -⟩ | ⟨h1, -, -⟩
        · exfalso
          apply hnot
          have h2 : (pathGraph length w).getEdgeTarget n e + 1 = n := h1
          omega
        · have : (pathGraph length w).getEdgeTarget n e = n + 1 := h1
          omega
      have htl : (pathGraph length w).getEdgeTarget n e < length := by
        have := pathGraph_targets length w n (by rw [pathGraph_n]; exact hnl) _ hmem
        rw [pathGraph_n] at this
        exact this
      have hinv1 : PathSearchInv length
          { already_in_block := st.already_in_block.set
              ((pathGraph length w).getEdgeTarget n e) true
            bfs_q := st.bfs_q ++ [(pathGraph length w).getEdgeTarget n e]
            block := st.block ++ [(pathGraph length w).getEdgeTarget n e]
            current_block_size := st.current_block_size + 1
            reached := st.reached ++ [(pathGraph length w).getEdgeTarget n e] } := by
        refine ⟨?_, ?_, ?_, ?_, ?_⟩
        · simp only [List.length_append, List.length_cons, List.length_nil]
          rw [List.range_succ, ← hblock, htgt]
        · simp
        · intro v hv
          simp only at hv ⊢
          by_cases hvt : (pathGraph length w).getEdgeTarget n e = v
          · rw [← hvt]
            exact getD_set_self _ _ _ _ (by rw [hlen]; exact htl)
          · rw [getD_set_other _ _ _ _ _ hvt]
            rcases List.mem_append.mp hv with h | h
            · exact hflag v h
            · rw [List.mem_singleton] at h
              exact absurd h.symm hvt
        · intro q hq2
          simp only at hq2 ⊢
          rcases List.mem_append.mp hq2 with h | h
          · exact List.mem_append_left _ (hq q h)
          · exact List.mem_append_right _ h
        · simp only [List.length_set]
          exact hlen
      split
      · exact hinv1
      · exact ih _ hes2 (List.mem_append_left _ hn) hinv1
    · exact ih { st with reached := st.reached ++ [(pathGraph length w).getEdgeTarget n e] }
        hes2 hn ⟨hblock, hpos, hflag, hq, hlen⟩

theorem bfsWhile_path (bfs_size length w : Nat) (fuel : Nat) :
    ∀ (st : BfsState), PathSearchInv length st →
      PathSearchInv length (bfsWhile bfs_size (pathGraph length w) fuel st) := by
  induction fuel with
  | zero => intro st h; exact h
  | succ fuel ih =>
    intro st h
    cases hbq : st.bfs_q with
    | nil => simpa only [bfsWhile, hbq] using h
    | cons n q =>
      simp only [bfsWhile, hbq]
      split
      · apply ih
        obtain ⟨h1, h2, h3, h4, h5⟩ := h
        apply bfsVisitEdges_path bfs_size length w n (_) { st with bfs_q := q }
        · intro e he
          simpa [mutable_graph.edges_of] using he
        · exact h4 n (by rw [hbq]; exact List.mem_cons_self _ _)
        · exact ⟨h1, h2, h3, fun x hx => h4 x (by rw [hbq]; exact List.mem_cons_of_mem _ hx),
            h5⟩
      · exact h

/-- The search from vertex 0 of a path collects `0, 1, 2, …` in this order. -/
theorem bfsFrom_path (bfs_size length w : Nat) (f0 : List Bool)
    (h0 : f0.getD 0 false = true) (hlen : f0.length = length) :
    (bfsFrom bfs_size (pathGraph length w) f0 0).block
      = List.range (bfsFrom bfs_size (pathGraph length w) f0 0).block.length ∧
    0 < (bfsFrom bfs_size (pathGraph length w) f0 0).block.length := by
  have h := bfsWhile_path bfs_size length w bfs_size
    { already_in_block := f0, bfs_q := [0], block := [0],
      current_block_size := 1, reached := [0] }
    ⟨rfl, by simp, by
      intro v hv
      simp only [List.mem_singleton] at hv
      rw [hv]
      exact h0, fun q hq => hq, hlen⟩
  exact ⟨h.1, h.2.1⟩

/-- The blocks the search builds on the path for its two end vertices: the first is
`0, 1, …, j` and misses the last vertex, the second starts with the last vertex. -/
theorem buildBlocks_pathGraph (bfs_size length w : Nat) (hl : 2 ≤ length) :
    ∃ j tl, j + 1 < length ∧
      buildBlocks bfs_size (pathGraph length w) [0, length - 1]
        = [List.range (j + 1), (length - 1) :: tl] := by
  have hlt : ∀ t, t ∈ [0, length - 1] → t < (pathGraph length w).number_of_nodes := by
    intro t ht
    show t < (pathGraph length w).n
    rw [pathGraph_n]
    simp only [List.mem_cons, List.mem_singleton, List.not_mem_nil, or_false] at ht
    rcases ht with h | h <;> omega
  have htgt : ∀ v h, h ∈ (pathGraph length w).halfEdges v →
      h.target < (pathGraph length w).number_of_nodes := by
    intro v h hh
    obtain ⟨hv, -⟩ := pathGraph_halfEdges_mem length w v h hh
    exact pathGraph_targets length w v (by rw [pathGraph_n]; exact hv) h hh
  have hlen : (buildBlocks bfs_size (pathGraph length w) [0, length - 1]).length = 2 := by
    have := (searchFold_each bfs_size (pathGraph length w) (fun _ _ => True)
      (fun _ _ => trivial) (markTerminals (pathGraph length w) [0, length - 1])
      [0, length - 1]).1
    simp only [buildBlocks, List.length_map]
    exact this
  obtain ⟨tl0, hb0, -, hno0, -, -⟩ :=
    search_result bfs_size (pathGraph length w) [0, length - 1] hlt htgt 0 (by simp)
  obtain ⟨tl1, hb1, -, -, -, -⟩ :=
    search_result bfs_size (pathGraph length w) [0, length - 1] hlt htgt 1 (by simp)
  rw [← blocks_getD bfs_size (pathGraph length w) [0, length - 1] 0 (by simp)] at hb0
  rw [← blocks_getD bfs_size (pathGraph length w) [0, length - 1] 1 (by simp)] at hb1
  simp only [List.getD_cons_zero, List.getD_cons_succ] at hb0 hb1
  obtain ⟨hm1, hm2⟩ := markTerminals_spec (pathGraph length w) [0, length - 1] hlt
  have hpath := bfsFrom_path bfs_size length w
    (markTerminals (pathGraph length w) [0, length - 1])
    ((hm2 0).mpr (List.mem_cons_self _ _))
    (by
      rw [hm1]
      show (pathGraph length w).n = length
      exact pathGraph_n length w)
  have hfirst : (buildBlocks bfs_size (pathGraph length w) [0, length - 1]).getD 0 []
      = (bfsFrom bfs_size (pathGraph length w)
          (markTerminals (pathGraph length w) [0, length - 1]) 0).block := by
    rw [blocks_getD bfs_size (pathGraph length w) [0, length - 1] 0 (by simp),
      searchAll_eq_bfsFrom bfs_size (pathGraph length w) [0, length - 1] 0 (by simp)]
    rfl
  rw [← hfirst] at hpath
  obtain ⟨hrange, hpos⟩ := hpath
  have hlast : length - 1 ∉ (buildBlocks bfs_size (pathGraph length w)
      [0, length - 1]).getD 0 [] := by
    rw [hb0]
    intro hin
    rcases List.mem_cons.mp hin with h | h
    · omega
    · exact (hno0 _ h).1 (List.mem_cons_of_mem _ (List.mem_singleton.mpr rfl))
  have hshort : ((buildBlocks bfs_size (pathGraph length w) [0, length - 1]).getD 0 []).length
      ≤ length - 1 := by
    by_contra hcon
    apply hlast
    rw [hrange, List.mem_range]
    omega
  refine ⟨((buildBlocks bfs_size (pathGraph length w) [0, length - 1]).getD 0 []).length - 1,
    tl1, by omega, ?_⟩
  have hj : ((buildBlocks bfs_size (pathGraph length w) [0, length - 1]).getD 0 []).length
      - 1 + 1
      = ((buildBlocks bfs_size (pathGraph length w) [0, length - 1]).getD 0 []).length := by
    omega
  rw [hj, ← hrange, ← hb1]
  generalize buildBlocks bfs_size (pathGraph length w) [0, length - 1] = blocks at hlen ⊢
  match blocks, hlen with
  | [a, b], _ => rfl

theorem blockHead_pathBlocks (length j v : Nat) (tl : List Nat) (hl : 2 ≤ length) :
    blockHead [List.range (j + 1), (length - 1) :: tl] v = 0 ↔ v ≤ j := by
  unfold blockHead
  by_cases hv : v ≤ j
  · have hc : (List.range (j + 1)).contains v = true := by
      simp only [List.contains, List.elem_eq_mem, decide_eq_true_eq, List.mem_range]
      omega
    simp only [List.find?_cons, hc]
    rw [List.range_succ_eq_map]
    simp [hv]
  · have hc : (List.range (j + 1)).contains v = false := by
      simp only [List.contains, List.elem_eq_mem, decide_eq_false_iff_not, List.mem_range]
      omega
    simp only [List.find?_cons, hc]
    by_cases hc2 : ((length - 1) :: tl).contains v = true
    · simp only [hc2, List.headD_cons]
      constructor
      · intro h; omega
      · intro h; exact absurd h hv
    · have hc3 : ((length - 1) :: tl).contains v = false := by simpa using hc2
      simp only [hc3, List.find?_nil]
      constructor
      · intro h; omega
      · intro h; exact absurd h hv

theorem contractedId_pathBlocks (length w j v : Nat) (tl : List Nat) (hl : 2 ≤ length)
    (hv : v < length) :
    contractedId (pathGraph length w) [List.range (j + 1), (length - 1) :: tl] v
        = contractedId (pathGraph length w) [List.range (j + 1), (length - 1) :: tl] 0
      ↔ v ≤ j := by
  unfold contractedId
  have hmem : ∀ x, x < length →
      blockHead [List.range (j + 1), (length - 1) :: tl] x
        ∈ ((pathGraph length w).nodes.map
            (blockHead [List.range (j + 1), (length - 1) :: tl])).dedup := by
    intro x hx
    rw [List.mem_dedup, List.mem_map]
    exact ⟨x, by simpa [mutable_graph.nodes, pathGraph_n] using hx, rfl⟩
  rw [List.indexOf_inj (hmem v hv) (hmem 0 (by omega))]
  have h0 : blockHead [List.range (j + 1), (length - 1) :: tl] 0 = 0 :=
    (blockHead_pathBlocks length j 0 tl hl).mpr (by omega)
  rw [h0]
  exact blockHead_pathBlocks length j v tl hl

/-- When every half-edge ends at a vertex of the graph, a labelling of the contracted
graph cuts the weight that its lifting cuts in the graph. -/
theorem cutWeight_contracted_eq_lifted (mcp : multicut_problem) (blocks : List (List Nat))
    (label : List Nat)
    (hwf : ∀ v, v < mcp.graph.n → ∀ he, he ∈ mcp.graph.halfEdges v → he.target < mcp.graph.n) :
    cutWeight (contractIsolatingBlocks_spec mcp blocks).graph label
      = cutWeight mcp.graph (liftedLabelling mcp.graph blocks label) := by
  rw [cutWeight_contracted]
  unfold cutWeight
  apply congrArg
  apply List.map_congr_left
  intro v hv
  have hvn : v < mcp.graph.n := by simpa [mutable_graph.nodes] using hv
  apply congrArg
  apply List.map_congr_left
  intro he hhe
  have ht := hwf v hvn he hhe
  rw [labelOf_liftedLabelling, labelOf_liftedLabelling, if_pos hvn, if_pos ht,
    if_pos (contractedId_lt mcp.graph blocks he.target ht)]

/-- On the path with its end vertices as terminals the engine of the specification
finds the weight of one edge, whatever `bfs_size` is configured. -/
theorem optimum_after_search_pathGraph (bfs_size bits length w : Nat) (hl : 2 ≤ length) :
    optimum
      (addSurroundingAreaToTerminals (specEnv bfs_size bits)
        (multicut_problem.mk2 bits (pathGraph length w)
          [terminal.mk2 0 0, terminal.mk2 (length - 1) 1]) [0, length - 1]).graph
      ((addSurroundingAreaToTerminals (specEnv bfs_size bits)
        (multicut_problem.mk2 bits (pathGraph length w)
          [terminal.mk2 0 0, terminal.mk2 (length - 1) 1]) [0, length - 1]).terminals.map
        (fun t => t.position))
      = some w := by
  by_cases hb : bfs_size = 0
  · have hsame : addSurroundingAreaToTerminals (specEnv bfs_size bits)
        (multicut_problem.mk2 bits (pathGraph length w)
          [terminal.mk2 0 0, terminal.mk2 (length - 1) 1]) [0, length - 1]
        = multicut_problem.mk2 bits (pathGraph length w)
          [terminal.mk2 0 0, terminal.mk2 (length - 1) 1] := by
      have hb2 : (specEnv bfs_size bits).bfs_size = 0 := hb
      unfold addSurroundingAreaToTerminals
      rw [if_neg (not_not.mpr hb2)]
    rw [hsame]
    exact optimum_pathGraph length w hl
  · obtain ⟨hadj, hterm⟩ := addSurroundingAreaToTerminals_spec bfs_size bits hb
      (multicut_problem.mk2 bits (pathGraph length w)
        [terminal.mk2 0 0, terminal.mk2 (length - 1) 1]) [0, length - 1]
    rw [optimum_congr _ _ hadj, hterm]
    obtain ⟨j, tl, hj, hblocks⟩ := buildBlocks_pathGraph bfs_size length w hl
    have hg : (multicut_problem.mk2 bits (pathGraph length w)
        [terminal.mk2 0 0, terminal.mk2 (length - 1) 1]).graph = pathGraph length w := rfl
    rw [hg, hblocks]
    generalize hmcp : multicut_problem.mk2 bits (pathGraph length w)
      [terminal.mk2 0 0, terminal.mk2 (length - 1) 1] = mcp
    have hgraph : mcp.graph = pathGraph length w := by
      rw [← hmcp]
      rfl
    have hterms : mcp.terminals.map (fun t => t.position) = [0, length - 1] := by
      rw [← hmcp]; rfl
    have hT : ∀ t, t ∈ mcp.terminals → t.position < mcp.graph.n := by
      intro t ht
      have : t.position ∈ mcp.terminals.map (fun t => t.position) :=
        List.mem_map.mpr ⟨t, ht, rfl⟩
      rw [hterms] at this
      rw [hgraph, pathGraph_n]
      simp only [List.mem_cons, List.mem_singleton, List.not_mem_nil, or_false] at this
      rcases this with h | h <;> omega
    have hwf : ∀ v, v < mcp.graph.n → ∀ he, he ∈ mcp.graph.halfEdges v →
        he.target < mcp.graph.n := by
      rw [hgraph]
      exact pathGraph_targets length w
    have hcterms : (contractIsolatingBlocks_spec mcp
        [List.range (j + 1), (length - 1) :: tl]).terminals.map (fun t => t.position)
        = [contractedId (pathGraph length w) [List.range (j + 1), (length - 1) :: tl] 0,
           contractedId (pathGraph length w) [List.range (j + 1), (length - 1) :: tl]
             (length - 1)] := by
      rw [← hmcp]
      rfl
    have hlower : ∀ l, feasible (contractIsolatingBlocks_spec mcp
        [List.range (j + 1), (length - 1) :: tl]).graph
        ((contractIsolatingBlocks_spec mcp
          [List.range (j + 1), (length - 1) :: tl]).terminals.map (fun t => t.position)) l →
        w ≤ cutWeight (contractIsolatingBlocks_spec mcp
          [List.range (j + 1), (length - 1) :: tl]).graph l := by
      intro l hf
      have h1 := feasible_lifted mcp _ l hT hf
      rw [hgraph, hterms] at h1
      have h2 := ((optimum_eq_some_iff _ _ _).mp (optimum_pathGraph length w hl)).2 _ h1
      have h3 := cutWeight_lifted_le mcp [List.range (j + 1), (length - 1) :: tl] l
      rw [hgraph] at h3
      omega
    rw [optimum_eq_some_iff]
    refine ⟨?_, hlower⟩
    have hn : (contractIsolatingBlocks_spec mcp
        [List.range (j + 1), (length - 1) :: tl]).graph.n
        = (((pathGraph length w).nodes.map
            (blockHead [List.range (j + 1), (length - 1) :: tl])).dedup).length := by
      rw [contracted_n, hgraph]
    have hcid : ∀ v, v < length →
        contractedId (pathGraph length w) [List.range (j + 1), (length - 1) :: tl] v
          < (((pathGraph length w).nodes.map
            (blockHead [List.range (j + 1), (length - 1) :: tl])).dedup).length := by
      intro v hv
      exact contractedId_lt _ _ v (by rw [pathGraph_n]; exact hv)
    have hlab : ∀ v, v < length →
        labelOf ((List.range (((pathGraph length w).nodes.map
            (blockHead [List.range (j + 1), (length - 1) :: tl])).dedup).length).map
          (fun a => if a = contractedId (pathGraph length w)
            [List.range (j + 1), (length - 1) :: tl] 0 then 0 else 1))
          (contractedId (pathGraph length w) [List.range (j + 1), (length - 1) :: tl] v)
        = if v ≤ j then 0 else 1 := by
      intro v hv
      unfold labelOf
      rw [getD_map_range _ _ _ _ (hcid v hv)]
      by_cases hvj : v ≤ j
      · rw [if_pos ((contractedId_pathBlocks length w j v tl hl hv).mpr hvj), if_pos hvj]
      · rw [if_neg (fun h => hvj ((contractedId_pathBlocks length w j v tl hl hv).mp h)),
          if_neg hvj]
    refine ⟨(List.range (((pathGraph length w).nodes.map
        (blockHead [List.range (j + 1), (length - 1) :: tl])).dedup).length).map
        (fun a => if a = contractedId (pathGraph length w)
          [List.range (j + 1), (length - 1) :: tl] 0 then 0 else 1), ⟨?_, ?_, ?_⟩, ?_⟩
    · rw [hn]
      simp
    · intro x hx
      rw [List.mem_map] at hx
      obtain ⟨a, -, rfl⟩ := hx
      rw [hcterms]
      split <;> simp
    · rw [hcterms, separates_iff]
      intro i hi
      simp only [List.length_cons, List.length_nil] at hi
      have hcases : i = 0 ∨ i = 1 := by omega
      rcases hcases with h | h
      · subst h
        simp only [List.getD_cons_zero]
        rw [hlab 0 (by omega), if_pos (by omega)]
      · subst h
        simp only [List.getD_cons_succ, List.getD_cons_zero]
        rw [hlab (length - 1) (by omega), if_neg (by omega)]
    · rw [cutWeight_contracted_eq_lifted mcp _ _ hwf, hgraph]
      apply cutWeight_pathGraph_split length w j _ hj
      intro v hv
      rw [labelOf_liftedLabelling, if_pos (by rw [pathGraph_n]; exact hv)]
      exact hlab v hv

/-- The multiterminal driver on the path on `length ≥ 2` vertices whose edges all
have the weight `w`, with the two end vertices as terminals, returns `w`, for every
configured `bfs_size`, when `w` is a `FlowType` value. -/
theorem multicut_pathGraph (bfs_size bits length w : Nat) (hl : 2 ≤ length)
    (hbits : 0 < bits) (hb64 : bits ≤ 64) (hfit : (w : Int) < 2 ^ (bits - 1)) :
    multicut (specEnv bfs_size bits) (pathGraph length w) [0, length - 1] = w := by
  unfold multicut
  rw [splitConnectedComponents_pathGraph bfs_size bits length w hl,
    multicutLoop_fst (specEnv bfs_size bits) hbits]
  have hengine : engineValue (specEnv bfs_size bits)
      (multicut_problem.mk2 bits (pathGraph length w)
        [terminal.mk2 0 0, terminal.mk2 (length - 1) 1])
      = wrapFlow bits ((w : Nat) : Int) := by
    have hopt := optimum_after_search_pathGraph bfs_size bits length w hl
    show wrapFlow bits (((optimum
      (addSurroundingAreaToTerminals (specEnv bfs_size bits)
        (multicut_problem.mk2 bits (pathGraph length w)
          [terminal.mk2 0 0, terminal.mk2 (length - 1) 1]) [0, length - 1]).graph
      ((addSurroundingAreaToTerminals (specEnv bfs_size bits)
        (multicut_problem.mk2 bits (pathGraph length w)
          [terminal.mk2 0 0, terminal.mk2 (length - 1) 1]) [0, length - 1]).terminals.map
        (fun t => t.position))).getD 0 : Nat) : Int) = _
    rw [hopt]
    rfl
  simp only [List.map_cons, List.map_nil, List.sum_cons, List.sum_nil, Int.add_zero]
  rw [hengine]
  have hflow : (specEnv bfs_size bits).flow_bits = bits := rfl
  rw [hflow]
  have hw0 : (0 : Int) ≤ (w : Int) := Int.ofNat_nonneg _
  have hpos : (0 : Int) < 2 ^ (bits - 1) := by positivity
  rw [wrapFlow_of_range bits hbits _ (by omega) hfit,
    wrapFlow_of_range bits hbits _ (by omega) hfit]
  have hle : (2 : Int) ^ (bits - 1) ≤ 2 ^ 63 := pow_le_pow_right₀ (by norm_num) (by omega)
  have hsz : ((size_t_mod : Nat) : Int) = 2 ^ 64 := by
    unfold size_t_mod
    norm_num
  have h63 : (2 : Int) ^ 63 < 2 ^ 64 := by norm_num
  have hcast := toSizeT_of_range (w : Int) hw0 (by rw [hsz]; omega)
  exact Int.ofNat_inj.mp hcast

/-- The path on 10 vertices with unit edges and the terminals 0 and 9: the driver
returns 1. -/
theorem multicut_path_ten : multicut (specEnv 3 64) (pathGraph 10 1) [0, 9] = 1 :=
  multicut_pathGraph 3 64 10 1 (by decide) (by decide) (by decide) (by decide)

/-! ## The path, evaluated -/

theorem multicut_path_four : multicut (specEnv 2 64) (pathGraph 4 7) [0, 3] = 7 := by decide

theorem buildBlocks_path_four : buildBlocks 2 (pathGraph 4 7) [0, 3] = [[0, 1], [3, 2]] := by
  decide

end VieCut
